import Mathlib

/-!
# Ray tracer: sphere intersection and recursive shading

A shallow embedding of `src/vec.h`, `src/orb.h` and the function `trace` of
`src/RayTracing.cpp`.

The C++ code computes with `float`.  The embedding is generic in the scalar
type `F` (an ordered field) and in the square-root function `sqrt : F → F`,
so that every definition is an ordinary computable function.  The theorems
instantiate `F` with the real numbers and `sqrt` with `Real.sqrt`: they are
statements about the exact-arithmetic reading of the code, with no rounding,
no infinities and no NaN.

* `Vec F` is `Vec<T>`; its operators keep the meaning they have in the source.
* `orb F` is the class `orb`; `orb.intersect` returns `none` where the source
  returns `false`, and `some (t0, t1)` where it returns `true` after writing
  the two out-parameters.
* The scene `std::vector<orb *>` is a `List (orb F)`; only the fields of the
  pointed-to spheres are ever read.
* `depth` is an `int`, here an `Int`.
* `traceM` is `trace` with the depth limit as a parameter, `traceFuel` is `trace`
  with a bound on the nesting of calls, and `traceCalls` lists the recursive
  calls of one invocation; each is tied to `trace` by a theorem.

A second embedding of the same code, the definitions whose names end in `32`,
computes as the program does: in binary32, with every operation rounded.  It is
used where rounding decides what `trace` returns: a reflected ray whose offset
`bias` is lost in `orb::intersect`.
-/

namespace RayTracing

/-! ## `vec.h` -/

/-- The class `Vec<T>`: three components. -/
@[ext]
structure Vec (F : Type) where
  x : F
  y : F
  z : F

section Defs

variable {F : Type} [LinearOrderedField F]

/-- The constructor `Vec(T xx)`: all three components equal. -/
def Vec.splat (xx : F) : Vec F := ⟨xx, xx, xx⟩

/-- The operator `Vec * T`: scale every component. -/
def Vec.scale (v : Vec F) (f : F) : Vec F := ⟨v.x * f, v.y * f, v.z * f⟩

/-- The operator `Vec - Vec`. -/
def Vec.sub (v w : Vec F) : Vec F := ⟨v.x - w.x, v.y - w.y, v.z - w.z⟩

/-- The operator `Vec + Vec`. -/
def Vec.add (v w : Vec F) : Vec F := ⟨v.x + w.x, v.y + w.y, v.z + w.z⟩

/-- The operator `Vec * Vec`: the componentwise product. -/
def Vec.mul (v w : Vec F) : Vec F := ⟨v.x * w.x, v.y * w.y, v.z * w.z⟩

/-- The method `dot`. -/
def Vec.dot (v w : Vec F) : F := v.x * w.x + v.y * w.y + v.z * w.z

/-- The unary operator `-Vec`. -/
def Vec.neg (v : Vec F) : Vec F := ⟨-v.x, -v.y, -v.z⟩

/-- The method `length`: `sqrt(x*x + y*y + z*z)`. -/
def Vec.length (sqrt : F → F) (v : Vec F) : F := sqrt (v.x * v.x + v.y * v.y + v.z * v.z)

/-- The method `normalize`, as the value the vector holds afterwards: scaled by
`1 / length` when the length is positive, unchanged otherwise. -/
def Vec.normalize (sqrt : F → F) (v : Vec F) : Vec F :=
  let nor := v.length sqrt
  if nor > 0 then
    let invNor := 1 / nor
    ⟨v.x * invNor, v.y * invNor, v.z * invNor⟩
  else v

instance : Add (Vec F) := ⟨Vec.add⟩
instance : Sub (Vec F) := ⟨Vec.sub⟩
instance : Mul (Vec F) := ⟨Vec.mul⟩
instance : Neg (Vec F) := ⟨Vec.neg⟩

/-! ## `orb.h` -/

/-- The class `orb`: a sphere with its material. -/
structure orb (F : Type) where
  center : Vec F
  radius : F
  radius2 : F
  surfaceColor : Vec F
  emissionColor : Vec F
  transparency : F
  reflection : F

/-- The constructor `orb(c, r, sc, refl, transp, ec)`: `radius2` is `r * r`. -/
def orb.new (c : Vec F) (r : F) (sc : Vec F) (refl transp : F) (ec : Vec F) : orb F :=
  { center := c, radius := r, radius2 := r * r, surfaceColor := sc,
    emissionColor := ec, transparency := transp, reflection := refl }

/-- The method `orb::intersect`: `none` for `false`, `some (t0, t1)` for `true`. -/
def orb.intersect (sqrt : F → F) (s : orb F) (rayorig raydir : Vec F) : Option (F × F) :=
  let l := s.center - rayorig
  let cos := l.dot raydir
  if cos < 0 then none
  else
    let d2 := l.dot l - cos * cos
    if d2 > s.radius2 then none
    else
      let thc := sqrt (s.radius2 - d2)
      some (cos - thc, cos + thc)

/-! ## `RayTracing.cpp` -/

/-- The constant `MAX_RAY_DEPTH`. -/
def MAX_RAY_DEPTH : Int := 5

/-- The function `mix`. -/
def mix (a b m : F) : F := b * m + a * (1 - m)

/-- The local constant `bias = 1e-4` of `trace`. -/
def bias : F := 1 / 10000

/-- One iteration of the first loop of `trace`.  The state is `none` while
`orb == nullptr` (then `tnear` is `INFINITY`, above every distance), and
`some (tnear, orb)` afterwards. -/
def nearestStep (sqrt : F → F) (rayorig raydir : Vec F)
    (st : Option (F × orb F)) (i : orb F) : Option (F × orb F) :=
  match i.intersect sqrt rayorig raydir with
  | none => st
  | some (t0, t1) =>
    let t0 := if t0 < 0 then t1 else t0
    match st with
    | none => some (t0, i)
    | some (tnear, _) => if t0 < tnear then some (t0, i) else st

/-- The first loop of `trace`: the nearest sphere on the ray, with its distance. -/
def nearest (sqrt : F → F) (rayorig raydir : Vec F) (orbs : List (orb F)) :
    Option (F × orb F) :=
  orbs.foldl (nearestStep sqrt rayorig raydir) none

/-- The hit point `phit = rayorig + raydir.scale tnear`. -/
def hitPoint (rayorig raydir : Vec F) (tnear : F) : Vec F := rayorig + raydir.scale tnear

/-- The normal `nhit` of `trace`: `phit - center` normalized, then negated when
`raydir.dot(nhit) > 0`. -/
def hitNormal (sqrt : F → F) (raydir phit : Vec F) (o : orb F) : Vec F :=
  let nhit := (phit - o.center).normalize sqrt
  if raydir.dot nhit > 0 then -nhit else nhit

/-- The value `fresneleffect` of `trace`. -/
def fresnel (raydir nhit : Vec F) : F :=
  let IdotN := raydir.dot nhit
  let facingratio := max 0 (-IdotN)
  mix ((1 - facingratio) ^ 3) 1 (1 / 10)

/-- The direction `refldir` of `trace`, normalized. -/
def reflectDir (sqrt : F → F) (raydir nhit : Vec F) : Vec F :=
  (raydir - (nhit.scale 2).scale (raydir.dot nhit)).normalize sqrt

/-- The direction `refrdir` of `trace`, normalized: `ior = 1.2`, `eta = 1 / ior`. -/
def refractDir (sqrt : F → F) (raydir nhit : Vec F) : Vec F :=
  let IdotN := raydir.dot nhit
  let ior : F := 12 / 10
  let eta := 1 / ior
  let k := 1 - eta * eta * (1 - IdotN * IdotN)
  (raydir.scale eta - nhit.scale (eta * IdotN + sqrt k)).normalize sqrt

/-- The color the specular branch of `trace` assigns to `surfaceColor`, from the
colors `reflection` and `refraction` of the two secondary rays. -/
def specularColor (o : orb F) (fresneleffect : F) (reflection refraction : Vec F) : Vec F :=
  let reflect_color := reflection.scale fresneleffect
  let refract_color := (refraction.scale (1 - fresneleffect)).scale o.transparency
  (reflect_color + refract_color) * o.surfaceColor

/-- One iteration of the inner loop (index `j`) of the diffuse branch, for the
light of index `i`.  The state is `(shadow, transmission)`. -/
def shadowStep (sqrt : F → F) (i : Nat) (org lightDirection : Vec F)
    (st : F × Vec F) (jo : Nat × orb F) : F × Vec F :=
  if i ≠ jo.1 then
    match jo.2.intersect sqrt org lightDirection with
    | some _ =>
      let shadow := max 0 (st.1 - (1 - jo.2.transparency))
      (shadow, st.2.scale shadow)
    | none => st
  else st

/-- The inner loop of the diffuse branch for the light of index `i`, started
with the running `shadow` and `transmission = 1`. -/
def shadowLoop (sqrt : F → F) (orbs : List (orb F)) (i : Nat) (org lightDirection : Vec F)
    (shadow : F) : F × Vec F :=
  orbs.enum.foldl (shadowStep sqrt i org lightDirection) (shadow, Vec.splat 1)

/-- One iteration of the outer loop (index `i`) of the diffuse branch.  The state
is `(shadow, surfaceColor)`; `sc` is the surface color of the hit sphere. -/
def lightStep (sqrt : F → F) (orbs : List (orb F)) (sc phit nhit : Vec F)
    (st : F × Vec F) (io : Nat × orb F) : F × Vec F :=
  if io.2.emissionColor.x > 0 then
    let lightDirection := (io.2.center - phit).normalize sqrt
    let r := shadowLoop sqrt orbs io.1 (phit + nhit.scale bias) lightDirection st.1
    (r.1, st.2 + sc * r.2 * io.2.emissionColor)
  else st

/-- The diffuse branch of `trace`: `shadow` starts at `1`, `surfaceColor` at the
value `1.0` it is declared with, and the outer loop runs over the whole scene. -/
def diffuse (sqrt : F → F) (orbs : List (orb F)) (sc phit nhit : Vec F) : Vec F :=
  (orbs.enum.foldl (lightStep sqrt orbs sc phit nhit) (1, Vec.splat 1)).2

/-- The function `trace`.  The recursion is well founded on
`MAX_RAY_DEPTH - depth`, clamped at zero. -/
def trace (sqrt : F → F) (rayorig raydir : Vec F) (orbs : List (orb F)) (depth : Int) : Vec F :=
  match nearest sqrt rayorig raydir orbs with
  | none => ⟨1, 1, 1⟩
  | some (tnear, o) =>
    let phit := hitPoint rayorig raydir tnear
    let nhit := hitNormal sqrt raydir phit o
    if (o.transparency > 0 ∨ o.reflection > 0) ∧ depth < MAX_RAY_DEPTH then
      let reflection :=
        trace sqrt (phit + nhit.scale bias) (reflectDir sqrt raydir nhit) orbs (depth + 1)
      let refraction :=
        if o.transparency > 0 then
          trace sqrt (phit - nhit.scale bias) (refractDir sqrt raydir nhit) orbs (depth + 1)
        else Vec.splat 0
      specularColor o (fresnel raydir nhit) reflection refraction
    else
      diffuse sqrt orbs o.surfaceColor phit nhit
termination_by (MAX_RAY_DEPTH - depth).toNat
decreasing_by
  all_goals simp_wf
  all_goals (simp only [MAX_RAY_DEPTH] at *; omega)

/-- The function `trace` run with a bound `fuel` on the nesting of its calls:
each call spends one unit, a recursive call is made with what is left, and the
result is `none` when a call is reached with nothing left.  The guard of the
recursive calls and their argument `depth + 1` are those of the source; no
termination argument enters this definition. -/
def traceFuel (sqrt : F → F) : Nat → Vec F → Vec F → List (orb F) → Int → Option (Vec F)
  | 0, _, _, _, _ => none
  | fuel + 1, rayorig, raydir, orbs, depth =>
    match nearest sqrt rayorig raydir orbs with
    | none => some ⟨1, 1, 1⟩
    | some (tnear, o) =>
      let phit := hitPoint rayorig raydir tnear
      let nhit := hitNormal sqrt raydir phit o
      if (o.transparency > 0 ∨ o.reflection > 0) ∧ depth < MAX_RAY_DEPTH then
        match traceFuel sqrt fuel (phit + nhit.scale bias) (reflectDir sqrt raydir nhit) orbs
            (depth + 1) with
        | none => none
        | some reflection =>
          if o.transparency > 0 then
            match traceFuel sqrt fuel (phit - nhit.scale bias) (refractDir sqrt raydir nhit) orbs
                (depth + 1) with
            | none => none
            | some refraction => some (specularColor o (fresnel raydir nhit) reflection refraction)
          else some (specularColor o (fresnel raydir nhit) reflection (Vec.splat 0))
      else
        some (diffuse sqrt orbs o.surfaceColor phit nhit)

/-! ## Notions used to state the properties -/

/-- The point `p` lies on the surface of the sphere: its squared distance to the
center equals `radius2`. -/
def orb.onSurface (s : orb F) (p : Vec F) : Prop :=
  (p - s.center).dot (p - s.center) = s.radius2

/-- The effective distance of a sphere on a ray: `t0` when `orb::intersect` reports
`t0 >= 0`, `t1` when it reports `t0 < 0`, nothing when it reports no hit. -/
def effDist (sqrt : F → F) (rayorig raydir : Vec F) (s : orb F) : Option F :=
  (s.intersect sqrt rayorig raydir).map (fun p => if 0 ≤ p.1 then p.1 else p.2)

/-- What the scan of `trace` has established once the spheres `seen` are behind it. -/
def NearestInv (sqrt : F → F) (rayorig raydir : Vec F) (seen : List (orb F)) :
    Option (F × orb F) → Prop
  | none => ∀ s ∈ seen, s.intersect sqrt rayorig raydir = none
  | some (t, sel) =>
    ∃ pre post, seen = pre ++ sel :: post ∧ effDist sqrt rayorig raydir sel = some t ∧
      (∀ s ∈ seen, ∀ e, effDist sqrt rayorig raydir s = some e → t ≤ e) ∧
      (∀ s ∈ pre, ∀ e, effDist sqrt rayorig raydir s = some e → t < e)

/-- Two spheres that differ at most in `reflection`. -/
def orb.sameButReflection (a b : orb F) : Prop :=
  a.center = b.center ∧ a.radius = b.radius ∧ a.radius2 = b.radius2 ∧
    a.surfaceColor = b.surfaceColor ∧ a.emissionColor = b.emissionColor ∧
    a.transparency = b.transparency

/-- The unit outward normal of the sphere at a point `p` of its surface. -/
def orb.outwardNormal (s : orb F) (p : Vec F) : Vec F := (p - s.center).scale (1 / s.radius)

/-- The sphere `s` with `emissionColor` replaced by `e`. -/
def orb.withEmission (s : orb F) (e : Vec F) : orb F := { s with emissionColor := e }

/-- Two spheres that differ at most in `emissionColor`, and only if neither is a
light (`emissionColor.x > 0`). -/
def orb.sameButUnlitEmission (a b : orb F) : Prop :=
  a.center = b.center ∧ a.radius = b.radius ∧ a.radius2 = b.radius2 ∧
    a.surfaceColor = b.surfaceColor ∧ a.transparency = b.transparency ∧
    a.reflection = b.reflection ∧
    (a.emissionColor = b.emissionColor ∨ (¬ a.emissionColor.x > 0 ∧ ¬ b.emissionColor.x > 0))

/-- The vector `raydir - nhit * 2 * raydir.dot(nhit)` that `trace` stores in
`refldir` before normalizing it. -/
def reflectRaw (raydir nhit : Vec F) : Vec F :=
  raydir - (nhit.scale 2).scale (raydir.dot nhit)

/-- The value `k` of the refraction branch of `trace`, with `eta = 1 / 1.2`. -/
def refractK (raydir nhit : Vec F) : F :=
  let IdotN := raydir.dot nhit
  let ior : F := 12 / 10
  let eta := 1 / ior
  1 - eta * eta * (1 - IdotN * IdotN)

/-- The vector `raydir * eta - nhit * (eta * IdotN + sqrt(k))` that `trace` stores
in `refrdir` before normalizing it. -/
def refractRaw (sqrt : F → F) (raydir nhit : Vec F) : Vec F :=
  let IdotN := raydir.dot nhit
  let ior : F := 12 / 10
  let eta := 1 / ior
  raydir.scale eta - nhit.scale (eta * IdotN + sqrt (refractK raydir nhit))

/-- The function `trace` with the constant `MAX_RAY_DEPTH` replaced by `maxDepth`. -/
def traceM (maxDepth : Int) (sqrt : F → F) (rayorig raydir : Vec F) (orbs : List (orb F))
    (depth : Int) : Vec F :=
  match nearest sqrt rayorig raydir orbs with
  | none => ⟨1, 1, 1⟩
  | some (tnear, o) =>
    let phit := hitPoint rayorig raydir tnear
    let nhit := hitNormal sqrt raydir phit o
    if (o.transparency > 0 ∨ o.reflection > 0) ∧ depth < maxDepth then
      let reflection :=
        traceM maxDepth sqrt (phit + nhit.scale bias) (reflectDir sqrt raydir nhit) orbs
          (depth + 1)
      let refraction :=
        if o.transparency > 0 then
          traceM maxDepth sqrt (phit - nhit.scale bias) (refractDir sqrt raydir nhit) orbs
            (depth + 1)
        else Vec.splat 0
      specularColor o (fresnel raydir nhit) reflection refraction
    else
      diffuse sqrt orbs o.surfaceColor phit nhit
termination_by (maxDepth - depth).toNat
decreasing_by
  all_goals simp_wf
  all_goals omega

/-- The recursive calls that one call of `trace` makes, under the depth limit
`maxDepth`: the arguments `(rayorig, raydir, depth)` of the reflection call and,
for a transparent sphere, of the refraction call. -/
def traceCalls (maxDepth : Int) (sqrt : F → F) (orbs : List (orb F)) (rayorig raydir : Vec F)
    (depth : Int) : List (Vec F × Vec F × Int) :=
  match nearest sqrt rayorig raydir orbs with
  | none => []
  | some (tnear, o) =>
    let phit := hitPoint rayorig raydir tnear
    let nhit := hitNormal sqrt raydir phit o
    if (o.transparency > 0 ∨ o.reflection > 0) ∧ depth < maxDepth then
      (phit + nhit.scale bias, reflectDir sqrt raydir nhit, depth + 1) ::
        (if o.transparency > 0 then
          [(phit - nhit.scale bias, refractDir sqrt raydir nhit, depth + 1)]
        else [])
    else []

/-- The body of `trace` under the depth limit `maxDepth`, with its recursive calls
handed to the function `self`. -/
def traceBody (maxDepth : Int) (sqrt : F → F) (self : Vec F → Vec F → Int → Vec F)
    (rayorig raydir : Vec F) (orbs : List (orb F)) (depth : Int) : Vec F :=
  match nearest sqrt rayorig raydir orbs with
  | none => ⟨1, 1, 1⟩
  | some (tnear, o) =>
    let phit := hitPoint rayorig raydir tnear
    let nhit := hitNormal sqrt raydir phit o
    if (o.transparency > 0 ∨ o.reflection > 0) ∧ depth < maxDepth then
      let reflection := self (phit + nhit.scale bias) (reflectDir sqrt raydir nhit) (depth + 1)
      let refraction :=
        if o.transparency > 0 then
          self (phit - nhit.scale bias) (refractDir sqrt raydir nhit) (depth + 1)
        else Vec.splat 0
      specularColor o (fresnel raydir nhit) reflection refraction
    else
      diffuse sqrt orbs o.surfaceColor phit nhit

/-- The invocation `c` of `trace` is reached from the invocation `a` through
recursive calls, under the depth limit `maxDepth`. -/
def TraceReach (maxDepth : Int) (sqrt : F → F) (orbs : List (orb F))
    (a c : Vec F × Vec F × Int) : Prop :=
  Relation.ReflTransGen
    (fun b b' => b' ∈ traceCalls maxDepth sqrt orbs b.1 b.2.1 b.2.2) a c

/-- All three components are non-negative. -/
def Vec.nonneg (v : Vec F) : Prop := 0 ≤ v.x ∧ 0 ≤ v.y ∧ 0 ≤ v.z

/-! ## The arithmetic of the program: binary32

The definitions above read the code over an ordered field.  The definitions
below read the same code with the arithmetic the program runs: `float` is IEEE
754 binary32 and `double` is binary64, every operation is rounded on its own to
the nearest number of its format, ties to even.

A finite number of either format is an integer multiple of `2^-1074`, and it is
represented by that multiple: the integer `n` stands for the number
`n * 2^-1074`, so `2^1074` stands for `1.0`.  The two zeros are not told apart.
An operation whose result is not a finite number (overflow, division by zero,
square root of a negative number) has the result `none`, and so has every
computation that would go on from there: the definitions say what the program
computes as long as it stays within the finite numbers.

A name that ends in `32` is the binary32 reading of the definition of the same
name without the ending. -/

/-- The position of the leading bit of `n`, for `0 < n < 2 ^ 8192`: the largest
`k` with `2 ^ k ≤ n`, built from its binary digits, the highest first. -/
def log2Aux (n : Nat) : Nat → Nat → Nat
  | 0, k => k
  | i + 1, k => if 2 ^ (k + 2 ^ i) ≤ n then log2Aux n i (k + 2 ^ i) else log2Aux n i k

/-- The position of the leading bit of `n`, for `0 < n < 2 ^ 8192`. -/
def log2 (n : Nat) : Nat := log2Aux n 13 0

/-- The exponent of the unit in the last place of the rational `num / den`, in
units of `2^-1074`, for a format with `prec` significant bits whose unit in the
last place ranges from `2 ^ qmin` to `2 ^ qmax`: the least `q ≥ qmin` with
`num / den < 2 ^ (q + prec)`.  It is looked for at an estimate taken from the
leading bits and one above it, and what is found is checked; `none` when it is
above `qmax`, where the result is not finite, or when it is at neither place. -/
def ulpExp (prec qmin qmax num den : Nat) : Option Nat :=
  let c := max qmin (log2 num - log2 den - prec)
  let q := if num < den * 2 ^ (c + prec) then c else c + 1
  if q ≤ qmax ∧ num < den * 2 ^ (q + prec) ∧ (q = qmin ∨ den * 2 ^ (q + prec - 1) ≤ num) then
    some q
  else none

/-- Rounding of the non-negative rational `num / den`, in units of `2^-1074`: the
nearest multiple of the unit in the last place, the even one at a tie; `none`
when the result is not finite. -/
def roundNat (prec qmin qmax num den : Nat) : Option Nat :=
  if den = 0 then none
  else
    match ulpExp prec qmin qmax num den with
    | none => none
    | some q =>
      let d := den * 2 ^ q
      let f := num / d
      let r := num % d
      let n :=
        if 2 * r < d then f else if d < 2 * r then f + 1 else if f % 2 = 0 then f else f + 1
      if n * 2 ^ q < 2 ^ (qmax + prec) then some (n * 2 ^ q) else none

/-- Rounding of the rational `num / den` of either sign: the magnitude is
rounded and the sign restored. -/
def roundTo (prec qmin qmax : Nat) (num : Int) (den : Nat) : Option Int :=
  (roundNat prec qmin qmax num.natAbs den).map
    (fun m => if num < 0 then -(m : Int) else (m : Int))

/-- Rounding to binary32: 24 significant bits, units in the last place from
`2^-149` to `2^104`. -/
def round32 (num : Int) (den : Nat) : Option Int := roundTo 24 925 1178 num den

/-- Rounding to binary64: 53 significant bits, units in the last place from
`2^-1074` to `2^971`. -/
def round64 (num : Int) (den : Nat) : Option Int := roundTo 53 0 2045 num den

/-- The number `1.0`. -/
def one32 : Int := ((2 ^ 1074 : Nat) : Int)

/-- The number `n / 2 ^ k`, for `k ≤ 1074`. -/
def dyadic (n : Int) (k : Nat) : Int := n * ((2 ^ (1074 - k) : Nat) : Int)

/-- A decimal constant `num / den` of the source that initialises a `float`: the
literal is a `double`, which is then converted. -/
def literal32 (num : Int) (den : Nat) : Option Int :=
  (round64 (num * one32) den).bind (fun d => round32 d 1)

/-- The sum of two `float`s. -/
def fadd (a b : Int) : Option Int := round32 (a + b) 1

/-- The difference of two `float`s. -/
def fsub (a b : Int) : Option Int := round32 (a - b) 1

/-- The product of two `float`s. -/
def fmul (a b : Int) : Option Int := round32 (a * b) (2 ^ 1074)

/-- The quotient of two `float`s. -/
def fdiv (a b : Int) : Option Int :=
  if b = 0 then none else round32 (a * one32 * b.sign) b.natAbs

/-- Newton iteration for the integer square root of `n`, from a start `x`
above the root, for at most `fuel` steps. -/
def isqrtIter (n : Nat) : Nat → Nat → Nat
  | 0, x => x
  | fuel + 1, x =>
    let y := (x + n / x) / 2
    if y < x then isqrtIter n fuel y else x

/-- The integer square root. -/
def isqrt (n : Nat) : Nat :=
  if n = 0 then 0 else isqrtIter n (log2 n + 1) (2 ^ (log2 n / 2 + 1))

/-- The function `sqrt` on a `float`, correctly rounded.  In units of `2^-1075` the
root of `a` is the root of `n = a * 2 ^ 1076`.  With `s` the integer square root
of `n` (the defining inequalities are checked here), the root is `s` when
`s * s = n`, and otherwise lies strictly between `s` and `s + 1`, where no number
of the format and no midpoint of two neighbours lies, so that it rounds as
`s + 1/2` does.  (The call may resolve to the `double` overload, whose result is
converted back; for a square root the two roundings give the same `float`.) -/
def fsqrt (a : Int) : Option Int :=
  if a < 0 then none
  else
    let n := a.toNat * 2 ^ 1076
    let s := isqrt n
    if s * s = n then round32 s 2
    else if s * s < n ∧ n < (s + 1) * (s + 1) then round32 (2 * s + 1) 4
    else none

/-- The call `pow(x, 3)` on a `float` `x`, passed on as a `float`: the arguments
are promoted to `double`, the cube is rounded to a `double`, and the `double`
is converted. -/
def fpow3 (x : Int) : Option Int :=
  (round64 (x * x * x) (2 ^ 1074 * 2 ^ 1074)).bind (fun d => round32 d 1)

deriving instance DecidableEq for Vec

deriving instance DecidableEq for orb

/-- The operator `Vec * T`. -/
def Vec.scale32 (v : Vec Int) (f : Int) : Option (Vec Int) := do
  let x ← fmul v.x f
  let y ← fmul v.y f
  let z ← fmul v.z f
  pure ⟨x, y, z⟩

/-- The operator `Vec - Vec`. -/
def Vec.sub32 (v w : Vec Int) : Option (Vec Int) := do
  let x ← fsub v.x w.x
  let y ← fsub v.y w.y
  let z ← fsub v.z w.z
  pure ⟨x, y, z⟩

/-- The operator `Vec + Vec`. -/
def Vec.add32 (v w : Vec Int) : Option (Vec Int) := do
  let x ← fadd v.x w.x
  let y ← fadd v.y w.y
  let z ← fadd v.z w.z
  pure ⟨x, y, z⟩

/-- The operator `Vec * Vec`. -/
def Vec.mul32 (v w : Vec Int) : Option (Vec Int) := do
  let x ← fmul v.x w.x
  let y ← fmul v.y w.y
  let z ← fmul v.z w.z
  pure ⟨x, y, z⟩

/-- The method `dot`: `x * v.x + y * v.y + z * v.z`, summed from the left. -/
def Vec.dot32 (v w : Vec Int) : Option Int := do
  let xx ← fmul v.x w.x
  let yy ← fmul v.y w.y
  let zz ← fmul v.z w.z
  let s ← fadd xx yy
  fadd s zz

/-- The unary operator `-Vec`. -/
def Vec.neg32 (v : Vec Int) : Vec Int := ⟨-v.x, -v.y, -v.z⟩

/-- The method `length`. -/
def Vec.length32 (v : Vec Int) : Option Int := do
  let xx ← fmul v.x v.x
  let yy ← fmul v.y v.y
  let zz ← fmul v.z v.z
  let s ← fadd xx yy
  let t ← fadd s zz
  fsqrt t

/-- The method `normalize`. -/
def Vec.normalize32 (v : Vec Int) : Option (Vec Int) := do
  let nor ← v.length32
  if nor > 0 then do
    let invNor ← fdiv one32 nor
    let x ← fmul v.x invNor
    let y ← fmul v.y invNor
    let z ← fmul v.z invNor
    pure ⟨x, y, z⟩
  else pure v

/-- The constructor `orb(c, r, sc, refl, transp, ec)`. -/
def orb.new32 (c : Vec Int) (r : Int) (sc : Vec Int) (refl transp : Int) (ec : Vec Int) :
    Option (orb Int) := do
  let r2 ← fmul r r
  pure { center := c, radius := r, radius2 := r2, surfaceColor := sc,
         emissionColor := ec, transparency := transp, reflection := refl }

/-- The method `orb::intersect`: `some none` for `false`, `some (some (t0, t1))`
for `true`. -/
def orb.intersect32 (s : orb Int) (rayorig raydir : Vec Int) : Option (Option (Int × Int)) := do
  let l ← s.center.sub32 rayorig
  let cos ← l.dot32 raydir
  if cos < 0 then pure none
  else do
    let ll ← l.dot32 l
    let cc ← fmul cos cos
    let d2 ← fsub ll cc
    if d2 > s.radius2 then pure none
    else do
      let rd ← fsub s.radius2 d2
      let thc ← fsqrt rd
      let t0 ← fsub cos thc
      let t1 ← fadd cos thc
      pure (some (t0, t1))

/-- The function `mix`. -/
def mix32 (a b m : Int) : Option Int := do
  let bm ← fmul b m
  let om ← fsub one32 m
  let am ← fmul a om
  fadd bm am

/-- The local constant `bias = 1e-4` of `trace`. -/
def bias32 : Option Int := literal32 1 10000

/-- One iteration of the first loop of `trace`. -/
def nearestStep32 (rayorig raydir : Vec Int) (st : Option (Int × orb Int)) (i : orb Int) :
    Option (Option (Int × orb Int)) := do
  match ← i.intersect32 rayorig raydir with
  | none => pure st
  | some (t0, t1) =>
    let t0 := if t0 < 0 then t1 else t0
    match st with
    | none => pure (some (t0, i))
    | some (tnear, _) => if t0 < tnear then pure (some (t0, i)) else pure st

/-- The first loop of `trace`. -/
def nearest32 (rayorig raydir : Vec Int) (orbs : List (orb Int)) :
    Option (Option (Int × orb Int)) :=
  orbs.foldlM (nearestStep32 rayorig raydir) none

/-- The hit point `phit = rayorig + raydir * tnear`. -/
def hitPoint32 (rayorig raydir : Vec Int) (tnear : Int) : Option (Vec Int) := do
  let s ← raydir.scale32 tnear
  rayorig.add32 s

/-- The normal `nhit` of `trace`. -/
def hitNormal32 (raydir phit : Vec Int) (o : orb Int) : Option (Vec Int) := do
  let n ← phit.sub32 o.center
  let nhit ← n.normalize32
  let d ← raydir.dot32 nhit
  if d > 0 then pure nhit.neg32 else pure nhit

/-- The value `fresneleffect` of `trace`; the constant `0.1` reaches `mix` as a
`float`. -/
def fresnel32 (raydir nhit : Vec Int) : Option Int := do
  let IdotN ← raydir.dot32 nhit
  let facingratio := max 0 (-IdotN)
  let om ← fsub one32 facingratio
  let p ← fpow3 om
  let tenth ← literal32 1 10
  mix32 p one32 tenth

/-- The origin `phit + nhit * bias` of the reflected ray and of the shadow rays. -/
def biasedOrigin32 (phit nhit : Vec Int) : Option (Vec Int) := do
  let b ← bias32
  let nb ← nhit.scale32 b
  phit.add32 nb

/-- The direction `refldir` of `trace`, normalized. -/
def reflectDir32 (raydir nhit : Vec Int) : Option (Vec Int) := do
  let n2 ← nhit.scale32 (2 * one32)
  let d ← raydir.dot32 nhit
  let s ← n2.scale32 d
  let r ← raydir.sub32 s
  r.normalize32

/-- The constant `eta = 1 / ior` of the refraction branch, with `ior = 1.2`. -/
def eta32 : Option Int := do
  let ior ← literal32 12 10
  fdiv one32 ior

/-- The value `k = 1 - eta * eta * (1 - IdotN * IdotN)` of the refraction branch. -/
def refractK32 (eta IdotN : Int) : Option Int := do
  let ee ← fmul eta eta
  let ii ← fmul IdotN IdotN
  let oi ← fsub one32 ii
  let p ← fmul ee oi
  fsub one32 p

/-- The vector `raydir * eta - nhit * (eta * IdotN + sqrt(k))`. -/
def refractRaw32 (raydir nhit : Vec Int) (eta IdotN k : Int) : Option (Vec Int) := do
  let a ← raydir.scale32 eta
  let ei ← fmul eta IdotN
  let sk ← fsqrt k
  let c ← fadd ei sk
  let b ← nhit.scale32 c
  a.sub32 b

/-- The direction `refrdir` of `trace`, normalized. -/
def refractDir32 (raydir nhit : Vec Int) : Option (Vec Int) := do
  let IdotN ← raydir.dot32 nhit
  let eta ← eta32
  let k ← refractK32 eta IdotN
  let r ← refractRaw32 raydir nhit eta IdotN k
  r.normalize32

/-- The color the specular branch of `trace` assigns to `surfaceColor`. -/
def specularColor32 (o : orb Int) (fresneleffect : Int) (reflection refraction : Vec Int) :
    Option (Vec Int) := do
  let reflect_color ← reflection.scale32 fresneleffect
  let of ← fsub one32 fresneleffect
  let r1 ← refraction.scale32 of
  let refract_color ← r1.scale32 o.transparency
  let sum ← reflect_color.add32 refract_color
  sum.mul32 o.surfaceColor

/-- One iteration of the inner loop of the diffuse branch.  The state is
`(shadow, transmission)`; `shadow` is a `double`, converted to `float` where it
scales `transmission`. -/
def shadowStep32 (i : Nat) (phit nhit lightDirection : Vec Int) (st : Int × Vec Int)
    (jo : Nat × orb Int) : Option (Int × Vec Int) :=
  if i ≠ jo.1 then do
    let org ← biasedOrigin32 phit nhit
    match ← jo.2.intersect32 org lightDirection with
    | some _ =>
      let ot ← round64 (one32 - jo.2.transparency) 1
      let d ← round64 (st.1 - ot) 1
      let shadow := max 0 d
      let sf ← round32 shadow 1
      let tr ← st.2.scale32 sf
      pure (shadow, tr)
    | none => pure st
  else pure st

/-- The inner loop of the diffuse branch for the light of index `i`. -/
def shadowLoop32 (orbs : List (orb Int)) (i : Nat) (phit nhit lightDirection : Vec Int)
    (shadow : Int) : Option (Int × Vec Int) :=
  orbs.enum.foldlM (shadowStep32 i phit nhit lightDirection) (shadow, Vec.splat one32)

/-- One iteration of the outer loop of the diffuse branch.  The state is
`(shadow, surfaceColor)`. -/
def lightStep32 (orbs : List (orb Int)) (sc phit nhit : Vec Int) (st : Int × Vec Int)
    (io : Nat × orb Int) : Option (Int × Vec Int) :=
  if io.2.emissionColor.x > 0 then do
    let l ← io.2.center.sub32 phit
    let lightDirection ← l.normalize32
    let r ← shadowLoop32 orbs io.1 phit nhit lightDirection st.1
    let m ← sc.mul32 r.2
    let e ← m.mul32 io.2.emissionColor
    let c ← st.2.add32 e
    pure (r.1, c)
  else pure st

/-- The diffuse branch of `trace`. -/
def diffuse32 (orbs : List (orb Int)) (sc phit nhit : Vec Int) : Option (Vec Int) :=
  (orbs.enum.foldlM (lightStep32 orbs sc phit nhit) (one32, Vec.splat one32)).map (fun st => st.2)

/-- The function `trace` with a bound `fuel` on the nesting of its calls. -/
def trace32Fuel : Nat → Vec Int → Vec Int → List (orb Int) → Int → Option (Vec Int)
  | 0, _, _, _, _ => none
  | fuel + 1, rayorig, raydir, orbs, depth => do
    match ← nearest32 rayorig raydir orbs with
    | none => pure ⟨one32, one32, one32⟩
    | some (tnear, o) =>
      let phit ← hitPoint32 rayorig raydir tnear
      let nhit ← hitNormal32 raydir phit o
      if (o.transparency > 0 ∨ o.reflection > 0) ∧ depth < MAX_RAY_DEPTH then do
        let fresneleffect ← fresnel32 raydir nhit
        let refldir ← reflectDir32 raydir nhit
        let org ← biasedOrigin32 phit nhit
        let reflection ← trace32Fuel fuel org refldir orbs (depth + 1)
        let refraction ←
          if o.transparency > 0 then do
            let refrdir ← refractDir32 raydir nhit
            let b ← bias32
            let nb ← nhit.scale32 b
            let org2 ← phit.sub32 nb
            trace32Fuel fuel org2 refrdir orbs (depth + 1)
          else pure (Vec.splat 0)
        specularColor32 o fresneleffect reflection refraction
      else
        diffuse32 orbs o.surfaceColor phit nhit

/-- The function `trace`: the nesting of its calls is at most
`MAX_RAY_DEPTH - depth + 1`, so the bound is never met. -/
def trace32 (rayorig raydir : Vec Int) (orbs : List (orb Int)) (depth : Int) : Option (Vec Int) :=
  trace32Fuel ((MAX_RAY_DEPTH - depth).toNat + 1) rayorig raydir orbs depth

/-- A mirror sphere: center `(0, -8192, -20)`, radius `8192`, so `radius2 = 2^26`,
surface color `(1/2, 1/4, 1)`, `reflection = 1`, `transparency = 0`, no emission. -/
def mirror8192 : orb Int :=
  { center := ⟨0, -8192 * one32, -20 * one32⟩, radius := 8192 * one32,
    radius2 := 67108864 * one32, surfaceColor := ⟨dyadic 1 1, dyadic 1 2, one32⟩,
    emissionColor := ⟨0, 0, 0⟩, transparency := 0, reflection := one32 }

/-- A mirror sphere with the center `(0, -10004, -20)` and the radius `10001` of the
floor sphere of the scene built in `show_balls`; `radius2` is the `float` nearest to
`10001 * 10001 = 100020001`. -/
def mirror10001 : orb Int :=
  { center := ⟨0, -10004 * one32, -20 * one32⟩, radius := 10001 * one32,
    radius2 := 100020000 * one32, surfaceColor := ⟨dyadic 1 1, dyadic 1 2, one32⟩,
    emissionColor := ⟨0, 0, 0⟩, transparency := 0, reflection := one32 }

/-- A mirror sphere of radius `1`: center `(0, -1, -20)`, surface color
`(1/2, 1/4, 1)`, `reflection = 1`, `transparency = 0`, no emission. -/
def mirror1 : orb Int :=
  { center := ⟨0, -one32, -20 * one32⟩, radius := one32, radius2 := one32,
    surfaceColor := ⟨dyadic 1 1, dyadic 1 2, one32⟩, emissionColor := ⟨0, 0, 0⟩,
    transparency := 0, reflection := one32 }

end Defs

end RayTracing

namespace RayTracing

/-! ## Componentwise reading of the vector operators -/

section VecLemmas

variable {F : Type} [LinearOrderedField F]

@[simp] theorem Vec.add_x (a b : Vec F) : (a + b).x = a.x + b.x := rfl
@[simp] theorem Vec.add_y (a b : Vec F) : (a + b).y = a.y + b.y := rfl
@[simp] theorem Vec.add_z (a b : Vec F) : (a + b).z = a.z + b.z := rfl
@[simp] theorem Vec.sub_x (a b : Vec F) : (a - b).x = a.x - b.x := rfl
@[simp] theorem Vec.sub_y (a b : Vec F) : (a - b).y = a.y - b.y := rfl
@[simp] theorem Vec.sub_z (a b : Vec F) : (a - b).z = a.z - b.z := rfl
@[simp] theorem Vec.mul_x (a b : Vec F) : (a * b).x = a.x * b.x := rfl
@[simp] theorem Vec.mul_y (a b : Vec F) : (a * b).y = a.y * b.y := rfl
@[simp] theorem Vec.mul_z (a b : Vec F) : (a * b).z = a.z * b.z := rfl
@[simp] theorem Vec.neg_x (a : Vec F) : (-a).x = -a.x := rfl
@[simp] theorem Vec.neg_y (a : Vec F) : (-a).y = -a.y := rfl
@[simp] theorem Vec.neg_z (a : Vec F) : (-a).z = -a.z := rfl
@[simp] theorem Vec.scale_x (a : Vec F) (f : F) : (a.scale f).x = a.x * f := rfl
@[simp] theorem Vec.scale_y (a : Vec F) (f : F) : (a.scale f).y = a.y * f := rfl
@[simp] theorem Vec.scale_z (a : Vec F) (f : F) : (a.scale f).z = a.z * f := rfl

end VecLemmas

@[simp] theorem Vec.splat_x {F : Type} (f : F) : (Vec.splat f).x = f := rfl
@[simp] theorem Vec.splat_y {F : Type} (f : F) : (Vec.splat f).y = f := rfl
@[simp] theorem Vec.splat_z {F : Type} (f : F) : (Vec.splat f).z = f := rfl

/-! ## The three ways out of `trace` -/

section TraceCases

variable {F : Type} [LinearOrderedField F]

/-- When the scan finds no sphere, `trace` returns the background. -/
theorem trace_of_nearest_none (sqrt : F → F) (rayorig raydir : Vec F) (orbs : List (orb F))
    (depth : Int) (h : nearest sqrt rayorig raydir orbs = none) :
    trace sqrt rayorig raydir orbs depth = ⟨1, 1, 1⟩ := by
  rw [trace, h]

/-- When the scan finds a sphere and the guard of the specular branch fails, `trace`
returns the value of the diffuse branch. -/
theorem trace_of_diffuse (sqrt : F → F) (rayorig raydir : Vec F) (orbs : List (orb F))
    (depth : Int) (tnear : F) (o : orb F)
    (h : nearest sqrt rayorig raydir orbs = some (tnear, o))
    (hc : ¬ ((o.transparency > 0 ∨ o.reflection > 0) ∧ depth < MAX_RAY_DEPTH)) :
    trace sqrt rayorig raydir orbs depth =
      diffuse sqrt orbs o.surfaceColor (hitPoint rayorig raydir tnear)
        (hitNormal sqrt raydir (hitPoint rayorig raydir tnear) o) := by
  rw [trace, h]
  simp only [if_neg hc]

/-- When the scan finds a sphere and the guard of the specular branch holds, `trace`
returns the specular color of its two recursive calls. -/
theorem trace_of_specular (sqrt : F → F) (rayorig raydir : Vec F) (orbs : List (orb F))
    (depth : Int) (tnear : F) (o : orb F)
    (h : nearest sqrt rayorig raydir orbs = some (tnear, o))
    (hc : (o.transparency > 0 ∨ o.reflection > 0) ∧ depth < MAX_RAY_DEPTH) :
    trace sqrt rayorig raydir orbs depth =
      specularColor o
        (fresnel raydir (hitNormal sqrt raydir (hitPoint rayorig raydir tnear) o))
        (trace sqrt
          ((hitPoint rayorig raydir tnear) +
            (hitNormal sqrt raydir (hitPoint rayorig raydir tnear) o).scale bias)
          (reflectDir sqrt raydir (hitNormal sqrt raydir (hitPoint rayorig raydir tnear) o))
          orbs (depth + 1))
        (if o.transparency > 0 then
          trace sqrt
            ((hitPoint rayorig raydir tnear) -
              (hitNormal sqrt raydir (hitPoint rayorig raydir tnear) o).scale bias)
            (refractDir sqrt raydir (hitNormal sqrt raydir (hitPoint rayorig raydir tnear) o))
            orbs (depth + 1)
        else Vec.splat 0) := by
  rw [trace, h]
  simp only [if_pos hc]

/-- The scan keeps its state over spheres the ray does not intersect. -/
theorem foldl_nearestStep_of_miss (sqrt : F → F) (rayorig raydir : Vec F) (orbs : List (orb F))
    (st : Option (F × orb F))
    (h : ∀ s ∈ orbs, s.intersect sqrt rayorig raydir = none) :
    orbs.foldl (nearestStep sqrt rayorig raydir) st = st := by
  induction orbs generalizing st with
  | nil => rfl
  | cons s rest ih =>
    have hs : s.intersect sqrt rayorig raydir = none := h s (List.mem_cons_self s rest)
    have hstep : nearestStep sqrt rayorig raydir st s = st := by
      simp only [nearestStep, hs]
    rw [List.foldl_cons, hstep]
    exact ih st (fun t ht => h t (List.mem_cons_of_mem s ht))

end TraceCases

/-! ## C1 -/

/-- C1: when `orb::intersect` reports no hit for every sphere of the scene on the
ray, `trace` returns exactly the background color `(1,1,1)`, whatever the
depth; in particular on the empty scene. -/
theorem trace_background_of_all_miss {F : Type} [LinearOrderedField F] (sqrt : F → F)
    (rayorig raydir : Vec F) (orbs : List (orb F)) (depth : Int)
    (h : ∀ s ∈ orbs, s.intersect sqrt rayorig raydir = none) :
    trace sqrt rayorig raydir orbs depth = ⟨1, 1, 1⟩ ∧
      trace sqrt rayorig raydir [] depth = ⟨1, 1, 1⟩ := by
  constructor
  · exact trace_of_nearest_none sqrt rayorig raydir orbs depth
      (foldl_nearestStep_of_miss sqrt rayorig raydir orbs none h)
  · exact trace_of_nearest_none sqrt rayorig raydir [] depth rfl

/-- An instance of C1: a unit sphere centered at `(0,0,-5)` lies behind the ray
from the origin along `(0,0,1)`, which therefore sees the background. -/
theorem trace_background_of_all_miss_witness :
    (∀ s ∈ [orb.new (⟨0, 0, -5⟩ : Vec ℝ) 1 ⟨1, 0, 0⟩ 0 0 ⟨0, 0, 0⟩],
        s.intersect Real.sqrt ⟨0, 0, 0⟩ ⟨0, 0, 1⟩ = none) ∧
      trace Real.sqrt ⟨0, 0, 0⟩ ⟨0, 0, 1⟩
        [orb.new (⟨0, 0, -5⟩ : Vec ℝ) 1 ⟨1, 0, 0⟩ 0 0 ⟨0, 0, 0⟩] 0 = ⟨1, 1, 1⟩ :=
  have h : ∀ s ∈ [orb.new (⟨0, 0, -5⟩ : Vec ℝ) 1 ⟨1, 0, 0⟩ 0 0 ⟨0, 0, 0⟩],
      s.intersect Real.sqrt ⟨0, 0, 0⟩ ⟨0, 0, 1⟩ = none := by
    intro s hs
    rw [List.mem_singleton] at hs
    subst hs
    simp [orb.intersect, orb.new, Vec.dot]
  ⟨h, (trace_background_of_all_miss Real.sqrt _ _ _ 0 h).1⟩

/-! ## C2 -/

section LoneDiffuse

variable {F : Type} [LinearOrderedField F]

/-- On a one-sphere scene the scan selects the sphere as soon as it is hit. -/
theorem nearest_singleton (sqrt : F → F) (rayorig raydir : Vec F) (s : orb F) (t0 t1 : F)
    (h : s.intersect sqrt rayorig raydir = some (t0, t1)) :
    nearest sqrt rayorig raydir [s] = some (if t0 < 0 then t1 else t0, s) := by
  simp only [nearest, List.foldl_cons, List.foldl_nil, nearestStep, h]

/-- The diffuse branch on a one-sphere scene whose sphere is no light leaves
`surfaceColor` at its initial value. -/
theorem diffuse_singleton_no_light (sqrt : F → F) (s : orb F) (sc phit nhit : Vec F)
    (he : ¬ s.emissionColor.x > 0) :
    diffuse sqrt [s] sc phit nhit = Vec.splat 1 := by
  simp [diffuse, List.enum, List.enumFrom, lightStep, he]

/-- A lone sphere with no reflection, no transparency and no emission, when hit,
is colored `(1,1,1)`. -/
theorem trace_lone_diffuse_aux (sqrt : F → F) (s : orb F) (rayorig raydir : Vec F)
    (depth : Int) (hr : s.reflection = 0) (ht : s.transparency = 0)
    (he : s.emissionColor = ⟨0, 0, 0⟩)
    (hhit : (s.intersect sqrt rayorig raydir).isSome = true) :
    trace sqrt rayorig raydir [s] depth = ⟨1, 1, 1⟩ := by
  obtain ⟨⟨t0, t1⟩, h⟩ := Option.isSome_iff_exists.mp hhit
  have hn := nearest_singleton sqrt rayorig raydir s t0 t1 h
  have hc : ¬ ((s.transparency > 0 ∨ s.reflection > 0) ∧ depth < MAX_RAY_DEPTH) := by
    simp [hr, ht]
  rw [trace_of_diffuse sqrt rayorig raydir [s] depth _ s hn hc]
  have hx : ¬ s.emissionColor.x > 0 := by simp [he]
  rw [diffuse_singleton_no_light sqrt s _ _ _ hx]
  rfl

end LoneDiffuse

/-- The unit sphere centered at `(0,0,-5)` is hit by the ray from the origin along
`(0,0,-1)`, at distances `4` and `6`. -/
theorem intersect_unit_sphere_ahead (sc ec : Vec ℝ) (refl transp : ℝ) :
    (orb.new (⟨0, 0, -5⟩ : Vec ℝ) 1 sc refl transp ec).intersect Real.sqrt
      ⟨0, 0, 0⟩ ⟨0, 0, -1⟩ = some (4, 6) := by
  simp [orb.intersect, orb.new, Vec.dot]
  norm_num

/-- C2, as stated, fails: the lone diffuse sphere of the claim, hit by a unit ray,
is not colored `(0,0,0)`. -/
theorem trace_lone_diffuse_not_black :
    (orb.new (⟨0, 0, -5⟩ : Vec ℝ) 1 ⟨1, 0, 0⟩ 0 0 ⟨0, 0, 0⟩).reflection = 0 ∧
    (orb.new (⟨0, 0, -5⟩ : Vec ℝ) 1 ⟨1, 0, 0⟩ 0 0 ⟨0, 0, 0⟩).transparency = 0 ∧
    (orb.new (⟨0, 0, -5⟩ : Vec ℝ) 1 ⟨1, 0, 0⟩ 0 0 ⟨0, 0, 0⟩).emissionColor = ⟨0, 0, 0⟩ ∧
    (⟨0, 0, -1⟩ : Vec ℝ).dot ⟨0, 0, -1⟩ = 1 ∧
    ((orb.new (⟨0, 0, -5⟩ : Vec ℝ) 1 ⟨1, 0, 0⟩ 0 0 ⟨0, 0, 0⟩).intersect Real.sqrt
      ⟨0, 0, 0⟩ ⟨0, 0, -1⟩).isSome = true ∧
    trace Real.sqrt ⟨0, 0, 0⟩ ⟨0, 0, -1⟩
      [orb.new (⟨0, 0, -5⟩ : Vec ℝ) 1 ⟨1, 0, 0⟩ 0 0 ⟨0, 0, 0⟩] 0 ≠ ⟨0, 0, 0⟩ := by
  have hhit : ((orb.new (⟨0, 0, -5⟩ : Vec ℝ) 1 ⟨1, 0, 0⟩ 0 0 ⟨0, 0, 0⟩).intersect Real.sqrt
      ⟨0, 0, 0⟩ ⟨0, 0, -1⟩).isSome = true := by
    rw [intersect_unit_sphere_ahead]; rfl
  refine ⟨rfl, rfl, rfl, by simp [Vec.dot], hhit, ?_⟩
  rw [trace_lone_diffuse_aux Real.sqrt _ _ _ 0 rfl rfl rfl hhit]
  intro h
  have hx := congrArg Vec.x h
  simp at hx

/-- C2, amended: on a scene made of a single sphere with `reflection = 0`,
`transparency = 0` and `emissionColor = (0,0,0)`, for every unit ray that
`orb::intersect` reports as hitting the sphere and every depth, `trace` returns
`(1,1,1)`: the diffuse branch starts from the value `1.0` that `surfaceColor` is
declared with, and accumulates nothing. -/
theorem trace_lone_diffuse_sphere {F : Type} [LinearOrderedField F] (sqrt : F → F) (s : orb F)
    (rayorig raydir : Vec F) (depth : Int)
    (hr : s.reflection = 0) (ht : s.transparency = 0) (he : s.emissionColor = ⟨0, 0, 0⟩)
    (_hd : raydir.dot raydir = 1)
    (hhit : (s.intersect sqrt rayorig raydir).isSome = true) :
    trace sqrt rayorig raydir [s] depth = ⟨1, 1, 1⟩ :=
  trace_lone_diffuse_aux sqrt s rayorig raydir depth hr ht he hhit

/-- An instance of C2 amended: the unit sphere at `(0,0,-5)` seen from the origin. -/
theorem trace_lone_diffuse_sphere_witness :
    ((orb.new (⟨0, 0, -5⟩ : Vec ℝ) 1 ⟨1, 0, 0⟩ 0 0 ⟨0, 0, 0⟩).intersect Real.sqrt
      ⟨0, 0, 0⟩ ⟨0, 0, -1⟩).isSome = true ∧
    trace Real.sqrt ⟨0, 0, 0⟩ ⟨0, 0, -1⟩
      [orb.new (⟨0, 0, -5⟩ : Vec ℝ) 1 ⟨1, 0, 0⟩ 0 0 ⟨0, 0, 0⟩] 3 = ⟨1, 1, 1⟩ :=
  have hhit : ((orb.new (⟨0, 0, -5⟩ : Vec ℝ) 1 ⟨1, 0, 0⟩ 0 0 ⟨0, 0, 0⟩).intersect Real.sqrt
      ⟨0, 0, 0⟩ ⟨0, 0, -1⟩).isSome = true := by
    rw [intersect_unit_sphere_ahead]; rfl
  ⟨hhit, trace_lone_diffuse_sphere Real.sqrt _ _ _ 3 rfl rfl rfl (by simp [Vec.dot]) hhit⟩

/-! ## C3 and C4: `orb::intersect` over the reals -/

/-- What `orb::intersect` computes, branch by branch. -/
theorem intersect_eq_some_iff {F : Type} [LinearOrderedField F] (sqrt : F → F) (s : orb F)
    (o d : Vec F) (t0 t1 : F) :
    s.intersect sqrt o d = some (t0, t1) ↔
      0 ≤ (s.center - o).dot d ∧
      (s.center - o).dot (s.center - o) - (s.center - o).dot d * (s.center - o).dot d
        ≤ s.radius2 ∧
      t0 = (s.center - o).dot d - sqrt (s.radius2 -
        ((s.center - o).dot (s.center - o) - (s.center - o).dot d * (s.center - o).dot d)) ∧
      t1 = (s.center - o).dot d + sqrt (s.radius2 -
        ((s.center - o).dot (s.center - o) - (s.center - o).dot d * (s.center - o).dot d)) := by
  unfold orb.intersect
  by_cases h1 : (s.center - o).dot d < 0
  · simp only [h1, if_true]
    constructor
    · intro h; cases h
    · intro h; exact absurd h.1 (not_le.mpr h1)
  · by_cases h2 : (s.center - o).dot (s.center - o) - (s.center - o).dot d * (s.center - o).dot d
        > s.radius2
    · simp only [h1, h2, if_true, if_false]
      constructor
      · intro h; cases h
      · intro h; exact absurd h.2.1 (not_le.mpr h2)
    · simp only [h1, h2, if_false, Option.some.injEq, Prod.mk.injEq]
      constructor
      · rintro ⟨rfl, rfl⟩
        exact ⟨not_lt.mp h1, not_lt.mp h2, rfl, rfl⟩
      · rintro ⟨_, _, rfl, rfl⟩
        exact ⟨rfl, rfl⟩

/-- A hit is reported exactly when the projection is non-negative and the squared
distance from the center to the line is at most `radius2`. -/
theorem intersect_isSome_iff {F : Type} [LinearOrderedField F] (sqrt : F → F) (s : orb F)
    (o d : Vec F) :
    (s.intersect sqrt o d).isSome = true ↔
      0 ≤ (s.center - o).dot d ∧
      (s.center - o).dot (s.center - o) - (s.center - o).dot d * (s.center - o).dot d
        ≤ s.radius2 := by
  rw [Option.isSome_iff_exists]
  constructor
  · rintro ⟨⟨t0, t1⟩, h⟩
    have h2 := (intersect_eq_some_iff sqrt s o d t0 t1).mp h
    exact ⟨h2.1, h2.2.1⟩
  · rintro ⟨h1, h2⟩
    exact ⟨_, (intersect_eq_some_iff sqrt s o d _ _).mpr ⟨h1, h2, rfl, rfl⟩⟩

/-- The squared distance from the center to the point at parameter `t` of a ray
with unit direction. -/
theorem dist2_hitPoint (s : orb ℝ) (o d : Vec ℝ) (t : ℝ) (hd : d.dot d = 1) :
    (hitPoint o d t - s.center).dot (hitPoint o d t - s.center) =
      (t - (s.center - o).dot d) ^ 2 +
        ((s.center - o).dot (s.center - o) - (s.center - o).dot d * (s.center - o).dot d) := by
  simp only [Vec.dot, hitPoint, Vec.sub_x, Vec.sub_y, Vec.sub_z, Vec.add_x, Vec.add_y, Vec.add_z,
    Vec.scale_x, Vec.scale_y, Vec.scale_z] at hd ⊢
  linear_combination (t ^ 2) * hd

/-- Every reported hit is a pair of ordered distances to points of the surface;
equal distances leave the line a single point of the surface. -/
theorem intersect_sound_aux (s : orb ℝ) (o d : Vec ℝ) (t0 t1 : ℝ)
    (hd : d.dot d = 1) (h : s.intersect Real.sqrt o d = some (t0, t1)) :
    t0 ≤ t1 ∧ s.onSurface (hitPoint o d t0) ∧ s.onSurface (hitPoint o d t1) ∧
      (t0 = t1 → ∀ t, s.onSurface (hitPoint o d t) → t = t0) := by
  obtain ⟨_, h2, rfl, rfl⟩ := (intersect_eq_some_iff Real.sqrt s o d t0 t1).mp h
  set c := (s.center - o).dot d with hc
  set d2 := (s.center - o).dot (s.center - o) - c * c with hd2
  have hnn : 0 ≤ s.radius2 - d2 := sub_nonneg.mpr h2
  have hth : 0 ≤ Real.sqrt (s.radius2 - d2) := Real.sqrt_nonneg _
  have hsq : Real.sqrt (s.radius2 - d2) ^ 2 = s.radius2 - d2 := Real.sq_sqrt hnn
  refine ⟨by linarith, ?_, ?_, ?_⟩
  · unfold orb.onSurface
    rw [dist2_hitPoint s o d _ hd, ← hc, ← hd2]
    nlinarith
  · unfold orb.onSurface
    rw [dist2_hitPoint s o d _ hd, ← hc, ← hd2]
    nlinarith
  · intro heq t ht
    unfold orb.onSurface at ht
    rw [dist2_hitPoint s o d _ hd, ← hc, ← hd2] at ht
    have hz : Real.sqrt (s.radius2 - d2) = 0 := by linarith
    rw [hz] at hsq
    have : (t - c) ^ 2 = 0 := by nlinarith
    have : t - c = 0 := by simpa using this
    rw [hz]; linarith

/-- The sphere of radius `r` centered at the origin, seen from `(0,0,-2r)` along
`(0,0,1)`: entry at distance `r`, exit at distance `3r`. -/
theorem intersect_from_behind (r : ℝ) (hr : 0 < r) (sc ec : Vec ℝ) (refl transp : ℝ) :
    (orb.new (⟨0, 0, 0⟩ : Vec ℝ) r sc refl transp ec).intersect Real.sqrt
      ⟨0, 0, -(2 * r)⟩ ⟨0, 0, 1⟩ = some (r, 3 * r) := by
  rw [intersect_eq_some_iff]
  simp only [orb.new, Vec.dot, Vec.sub_x, Vec.sub_y, Vec.sub_z]
  have h : Real.sqrt (r * r - ((0 - 0) * (0 - 0) + (0 - 0) * (0 - 0) + (0 - -(2 * r)) * (0 - -(2 * r)) -
      ((0 - 0) * 0 + (0 - 0) * 0 + (0 - -(2 * r)) * 1) * ((0 - 0) * 0 + (0 - 0) * 0 + (0 - -(2 * r)) * 1))) = r := by
    have : (r * r - ((0 - 0) * (0 - 0) + (0 - 0) * (0 - 0) + (0 - -(2 * r)) * (0 - -(2 * r)) -
      ((0 - 0) * 0 + (0 - 0) * 0 + (0 - -(2 * r)) * 1) * ((0 - 0) * 0 + (0 - 0) * 0 + (0 - -(2 * r)) * 1))) = r * r := by ring
    rw [this, Real.sqrt_mul_self hr.le]
  rw [h]
  refine ⟨by nlinarith, by nlinarith, by ring, by ring⟩

/-- From an origin strictly outside the sphere, a hit is reported exactly when the
half-line meets the surface. -/
theorem intersect_complete_aux (s : orb ℝ) (o d : Vec ℝ)
    (hd : d.dot d = 1)
    (hout : (s.center - o).dot (s.center - o) > s.radius2) :
    ((s.intersect Real.sqrt o d).isSome = true ↔
        ∃ t : ℝ, 0 ≤ t ∧ s.onSurface (hitPoint o d t)) := by
  constructor
  · intro h
    obtain ⟨⟨t0, t1⟩, h⟩ := Option.isSome_iff_exists.mp h
    refine ⟨t0, ?_, (intersect_sound_aux s o d t0 t1 hd h).2.1⟩
    obtain ⟨h1, h2, h3, _⟩ := (intersect_eq_some_iff Real.sqrt s o d t0 t1).mp h
    rw [h3]
    set c := (s.center - o).dot d with hc
    set d2 := (s.center - o).dot (s.center - o) - c * c with hd2
    have hnn : 0 ≤ s.radius2 - d2 := sub_nonneg.mpr h2
    have hth : 0 ≤ Real.sqrt (s.radius2 - d2) := Real.sqrt_nonneg _
    have hsq : Real.sqrt (s.radius2 - d2) ^ 2 = s.radius2 - d2 := Real.sq_sqrt hnn
    by_contra hneg
    push_neg at hneg
    nlinarith
  · rintro ⟨t, ht, hon⟩
    unfold orb.onSurface at hon
    rw [dist2_hitPoint s o d _ hd] at hon
    rw [intersect_isSome_iff]
    set c := (s.center - o).dot d with hc
    constructor
    · by_contra hneg
      push_neg at hneg
      nlinarith [mul_nonneg ht (neg_nonneg.mpr hneg.le)]
    · nlinarith [sq_nonneg (t - c)]

/-- C3: soundness of `orb::intersect` over the reals.  For a sphere with
`radius >= 0` and `radius2 = radius * radius`, an origin `o` and a unit direction
`d`, a reported hit `(t0, t1)` has `t0 <= t1`, both points `o + t0*d` and
`o + t1*d` on the surface, and `t0 = t1` only when the line is tangent (it meets
the surface at that one parameter only).  And the sphere of radius `r > 0`
centered at the origin, seen from `(0,0,-2r)` along `(0,0,1)`, is hit with
`t0 = r` and `t1 = 3r`. -/
theorem intersect_sound :
    (∀ (s : orb ℝ) (o d : Vec ℝ) (t0 t1 : ℝ),
      0 ≤ s.radius → s.radius2 = s.radius * s.radius → d.dot d = 1 →
      s.intersect Real.sqrt o d = some (t0, t1) →
        t0 ≤ t1 ∧ s.onSurface (hitPoint o d t0) ∧ s.onSurface (hitPoint o d t1) ∧
          (t0 = t1 → ∀ t, s.onSurface (hitPoint o d t) → t = t0)) ∧
    (∀ (r : ℝ) (sc ec : Vec ℝ) (refl transp : ℝ), 0 < r →
      (orb.new (⟨0, 0, 0⟩ : Vec ℝ) r sc refl transp ec).intersect Real.sqrt
        ⟨0, 0, -(2 * r)⟩ ⟨0, 0, 1⟩ = some (r, 3 * r)) :=
  ⟨fun s o d t0 t1 _ _ hd h => intersect_sound_aux s o d t0 t1 hd h,
   fun r sc ec refl transp hr => intersect_from_behind r hr sc ec refl transp⟩

/-- An instance of C3: the unit sphere at `(0,0,-5)` seen from the origin along
`(0,0,-1)` is entered at distance `4` and left at distance `6`, both on the
surface. -/
theorem intersect_sound_witness :
    (orb.new (⟨0, 0, -5⟩ : Vec ℝ) 1 ⟨1, 0, 0⟩ 0 0 ⟨0, 0, 0⟩).intersect Real.sqrt
        ⟨0, 0, 0⟩ ⟨0, 0, -1⟩ = some (4, 6) ∧
      ((4 : ℝ) ≤ 6 ∧
        (orb.new (⟨0, 0, -5⟩ : Vec ℝ) 1 ⟨1, 0, 0⟩ 0 0 ⟨0, 0, 0⟩).onSurface
          (hitPoint ⟨0, 0, 0⟩ ⟨0, 0, -1⟩ 4) ∧
        (orb.new (⟨0, 0, -5⟩ : Vec ℝ) 1 ⟨1, 0, 0⟩ 0 0 ⟨0, 0, 0⟩).onSurface
          (hitPoint ⟨0, 0, 0⟩ ⟨0, 0, -1⟩ 6) ∧
        ((4 : ℝ) = 6 → ∀ t,
          (orb.new (⟨0, 0, -5⟩ : Vec ℝ) 1 ⟨1, 0, 0⟩ 0 0 ⟨0, 0, 0⟩).onSurface
            (hitPoint ⟨0, 0, 0⟩ ⟨0, 0, -1⟩ t) → t = 4)) :=
  ⟨intersect_unit_sphere_ahead _ _ _ _,
   intersect_sound.1 (orb.new (⟨0, 0, -5⟩ : Vec ℝ) 1 ⟨1, 0, 0⟩ 0 0 ⟨0, 0, 0⟩)
     ⟨0, 0, 0⟩ ⟨0, 0, -1⟩ 4 6 (by simp [orb.new]) (by simp [orb.new]) (by simp [Vec.dot])
     (intersect_unit_sphere_ahead _ _ _ _)⟩

/-- C4: completeness of `orb::intersect` for an outside origin.  For a sphere with
`radius >= 0` and `radius2 = radius * radius`, a unit direction `d` and an origin
`o` with `|c - o|^2 > radius^2`, a hit is reported if and only if some `t >= 0`
has `o + t*d` on the surface; hence a negative projection `dot(c - o, d) < 0`
yields "no intersection" and no point of the half-line is on the surface. -/
theorem intersect_complete_outside (s : orb ℝ) (o d : Vec ℝ)
    (_hr : 0 ≤ s.radius) (hr2 : s.radius2 = s.radius * s.radius)
    (hd : d.dot d = 1)
    (hout : (s.center - o).dot (s.center - o) > s.radius * s.radius) :
    ((s.intersect Real.sqrt o d).isSome = true ↔
        ∃ t : ℝ, 0 ≤ t ∧ s.onSurface (hitPoint o d t)) ∧
      ((s.center - o).dot d < 0 →
        s.intersect Real.sqrt o d = none ∧
          ¬ ∃ t : ℝ, 0 ≤ t ∧ s.onSurface (hitPoint o d t)) := by
  rw [← hr2] at hout
  have hiff := intersect_complete_aux s o d hd hout
  refine ⟨hiff, fun hneg => ?_⟩
  have hnone : s.intersect Real.sqrt o d = none := by
    simp only [orb.intersect, hneg, if_true]
  refine ⟨hnone, fun hex => ?_⟩
  have := hiff.mpr hex
  rw [hnone] at this
  exact absurd this (by simp)

/-- An instance of C4: the unit sphere at `(0,0,-5)` lies behind the ray from the
origin along `(0,0,1)`; no hit is reported and the half-line misses the surface. -/
theorem intersect_complete_outside_witness :
    ((orb.new (⟨0, 0, -5⟩ : Vec ℝ) 1 ⟨1, 0, 0⟩ 0 0 ⟨0, 0, 0⟩).center - ⟨0, 0, 0⟩).dot
        ⟨0, 0, 1⟩ < 0 ∧
      (orb.new (⟨0, 0, -5⟩ : Vec ℝ) 1 ⟨1, 0, 0⟩ 0 0 ⟨0, 0, 0⟩).intersect Real.sqrt
        ⟨0, 0, 0⟩ ⟨0, 0, 1⟩ = none ∧
      ¬ ∃ t : ℝ, 0 ≤ t ∧
        (orb.new (⟨0, 0, -5⟩ : Vec ℝ) 1 ⟨1, 0, 0⟩ 0 0 ⟨0, 0, 0⟩).onSurface
          (hitPoint ⟨0, 0, 0⟩ ⟨0, 0, 1⟩ t) :=
  have hneg : ((orb.new (⟨0, 0, -5⟩ : Vec ℝ) 1 ⟨1, 0, 0⟩ 0 0 ⟨0, 0, 0⟩).center - ⟨0, 0, 0⟩).dot
      ⟨0, 0, 1⟩ < 0 := by
    simp [orb.new, Vec.dot]
  ⟨hneg, (intersect_complete_outside (orb.new (⟨0, 0, -5⟩ : Vec ℝ) 1 ⟨1, 0, 0⟩ 0 0 ⟨0, 0, 0⟩)
    ⟨0, 0, 0⟩ ⟨0, 0, 1⟩ (by simp [orb.new]) (by simp [orb.new]) (by simp [Vec.dot])
    (by simp [orb.new, Vec.dot]; norm_num)).2 hneg⟩

/-! ## C5: the nearest-hit scan -/

section Scan

variable {F : Type} [LinearOrderedField F]

/-- The distance the scan compares is the effective distance. -/
theorem effDist_of_intersect (sqrt : F → F) (o d : Vec F) (s : orb F) (t0 t1 : F)
    (h : s.intersect sqrt o d = some (t0, t1)) :
    effDist sqrt o d s = some (if t0 < 0 then t1 else t0) := by
  simp only [effDist, h, Option.map_some']
  by_cases h0 : t0 < 0
  · simp [h0, not_le.mpr h0]
  · simp [h0, not_lt.mp h0]

/-- One iteration of the scan preserves its invariant. -/
theorem nearestInv_step (sqrt : F → F) (o d : Vec F) (seen : List (orb F))
    (st : Option (F × orb F)) (s : orb F) (h : NearestInv sqrt o d seen st) :
    NearestInv sqrt o d (seen ++ [s]) (nearestStep sqrt o d st s) := by
  cases hs : s.intersect sqrt o d with
  | none =>
    have he : effDist sqrt o d s = none := by simp [effDist, hs]
    have hstep : nearestStep sqrt o d st s = st := by simp only [nearestStep, hs]
    rw [hstep]
    match st, h with
    | none, h =>
      intro x hx
      rcases List.mem_append.mp hx with hx | hx
      · exact h x hx
      · rw [List.mem_singleton] at hx; rw [hx]; exact hs
    | some (t, sel), ⟨pre, post, hsplit, hsel, hall, hpre⟩ =>
      refine ⟨pre, post ++ [s], by rw [hsplit]; simp, hsel, ?_, hpre⟩
      intro x hx e hxe
      rcases List.mem_append.mp hx with hx | hx
      · exact hall x hx e hxe
      · rw [List.mem_singleton] at hx; rw [hx, he] at hxe; cases hxe
  | some p =>
    obtain ⟨t0, t1⟩ := p
    have he := effDist_of_intersect sqrt o d s t0 t1 hs
    match st, h with
    | none, h =>
      have hstep : nearestStep sqrt o d none s = some (if t0 < 0 then t1 else t0, s) := by
        simp only [nearestStep, hs]
      rw [hstep]
      refine ⟨seen, [], rfl, he, ?_, ?_⟩
      · intro x hx e hxe
        rcases List.mem_append.mp hx with hx | hx
        · have := h x hx
          simp [effDist, this] at hxe
        · rw [List.mem_singleton] at hx; rw [hx, he] at hxe
          exact le_of_eq (Option.some.inj hxe)
      · intro x hx e hxe
        have := h x hx
        simp [effDist, this] at hxe
    | some (t, sel), ⟨pre, post, hsplit, hsel, hall, hpre⟩ =>
      by_cases hlt : (if t0 < 0 then t1 else t0) < t
      · have hstep : nearestStep sqrt o d (some (t, sel)) s =
            some (if t0 < 0 then t1 else t0, s) := by
          simp only [nearestStep, hs, if_pos hlt]
        rw [hstep]
        refine ⟨seen, [], rfl, he, ?_, ?_⟩
        · intro x hx e hxe
          rcases List.mem_append.mp hx with hx | hx
          · exact le_trans hlt.le (hall x hx e hxe)
          · rw [List.mem_singleton] at hx; rw [hx, he] at hxe
            exact le_of_eq (Option.some.inj hxe)
        · intro x hx e hxe
          exact lt_of_lt_of_le hlt (hall x hx e hxe)
      · have hstep : nearestStep sqrt o d (some (t, sel)) s = some (t, sel) := by
          simp only [nearestStep, hs, if_neg hlt]
        rw [hstep]
        refine ⟨pre, post ++ [s], by rw [hsplit]; simp, hsel, ?_, hpre⟩
        intro x hx e hxe
        rcases List.mem_append.mp hx with hx | hx
        · exact hall x hx e hxe
        · rw [List.mem_singleton] at hx; rw [hx, he] at hxe
          rw [← Option.some.inj hxe]
          exact not_lt.mp hlt

/-- The rest of the scan preserves its invariant. -/
theorem nearestInv_foldl (sqrt : F → F) (o d : Vec F) (rest seen : List (orb F))
    (st : Option (F × orb F)) (h : NearestInv sqrt o d seen st) :
    NearestInv sqrt o d (seen ++ rest) (rest.foldl (nearestStep sqrt o d) st) := by
  induction rest generalizing seen st with
  | nil => simpa using h
  | cons s rest ih =>
    have := ih (seen ++ [s]) _ (nearestInv_step sqrt o d seen st s h)
    simpa using this

/-- The invariant holds of the whole scene when the scan ends. -/
theorem nearestInv_nearest (sqrt : F → F) (o d : Vec F) (orbs : List (orb F)) :
    NearestInv sqrt o d orbs (nearest sqrt o d orbs) := by
  have := nearestInv_foldl sqrt o d orbs [] none (by intro s hs; cases hs)
  simpa using this

end Scan

/-- Over the reals an effective distance is never negative: `t1` is the sum of a
non-negative projection and a square root. -/
theorem effDist_nonneg (o d : Vec ℝ) (s : orb ℝ) (e : ℝ)
    (h : effDist Real.sqrt o d s = some e) : 0 ≤ e := by
  cases hs : s.intersect Real.sqrt o d with
  | none => simp [effDist, hs] at h
  | some p =>
    obtain ⟨t0, t1⟩ := p
    obtain ⟨h1, _, _, h4⟩ := (intersect_eq_some_iff Real.sqrt s o d t0 t1).mp hs
    simp only [effDist, hs, Option.map_some', Option.some.injEq] at h
    by_cases h0 : 0 ≤ t0
    · rw [if_pos h0] at h; rw [← h]; exact h0
    · rw [if_neg h0] at h; rw [← h, h4]
      exact add_nonneg h1 (Real.sqrt_nonneg _)

/-- C5: on a scene and ray where at least one sphere is intersected, the scan of
`trace` selects a sphere `sel` of the scene, at a position `pre ++ sel :: post`,
with its effective distance `t` (`t0` when `t0 >= 0`, else `t1`); `t` is
non-negative, at most the effective distance of every intersected sphere, and
strictly below that of every intersected sphere placed before `sel`: among the
spheres attaining the minimum the first in scene order is selected. -/
theorem nearest_minimal_first (orbs : List (orb ℝ)) (o d : Vec ℝ)
    (hhit : ∃ s ∈ orbs, (s.intersect Real.sqrt o d).isSome = true) :
    ∃ t sel pre post, nearest Real.sqrt o d orbs = some (t, sel) ∧
      orbs = pre ++ sel :: post ∧
      effDist Real.sqrt o d sel = some t ∧ 0 ≤ t ∧
      (∀ s ∈ orbs, ∀ e, effDist Real.sqrt o d s = some e → t ≤ e) ∧
      (∀ s ∈ pre, ∀ e, effDist Real.sqrt o d s = some e → t < e) := by
  have hinv := nearestInv_nearest Real.sqrt o d orbs
  cases hn : nearest Real.sqrt o d orbs with
  | none =>
    rw [hn] at hinv
    obtain ⟨s, hs, hsome⟩ := hhit
    rw [hinv s hs] at hsome
    cases hsome
  | some p =>
    obtain ⟨t, sel⟩ := p
    rw [hn] at hinv
    obtain ⟨pre, post, hsplit, hsel, hall, hpre⟩ := hinv
    exact ⟨t, sel, pre, post, rfl, hsplit, hsel, effDist_nonneg o d sel t hsel, hall, hpre⟩

/-- An instance of C5: two spheres with the same geometry are both hit at distance
`4`; the scan keeps the first. -/
theorem nearest_minimal_first_witness :
    nearest Real.sqrt ⟨0, 0, 0⟩ ⟨0, 0, -1⟩
        [orb.new (⟨0, 0, -5⟩ : Vec ℝ) 1 ⟨1, 0, 0⟩ 0 0 ⟨0, 0, 0⟩,
         orb.new (⟨0, 0, -5⟩ : Vec ℝ) 1 ⟨0, 1, 0⟩ 0 0 ⟨0, 0, 0⟩] =
      some (4, orb.new (⟨0, 0, -5⟩ : Vec ℝ) 1 ⟨1, 0, 0⟩ 0 0 ⟨0, 0, 0⟩) ∧
    ∃ t sel pre post,
      nearest Real.sqrt ⟨0, 0, 0⟩ ⟨0, 0, -1⟩
        [orb.new (⟨0, 0, -5⟩ : Vec ℝ) 1 ⟨1, 0, 0⟩ 0 0 ⟨0, 0, 0⟩,
         orb.new (⟨0, 0, -5⟩ : Vec ℝ) 1 ⟨0, 1, 0⟩ 0 0 ⟨0, 0, 0⟩] = some (t, sel) ∧
      [orb.new (⟨0, 0, -5⟩ : Vec ℝ) 1 ⟨1, 0, 0⟩ 0 0 ⟨0, 0, 0⟩,
         orb.new (⟨0, 0, -5⟩ : Vec ℝ) 1 ⟨0, 1, 0⟩ 0 0 ⟨0, 0, 0⟩] = pre ++ sel :: post ∧
      effDist Real.sqrt ⟨0, 0, 0⟩ ⟨0, 0, -1⟩ sel = some t ∧ 0 ≤ t ∧
      (∀ s ∈ [orb.new (⟨0, 0, -5⟩ : Vec ℝ) 1 ⟨1, 0, 0⟩ 0 0 ⟨0, 0, 0⟩,
         orb.new (⟨0, 0, -5⟩ : Vec ℝ) 1 ⟨0, 1, 0⟩ 0 0 ⟨0, 0, 0⟩],
        ∀ e, effDist Real.sqrt ⟨0, 0, 0⟩ ⟨0, 0, -1⟩ s = some e → t ≤ e) ∧
      (∀ s ∈ pre, ∀ e, effDist Real.sqrt ⟨0, 0, 0⟩ ⟨0, 0, -1⟩ s = some e → t < e) :=
  ⟨by simp [nearest, nearestStep, intersect_unit_sphere_ahead],
   nearest_minimal_first _ _ _
     ⟨_, List.mem_cons_self _ _, by rw [intersect_unit_sphere_ahead]; rfl⟩⟩

/-! ## C6: termination -/

section Fuel

variable {F : Type} [LinearOrderedField F]

/-- With more fuel than `MAX_RAY_DEPTH - depth` (clamped at zero) the bounded run
returns the value of `trace`. -/
theorem traceFuel_eq_trace_aux (sqrt : F → F) (fuel : Nat) (rayorig raydir : Vec F)
    (orbs : List (orb F)) (depth : Int) (h : (MAX_RAY_DEPTH - depth).toNat < fuel) :
    traceFuel sqrt fuel rayorig raydir orbs depth = some (trace sqrt rayorig raydir orbs depth) := by
  induction fuel generalizing rayorig raydir depth with
  | zero => exact absurd h (Nat.not_lt_zero _)
  | succ fuel ih =>
    cases hn : nearest sqrt rayorig raydir orbs with
    | none =>
      rw [trace_of_nearest_none sqrt rayorig raydir orbs depth hn]
      simp only [traceFuel, hn]
    | some p =>
      obtain ⟨tnear, o⟩ := p
      by_cases hc : (o.transparency > 0 ∨ o.reflection > 0) ∧ depth < MAX_RAY_DEPTH
      · have hfuel : (MAX_RAY_DEPTH - (depth + 1)).toNat < fuel := by
          have := hc.2
          simp only [MAX_RAY_DEPTH] at *
          omega
        rw [trace_of_specular sqrt rayorig raydir orbs depth tnear o hn hc]
        simp only [traceFuel, hn, if_pos hc, ih _ _ _ hfuel]
        by_cases ht : o.transparency > 0
        · simp only [if_pos ht]
        · simp only [if_neg ht]
      · rw [trace_of_diffuse sqrt rayorig raydir orbs depth tnear o hn hc]
        simp only [traceFuel, hn, if_neg hc]

end Fuel

/-- C6: `trace` terminates for every scene, ray and integer depth.  The run of the
source with a bound on the nesting of calls, whose recursive calls are made with
`depth + 1` and only when `depth < MAX_RAY_DEPTH = 5`, never exhausts a bound
above `MAX_RAY_DEPTH - depth` (clamped at zero) and returns the value of the
total function `trace`, itself defined by well-founded recursion on that
measure. -/
theorem trace_terminates {F : Type} [LinearOrderedField F] (sqrt : F → F) (fuel : Nat)
    (rayorig raydir : Vec F) (orbs : List (orb F)) (depth : Int)
    (h : (MAX_RAY_DEPTH - depth).toNat < fuel) :
    traceFuel sqrt fuel rayorig raydir orbs depth =
      some (trace sqrt rayorig raydir orbs depth) :=
  traceFuel_eq_trace_aux sqrt fuel rayorig raydir orbs depth h

/-- An instance of C6: a primary ray (depth `0`) toward a mirror sphere needs no
more than six nested calls. -/
theorem trace_terminates_witness :
    (MAX_RAY_DEPTH - 0).toNat < 6 ∧
      traceFuel Real.sqrt 6 ⟨0, 0, 0⟩ ⟨0, 0, -1⟩
          [orb.new (⟨0, 0, -5⟩ : Vec ℝ) 1 ⟨1, 0, 0⟩ 1 0 ⟨0, 0, 0⟩] 0 =
        some (trace Real.sqrt ⟨0, 0, 0⟩ ⟨0, 0, -1⟩
          [orb.new (⟨0, 0, -5⟩ : Vec ℝ) 1 ⟨1, 0, 0⟩ 1 0 ⟨0, 0, 0⟩] 0) :=
  ⟨by decide, trace_terminates Real.sqrt 6 _ _ _ 0 (by decide)⟩

/-! ## C7: the depth cutoff -/

section Cutoff

variable {F : Type} [LinearOrderedField F]

/-- At or beyond the depth limit `trace` is the scan followed by the diffuse
branch. -/
theorem trace_depth_cutoff_aux (sqrt : F → F) (rayorig raydir : Vec F) (orbs : List (orb F))
    (depth : Int) (h : MAX_RAY_DEPTH ≤ depth) :
    trace sqrt rayorig raydir orbs depth =
      match nearest sqrt rayorig raydir orbs with
      | none => ⟨1, 1, 1⟩
      | some (tnear, o) =>
        diffuse sqrt orbs o.surfaceColor (hitPoint rayorig raydir tnear)
          (hitNormal sqrt raydir (hitPoint rayorig raydir tnear) o) := by
  cases hn : nearest sqrt rayorig raydir orbs with
  | none => exact trace_of_nearest_none sqrt rayorig raydir orbs depth hn
  | some p =>
    obtain ⟨tnear, o⟩ := p
    exact trace_of_diffuse sqrt rayorig raydir orbs depth tnear o hn
      (fun hc => absurd hc.2 (not_lt.mpr h))

/-- Folding two lists that are related element by element, from related states,
with steps that preserve the relation of the states. -/
theorem foldl_forall₂ {α β σ τ : Type} (R : α → β → Prop) (Inv : σ → τ → Prop)
    (f : σ → α → σ) (g : τ → β → τ)
    (hstep : ∀ st st' a b, Inv st st' → R a b → Inv (f st a) (g st' b))
    (l : List α) (l' : List β) (hl : List.Forall₂ R l l') (st : σ) (st' : τ)
    (h : Inv st st') : Inv (l.foldl f st) (l'.foldl g st') := by
  induction hl generalizing st st' with
  | nil => exact h
  | cons hab _ ih => exact ih _ _ (hstep _ _ _ _ h hab)

/-- Numbering two related lists from the same index keeps them related, index by
index. -/
theorem forall₂_enumFrom {α β : Type} (R : α → β → Prop) (l : List α) (l' : List β)
    (hl : List.Forall₂ R l l') (n : Nat) :
    List.Forall₂ (fun p q => p.1 = q.1 ∧ R p.2 q.2) (l.enumFrom n) (l'.enumFrom n) := by
  induction hl generalizing n with
  | nil => exact List.Forall₂.nil
  | cons hab _ ih => exact List.Forall₂.cons ⟨rfl, hab⟩ (ih (n + 1))

/-- `orb::intersect` reads only `center` and `radius2`. -/
theorem intersect_congr (sqrt : F → F) (a b : orb F) (o d : Vec F)
    (hc : a.center = b.center) (hr : a.radius2 = b.radius2) :
    a.intersect sqrt o d = b.intersect sqrt o d := by
  simp only [orb.intersect, hc, hr]

/-- The scan of `trace` on two scenes whose spheres agree, one by one, in `center`
and `radius2`: the same distance, and spheres at the same position. -/
theorem nearest_forall₂ (sqrt : F → F) (o d : Vec F) (R : orb F → orb F → Prop)
    (hR : ∀ a b, R a b → a.center = b.center ∧ a.radius2 = b.radius2)
    (orbs orbs' : List (orb F)) (hl : List.Forall₂ R orbs orbs') :
    Option.Rel (fun (p q : F × orb F) => p.1 = q.1 ∧ R p.2 q.2)
      (nearest sqrt o d orbs) (nearest sqrt o d orbs') := by
  unfold nearest
  refine foldl_forall₂ R
    (Option.Rel (fun (p q : F × orb F) => p.1 = q.1 ∧ R p.2 q.2)) _ _ ?_ orbs orbs' hl
    none none Option.Rel.none
  intro st st' a b hst hab
  have hi := intersect_congr sqrt a b o d (hR a b hab).1 (hR a b hab).2
  unfold nearestStep
  rw [← hi]
  cases a.intersect sqrt o d with
  | none => exact hst
  | some p =>
    obtain ⟨t0, t1⟩ := p
    cases hst with
    | none => exact Option.Rel.some ⟨rfl, hab⟩
    | some hpq =>
      rename_i p q
      obtain ⟨t, s⟩ := p
      obtain ⟨t', s'⟩ := q
      obtain ⟨htt, hss⟩ := hpq
      simp only at htt
      subst htt
      by_cases hlt : (if t0 < 0 then t1 else t0) < t
      · simp only [if_pos hlt]
        exact Option.Rel.some ⟨rfl, hab⟩
      · simp only [if_neg hlt]
        exact Option.Rel.some ⟨rfl, hss⟩

/-- The occluder loop on two scenes whose spheres agree, one by one, in `center`,
`radius2` and `transparency`. -/
theorem shadowLoop_forall₂ (sqrt : F → F) (R : orb F → orb F → Prop)
    (hR : ∀ a b, R a b →
      a.center = b.center ∧ a.radius2 = b.radius2 ∧ a.transparency = b.transparency)
    (orbs orbs' : List (orb F)) (hl : List.Forall₂ R orbs orbs')
    (i : Nat) (org dir : Vec F) (shadow : F) :
    shadowLoop sqrt orbs i org dir shadow = shadowLoop sqrt orbs' i org dir shadow := by
  unfold shadowLoop List.enum
  refine foldl_forall₂ (fun (p q : Nat × orb F) => p.1 = q.1 ∧ R p.2 q.2)
    (fun (st st' : F × Vec F) => st = st') _ _ ?_
    _ _ (forall₂_enumFrom R orbs orbs' hl 0) _ _ rfl
  rintro st st' ⟨n, a⟩ ⟨m, b⟩ rfl ⟨hnm, hab⟩
  simp only at hnm hab
  subst hnm
  obtain ⟨hc, hr, ht⟩ := hR a b hab
  simp only [shadowStep, intersect_congr sqrt a b org dir hc hr, ht]

/-- The diffuse branch on two scenes whose spheres agree, one by one, in `center`,
`radius2` and `transparency`, and in `emissionColor` unless neither is a light. -/
theorem diffuse_forall₂ (sqrt : F → F) (R : orb F → orb F → Prop)
    (hR : ∀ a b, R a b →
      a.center = b.center ∧ a.radius2 = b.radius2 ∧ a.transparency = b.transparency)
    (hE : ∀ a b, R a b → a.emissionColor = b.emissionColor ∨
      (¬ a.emissionColor.x > 0 ∧ ¬ b.emissionColor.x > 0))
    (orbs orbs' : List (orb F)) (hl : List.Forall₂ R orbs orbs') (sc phit nhit : Vec F) :
    diffuse sqrt orbs sc phit nhit = diffuse sqrt orbs' sc phit nhit := by
  unfold diffuse List.enum
  refine congrArg Prod.snd (foldl_forall₂ (fun (p q : Nat × orb F) => p.1 = q.1 ∧ R p.2 q.2)
    (fun (st st' : F × Vec F) => st = st') _ _ ?_
    _ _ (forall₂_enumFrom R orbs orbs' hl 0) _ _ rfl)
  rintro st st' ⟨n, a⟩ ⟨m, b⟩ rfl ⟨hnm, hab⟩
  simp only at hnm hab
  subst hnm
  obtain ⟨hc, _, _⟩ := hR a b hab
  rcases hE a b hab with he | ⟨ha, hb⟩
  · simp only [lightStep, he, hc, shadowLoop_forall₂ sqrt R hR orbs orbs' hl]
  · simp only [lightStep, if_neg ha, if_neg hb]

/-- The normal at the hit point reads only `center`. -/
theorem hitNormal_congr (sqrt : F → F) (raydir phit : Vec F) (a b : orb F)
    (hc : a.center = b.center) :
    hitNormal sqrt raydir phit a = hitNormal sqrt raydir phit b := by
  simp only [hitNormal, hc]

/-- At or beyond the depth limit the color does not read `reflection`. -/
theorem trace_cutoff_reflection_aux (sqrt : F → F) (rayorig raydir : Vec F)
    (orbs orbs' : List (orb F)) (depth : Int) (h : MAX_RAY_DEPTH ≤ depth)
    (hrel : List.Forall₂ orb.sameButReflection orbs orbs') :
    trace sqrt rayorig raydir orbs' depth = trace sqrt rayorig raydir orbs depth := by
  have hn := nearest_forall₂ sqrt rayorig raydir orb.sameButReflection
    (fun a b hab => ⟨hab.1, hab.2.2.1⟩) orbs orbs' hrel
  have hcut : ∀ (o : orb F), ¬ ((o.transparency > 0 ∨ o.reflection > 0) ∧ depth < MAX_RAY_DEPTH) :=
    fun o hc => absurd hc.2 (not_lt.mpr h)
  cases h1 : nearest sqrt rayorig raydir orbs with
  | none =>
    rw [h1] at hn
    cases h2 : nearest sqrt rayorig raydir orbs' with
    | none =>
      rw [trace_of_nearest_none sqrt rayorig raydir orbs depth h1,
        trace_of_nearest_none sqrt rayorig raydir orbs' depth h2]
    | some q => rw [h2] at hn; cases hn
  | some p =>
    rw [h1] at hn
    cases h2 : nearest sqrt rayorig raydir orbs' with
    | none => rw [h2] at hn; cases hn
    | some q =>
      rw [h2] at hn
      obtain ⟨t, s⟩ := p
      obtain ⟨t', s'⟩ := q
      cases hn with
      | some hpq =>
        obtain ⟨htt, hss⟩ := hpq
        simp only at htt hss
        subst htt
        rw [trace_of_diffuse sqrt rayorig raydir orbs depth t s h1 (hcut s),
          trace_of_diffuse sqrt rayorig raydir orbs' depth t s' h2 (hcut s'),
          hitNormal_congr sqrt raydir _ s s' hss.1, hss.2.2.2.1]
        exact (diffuse_forall₂ sqrt orb.sameButReflection
          (fun a b hab => ⟨hab.1, hab.2.2.1, hab.2.2.2.2.2⟩)
          (fun a b hab => Or.inl hab.2.2.2.2.1) orbs orbs' hrel _ _ _).symm

end Cutoff

/-- C7: for every depth `>= MAX_RAY_DEPTH = 5`, `trace` makes no recursive call (the
run bounded to a single call already returns its value): it returns the
background when nothing is hit and the value of the diffuse branch when a sphere
is hit, whatever that sphere's `reflection` and `transparency`.  Consequently the result equals the result at depth `5`, and it is the same on
every scene `orbs'` that differs from `orbs` at most in the `reflection` values
of its spheres, the hit sphere included. -/
theorem trace_depth_cutoff {F : Type} [LinearOrderedField F] (sqrt : F → F)
    (rayorig raydir : Vec F) (orbs orbs' : List (orb F)) (depth : Int)
    (h : MAX_RAY_DEPTH ≤ depth)
    (hrel : List.Forall₂ orb.sameButReflection orbs orbs') :
    traceFuel sqrt 1 rayorig raydir orbs depth = some (trace sqrt rayorig raydir orbs depth) ∧
    (trace sqrt rayorig raydir orbs depth =
      match nearest sqrt rayorig raydir orbs with
      | none => ⟨1, 1, 1⟩
      | some (tnear, o) =>
        diffuse sqrt orbs o.surfaceColor (hitPoint rayorig raydir tnear)
          (hitNormal sqrt raydir (hitPoint rayorig raydir tnear) o)) ∧
    trace sqrt rayorig raydir orbs depth = trace sqrt rayorig raydir orbs 5 ∧
    trace sqrt rayorig raydir orbs' depth = trace sqrt rayorig raydir orbs depth := by
  refine ⟨traceFuel_eq_trace_aux sqrt 1 rayorig raydir orbs depth ?_,
    trace_depth_cutoff_aux sqrt rayorig raydir orbs depth h, ?_,
    trace_cutoff_reflection_aux sqrt rayorig raydir orbs orbs' depth h hrel⟩
  · simp only [MAX_RAY_DEPTH] at h ⊢
    omega
  rw [trace_depth_cutoff_aux sqrt rayorig raydir orbs depth h,
    trace_depth_cutoff_aux sqrt rayorig raydir orbs 5 (by simp [MAX_RAY_DEPTH])]

/-- An instance of C7: at depth `7` a mirror sphere is shaded as at depth `5`, and
as the same sphere with `reflection = 0`. -/
theorem trace_depth_cutoff_witness :
    MAX_RAY_DEPTH ≤ 7 ∧
    trace Real.sqrt ⟨0, 0, 0⟩ ⟨0, 0, -1⟩
        [orb.new (⟨0, 0, -5⟩ : Vec ℝ) 1 ⟨1, 0, 0⟩ 1 0 ⟨0, 0, 0⟩] 7 =
      trace Real.sqrt ⟨0, 0, 0⟩ ⟨0, 0, -1⟩
        [orb.new (⟨0, 0, -5⟩ : Vec ℝ) 1 ⟨1, 0, 0⟩ 1 0 ⟨0, 0, 0⟩] 5 ∧
    trace Real.sqrt ⟨0, 0, 0⟩ ⟨0, 0, -1⟩
        [orb.new (⟨0, 0, -5⟩ : Vec ℝ) 1 ⟨1, 0, 0⟩ 0 0 ⟨0, 0, 0⟩] 7 =
      trace Real.sqrt ⟨0, 0, 0⟩ ⟨0, 0, -1⟩
        [orb.new (⟨0, 0, -5⟩ : Vec ℝ) 1 ⟨1, 0, 0⟩ 1 0 ⟨0, 0, 0⟩] 7 :=
  have h := trace_depth_cutoff Real.sqrt ⟨0, 0, 0⟩ ⟨0, 0, -1⟩
    [orb.new (⟨0, 0, -5⟩ : Vec ℝ) 1 ⟨1, 0, 0⟩ 1 0 ⟨0, 0, 0⟩]
    [orb.new (⟨0, 0, -5⟩ : Vec ℝ) 1 ⟨1, 0, 0⟩ 0 0 ⟨0, 0, 0⟩] 7 (by decide)
    (List.Forall₂.cons ⟨rfl, rfl, rfl, rfl, rfl, rfl⟩ List.Forall₂.nil)
  ⟨by decide, h.2.2.1, h.2.2.2⟩

/-! ## C8: a lone mirror sphere, in exact arithmetic -/

section DotAlgebra

variable {F : Type} [LinearOrderedField F]

/-- The method `dot` is symmetric and linear in each argument. -/
theorem Vec.dot_comm (a b : Vec F) : a.dot b = b.dot a := by
  simp only [Vec.dot]; ring

theorem Vec.dot_add_left (a b c : Vec F) : (a + b).dot c = a.dot c + b.dot c := by
  simp only [Vec.dot, Vec.add_x, Vec.add_y, Vec.add_z]; ring

theorem Vec.dot_sub_left (a b c : Vec F) : (a - b).dot c = a.dot c - b.dot c := by
  simp only [Vec.dot, Vec.sub_x, Vec.sub_y, Vec.sub_z]; ring

theorem Vec.dot_scale_left (a b : Vec F) (k : F) : (a.scale k).dot b = k * a.dot b := by
  simp only [Vec.dot, Vec.scale_x, Vec.scale_y, Vec.scale_z]; ring

theorem Vec.dot_add_right (a b c : Vec F) : a.dot (b + c) = a.dot b + a.dot c := by
  simp only [Vec.dot, Vec.add_x, Vec.add_y, Vec.add_z]; ring

theorem Vec.dot_sub_right (a b c : Vec F) : a.dot (b - c) = a.dot b - a.dot c := by
  simp only [Vec.dot, Vec.sub_x, Vec.sub_y, Vec.sub_z]; ring

theorem Vec.dot_scale_right (a b : Vec F) (k : F) : a.dot (b.scale k) = k * a.dot b := by
  simp only [Vec.dot, Vec.scale_x, Vec.scale_y, Vec.scale_z]; ring

/-- No hit is reported exactly when the projection is negative or the line passes
farther than the radius from the center. -/
theorem intersect_eq_none_iff (sqrt : F → F) (s : orb F) (o d : Vec F) :
    s.intersect sqrt o d = none ↔
      (s.center - o).dot d < 0 ∨
      s.radius2 <
        (s.center - o).dot (s.center - o) - (s.center - o).dot d * (s.center - o).dot d := by
  rw [← Option.not_isSome_iff_eq_none, intersect_isSome_iff, not_and_or, not_le, not_le]

end DotAlgebra

/-- Normalizing a vector of length `r > 0` divides it by `r`. -/
theorem normalize_of_dot_self (v : Vec ℝ) (r : ℝ) (hr : 0 < r) (hv : v.dot v = r * r) :
    v.normalize Real.sqrt = v.scale (1 / r) := by
  have hlen : v.length Real.sqrt = r := by
    show Real.sqrt (v.dot v) = r
    rw [hv, Real.sqrt_mul_self hr.le]
  simp only [Vec.normalize, hlen, gt_iff_lt, hr, if_true]
  rfl

/-- Normalizing a unit vector leaves it unchanged. -/
theorem normalize_of_unit (v : Vec ℝ) (hv : v.dot v = 1) : v.normalize Real.sqrt = v := by
  rw [normalize_of_dot_self v 1 one_pos (by rw [hv]; ring)]
  ext <;> simp

/-- The reflected direction of a unit direction about a unit normal is a unit vector. -/
theorem reflectDir_of_unit (d n : Vec ℝ) (hd : d.dot d = 1) (hn : n.dot n = 1) :
    reflectDir Real.sqrt d n = d - (n.scale 2).scale (d.dot n) := by
  unfold reflectDir
  apply normalize_of_unit
  simp only [Vec.dot_sub_left, Vec.dot_sub_right, Vec.dot_scale_left, Vec.dot_scale_right,
    Vec.dot_comm n d, hd, hn]
  ring

/-- Geometry of a hit from outside: the near distance is non-negative. -/
theorem intersect_t0_nonneg (s : orb ℝ) (o d : Vec ℝ) (t0 t1 : ℝ)
    (hout : (s.center - o).dot (s.center - o) > s.radius2)
    (h : s.intersect Real.sqrt o d = some (t0, t1)) : 0 ≤ t0 := by
  obtain ⟨h1, h2, h3, _⟩ := (intersect_eq_some_iff Real.sqrt s o d t0 t1).mp h
  rw [h3]
  set c := (s.center - o).dot d with hc
  set d2 := (s.center - o).dot (s.center - o) - c * c with hd2
  have hnn : 0 ≤ s.radius2 - d2 := sub_nonneg.mpr h2
  have hth : 0 ≤ Real.sqrt (s.radius2 - d2) := Real.sqrt_nonneg _
  have hsq : Real.sqrt (s.radius2 - d2) ^ 2 = s.radius2 - d2 := Real.sq_sqrt hnn
  by_contra hneg
  push_neg at hneg
  nlinarith

/-- At the near hit point the direction and the vector from the center make the
dot product `(t0 - t1) / 2`, which is not positive. -/
theorem dot_hitPoint_sub_center (s : orb ℝ) (o d : Vec ℝ) (t0 t1 : ℝ) (hd : d.dot d = 1)
    (h : s.intersect Real.sqrt o d = some (t0, t1)) :
    d.dot (hitPoint o d t0 - s.center) = (t0 - t1) / 2 ∧ t0 ≤ t1 := by
  obtain ⟨_, _, h3, h4⟩ := (intersect_eq_some_iff Real.sqrt s o d t0 t1).mp h
  refine ⟨?_, (intersect_sound_aux s o d t0 t1 hd h).1⟩
  have e : d.dot (hitPoint o d t0 - s.center) = t0 * d.dot d - (s.center - o).dot d := by
    simp only [Vec.dot, hitPoint, Vec.sub_x, Vec.sub_y, Vec.sub_z, Vec.add_x, Vec.add_y,
      Vec.add_z, Vec.scale_x, Vec.scale_y, Vec.scale_z]
    ring
  rw [e, hd]
  linarith

/-- The ray reflected at a point of the sphere, started a positive offset `b` out
along the normal, does not intersect the sphere. -/
theorem reflected_ray_misses (s : orb ℝ) (p d : Vec ℝ) (b : ℝ)
    (hr : 0 < s.radius) (hr2 : s.radius2 = s.radius * s.radius) (hb : 0 < b)
    (hp : s.onSurface p) (hdv : d.dot (p - s.center) ≤ 0) :
    s.intersect Real.sqrt (p + (s.outwardNormal p).scale b)
      (d - ((s.outwardNormal p).scale 2).scale (d.dot (s.outwardNormal p))) = none := by
  unfold orb.onSurface at hp
  rw [hr2] at hp
  rw [intersect_eq_none_iff]
  have hl : s.center - (p + (s.outwardNormal p).scale b) =
      (p - s.center).scale (-(1 + 1 / s.radius * b)) := by
    ext <;> simp [orb.outwardNormal] <;> ring
  rw [hl, hr2]
  set v := p - s.center with hv
  have hne : s.radius ≠ 0 := hr.ne'
  have hcos : (v.scale (-(1 + 1 / s.radius * b))).dot
      (d - ((s.outwardNormal p).scale 2).scale (d.dot (s.outwardNormal p))) =
      (1 + 1 / s.radius * b) * d.dot v := by
    simp only [orb.outwardNormal, ← hv, Vec.dot_sub_right, Vec.dot_scale_left,
      Vec.dot_scale_right, Vec.dot_comm v d, hp]
    field_simp
    ring
  have hll : (v.scale (-(1 + 1 / s.radius * b))).dot (v.scale (-(1 + 1 / s.radius * b))) =
      (s.radius + b) ^ 2 := by
    simp only [Vec.dot_scale_left, Vec.dot_scale_right, hp]
    field_simp
    ring
  rw [hcos, hll]
  have hpos : 0 < 1 + 1 / s.radius * b := by positivity
  rcases hdv.lt_or_eq with hlt | heq
  · left
    exact mul_neg_of_pos_of_neg hpos hlt
  · right
    rw [heq]
    nlinarith

/-- The value of `fresneleffect` in closed form. -/
theorem fresnel_eq {F : Type} [LinearOrderedField F] (d n : Vec F) :
    fresnel d n = 9 / 10 * (1 - max 0 (-(d.dot n))) ^ 3 + 1 / 10 := by
  simp only [fresnel, mix]
  ring

/-- The specular color when the reflected ray sees the background and nothing is
refracted. -/
theorem specularColor_background {F : Type} [LinearOrderedField F] (s : orb F) (f : F) :
    specularColor s f ⟨1, 1, 1⟩ (Vec.splat 0) = s.surfaceColor.scale f := by
  ext <;> simp [specularColor] <;> ring

/-- The lone mirror sphere, seen from outside. -/
theorem trace_lone_mirror_aux (s : orb ℝ) (o d : Vec ℝ) (depth : Int) (t0 t1 : ℝ)
    (hr : 0 < s.radius) (hr2 : s.radius2 = s.radius * s.radius)
    (hrefl : 0 < s.reflection) (htr : s.transparency = 0)
    (hout : (s.center - o).dot (s.center - o) > s.radius * s.radius)
    (hd : d.dot d = 1) (hhit : s.intersect Real.sqrt o d = some (t0, t1))
    (hdepth : depth < 5) :
    nearest Real.sqrt o d [s] = some (t0, s) ∧
    s.onSurface (hitPoint o d t0) ∧
    hitNormal Real.sqrt d (hitPoint o d t0) s = s.outwardNormal (hitPoint o d t0) ∧
    (s.outwardNormal (hitPoint o d t0)).dot (s.outwardNormal (hitPoint o d t0)) = 1 ∧
    d.dot (s.outwardNormal (hitPoint o d t0)) = (t0 - t1) / 2 / s.radius ∧
    s.intersect Real.sqrt
      (hitPoint o d t0 + (s.outwardNormal (hitPoint o d t0)).scale bias)
      (reflectDir Real.sqrt d (s.outwardNormal (hitPoint o d t0))) = none ∧
    trace Real.sqrt o d [s] depth =
      specularColor s (fresnel d (s.outwardNormal (hitPoint o d t0))) ⟨1, 1, 1⟩ (Vec.splat 0) := by
  have hsound := intersect_sound_aux s o d t0 t1 hd hhit
  have hp : s.onSurface (hitPoint o d t0) := hsound.2.1
  have hvv : (hitPoint o d t0 - s.center).dot (hitPoint o d t0 - s.center) =
      s.radius * s.radius := by
    rw [← hr2]; exact hp
  obtain ⟨hdv, hle⟩ := dot_hitPoint_sub_center s o d t0 t1 hd hhit
  have hne : s.radius ≠ 0 := hr.ne'
  have hnorm : (hitPoint o d t0 - s.center).normalize Real.sqrt =
      s.outwardNormal (hitPoint o d t0) :=
    normalize_of_dot_self _ s.radius hr hvv
  have hdn : d.dot (s.outwardNormal (hitPoint o d t0)) = (t0 - t1) / 2 / s.radius := by
    simp only [orb.outwardNormal, Vec.dot_scale_right, hdv]
    ring
  have hdn_le : d.dot (s.outwardNormal (hitPoint o d t0)) ≤ 0 := by
    rw [hdn]
    apply div_nonpos_of_nonpos_of_nonneg _ hr.le
    linarith
  have hnhit : hitNormal Real.sqrt d (hitPoint o d t0) s = s.outwardNormal (hitPoint o d t0) := by
    simp only [hitNormal, hnorm, gt_iff_lt, not_lt.mpr hdn_le, if_false]
  have hnn : (s.outwardNormal (hitPoint o d t0)).dot (s.outwardNormal (hitPoint o d t0)) = 1 := by
    simp only [orb.outwardNormal, Vec.dot_scale_left, Vec.dot_scale_right, hvv]
    field_simp
  have hbias : (0 : ℝ) < bias := by unfold bias; norm_num
  have hmiss : s.intersect Real.sqrt
      (hitPoint o d t0 + (s.outwardNormal (hitPoint o d t0)).scale bias)
      (reflectDir Real.sqrt d (s.outwardNormal (hitPoint o d t0))) = none := by
    rw [reflectDir_of_unit d _ hd hnn]
    exact reflected_ray_misses s _ d bias hr hr2 hbias hp (by rw [hdv]; linarith)
  have ht0 : 0 ≤ t0 := intersect_t0_nonneg s o d t0 t1 (by rw [hr2]; exact hout) hhit
  have hnear : nearest Real.sqrt o d [s] = some (t0, s) := by
    rw [nearest_singleton Real.sqrt o d s t0 t1 hhit, if_neg (not_lt.mpr ht0)]
  refine ⟨hnear, hp, hnhit, hnn, hdn, hmiss, ?_⟩
  have hc : (s.transparency > 0 ∨ s.reflection > 0) ∧ depth < MAX_RAY_DEPTH :=
    ⟨Or.inr hrefl, hdepth⟩
  rw [trace_of_specular Real.sqrt o d [s] depth t0 s hnear hc, hnhit]
  have hrefl_bg : trace Real.sqrt
      (hitPoint o d t0 + (s.outwardNormal (hitPoint o d t0)).scale bias)
      (reflectDir Real.sqrt d (s.outwardNormal (hitPoint o d t0))) [s] (depth + 1) =
      ⟨1, 1, 1⟩ := by
    apply trace_of_nearest_none
    apply foldl_nearestStep_of_miss
    intro x hx
    rw [List.mem_singleton] at hx
    rw [hx]
    exact hmiss
  rw [hrefl_bg, htr, if_neg (lt_irrefl 0)]

/-- A ray aimed at the center of the sphere meets the outward normal head-on. -/
theorem dot_normal_of_aimed_at_center (s : orb ℝ) (o d : Vec ℝ) (t0 t1 k : ℝ)
    (hr : 0 < s.radius) (hr2 : s.radius2 = s.radius * s.radius)
    (hd : d.dot d = 1) (hhit : s.intersect Real.sqrt o d = some (t0, t1))
    (hk : s.center - o = d.scale k) :
    (t0 - t1) / 2 / s.radius = -1 := by
  obtain ⟨_, _, h3, h4⟩ := (intersect_eq_some_iff Real.sqrt s o d t0 t1).mp hhit
  have hz : s.radius2 - ((s.center - o).dot (s.center - o) -
      (s.center - o).dot d * (s.center - o).dot d) = s.radius * s.radius := by
    rw [hk, hr2]
    simp only [Vec.dot_scale_left, Vec.dot_scale_right, hd]
    ring
  rw [hz, Real.sqrt_mul_self hr.le] at h3 h4
  rw [h3, h4]
  field_simp
  ring

/-- The lone mirror sphere in exact arithmetic (what the binary32 program does
is evaluated in the last section): on a scene made of a single sphere with
`radius > 0` (and
`radius2 = radius * radius`), `reflection > 0`, `transparency = 0`, for a ray
origin strictly outside the sphere, a unit direction on which `orb::intersect`
reports a hit `(t0, t1)` and a depth `< 5`: the normal `nhit` is the unit
outward normal `n` at the hit point `o + t0*d`; the reflected ray, from
`phit + n*bias` along `refldir`, misses the sphere; `trace` returns the specular
color built from the background `(1,1,1)` as reflection color and `0` as
refraction color, which is `surfaceColor` scaled componentwise by
`0.9*(1 - facing)^3 + 0.1` with `facing = max(0, -dot(d, n))`; and a ray aimed
straight at the center returns `0.1 * surfaceColor`. -/
theorem trace_lone_mirror (s : orb ℝ) (o d : Vec ℝ) (depth : Int) (t0 t1 : ℝ)
    (hr : 0 < s.radius) (hr2 : s.radius2 = s.radius * s.radius)
    (hrefl : 0 < s.reflection) (htr : s.transparency = 0)
    (hout : (s.center - o).dot (s.center - o) > s.radius * s.radius)
    (hd : d.dot d = 1) (hhit : s.intersect Real.sqrt o d = some (t0, t1))
    (hdepth : depth < 5) :
    s.onSurface (hitPoint o d t0) ∧
    hitNormal Real.sqrt d (hitPoint o d t0) s = s.outwardNormal (hitPoint o d t0) ∧
    (s.outwardNormal (hitPoint o d t0)).dot (s.outwardNormal (hitPoint o d t0)) = 1 ∧
    s.intersect Real.sqrt
      (hitPoint o d t0 + (s.outwardNormal (hitPoint o d t0)).scale bias)
      (reflectDir Real.sqrt d (s.outwardNormal (hitPoint o d t0))) = none ∧
    trace Real.sqrt o d [s] depth =
      specularColor s (fresnel d (s.outwardNormal (hitPoint o d t0))) ⟨1, 1, 1⟩ (Vec.splat 0) ∧
    trace Real.sqrt o d [s] depth =
      s.surfaceColor.scale
        (9 / 10 * (1 - max 0 (-(d.dot (s.outwardNormal (hitPoint o d t0))))) ^ 3 + 1 / 10) ∧
    ((∃ k : ℝ, 0 < k ∧ s.center - o = d.scale k) →
      trace Real.sqrt o d [s] depth = s.surfaceColor.scale (1 / 10)) := by
  obtain ⟨_, hp, hnhit, hnn, hdn, hmiss, htrace⟩ :=
    trace_lone_mirror_aux s o d depth t0 t1 hr hr2 hrefl htr hout hd hhit hdepth
  have hclosed : trace Real.sqrt o d [s] depth =
      s.surfaceColor.scale
        (9 / 10 * (1 - max 0 (-(d.dot (s.outwardNormal (hitPoint o d t0))))) ^ 3 + 1 / 10) := by
    rw [htrace, specularColor_background, fresnel_eq]
  refine ⟨hp, hnhit, hnn, hmiss, htrace, hclosed, ?_⟩
  rintro ⟨k, _, hk⟩
  rw [hclosed, hdn, dot_normal_of_aimed_at_center s o d t0 t1 k hr hr2 hd hhit hk]
  norm_num

/-- An instance of `trace_lone_mirror`: the unit mirror sphere at `(0,0,-5)` with
surface color `(1,0,0)`, looked at from the origin straight toward its center, is
colored `0.1 * (1,0,0)`. -/
theorem trace_lone_mirror_witness :
    (orb.new (⟨0, 0, -5⟩ : Vec ℝ) 1 ⟨1, 0, 0⟩ 1 0 ⟨0, 0, 0⟩).intersect Real.sqrt
        ⟨0, 0, 0⟩ ⟨0, 0, -1⟩ = some (4, 6) ∧
    trace Real.sqrt ⟨0, 0, 0⟩ ⟨0, 0, -1⟩
        [orb.new (⟨0, 0, -5⟩ : Vec ℝ) 1 ⟨1, 0, 0⟩ 1 0 ⟨0, 0, 0⟩] 0 =
      (⟨1, 0, 0⟩ : Vec ℝ).scale (1 / 10) :=
  ⟨intersect_unit_sphere_ahead _ _ _ _,
   (trace_lone_mirror (orb.new (⟨0, 0, -5⟩ : Vec ℝ) 1 ⟨1, 0, 0⟩ 1 0 ⟨0, 0, 0⟩)
      ⟨0, 0, 0⟩ ⟨0, 0, -1⟩ 0 4 6 (by simp [orb.new]) (by simp [orb.new]) (by simp [orb.new])
      (by simp [orb.new]) (by simp [orb.new, Vec.dot]; norm_num) (by simp [Vec.dot])
      (intersect_unit_sphere_ahead _ _ _ _) (by decide)).2.2.2.2.2.2
      ⟨5, by norm_num, by ext <;> simp [orb.new, Vec.scale]⟩⟩

/-! ## C9: full occlusion by an opaque occluder -/

section Occlusion

variable {F : Type} [LinearOrderedField F]

/-- A property of the state that every step over an element of the list preserves
holds after the fold. -/
theorem foldl_preserves {α σ : Type} (P : σ → Prop) (f : σ → α → σ) (l : List α)
    (hstep : ∀ st a, a ∈ l → P st → P (f st a)) (st : σ) (h : P st) : P (l.foldl f st) := by
  induction l generalizing st with
  | nil => exact h
  | cons a l ih =>
    exact ih (fun st b hb => hstep st b (List.mem_cons_of_mem a hb)) _
      (hstep st a (List.mem_cons_self a l) h)

/-- A numbered element of a numbered list is an element of the list. -/
theorem mem_of_mem_enumFrom {α : Type} (l : List α) (n : Nat) (p : Nat × α)
    (h : p ∈ l.enumFrom n) : p.2 ∈ l := by
  obtain ⟨i, a⟩ := p
  have := List.mem_enumFrom h
  rw [this.2.2]
  exact List.getElem_mem _

/-- One occluder step keeps `shadow <= 1` when the occluder's transparency is at
most `1`. -/
theorem shadowStep_fst_le_one (sqrt : F → F) (i : Nat) (org dir : Vec F) (st : F × Vec F)
    (jo : Nat × orb F) (ht : jo.2.transparency ≤ 1) (h : st.1 ≤ 1) :
    (shadowStep sqrt i org dir st jo).1 ≤ 1 := by
  unfold shadowStep
  split_ifs
  · cases jo.2.intersect sqrt org dir with
    | none => exact h
    | some p =>
      show max 0 (st.1 - (1 - jo.2.transparency)) ≤ 1
      exact max_le zero_le_one (by linarith)
  · exact h

/-- The occluder loop keeps `shadow <= 1`. -/
theorem shadowLoop_fst_le_one (sqrt : F → F) (orbs : List (orb F)) (i : Nat) (org dir : Vec F)
    (shadow : F) (ht : ∀ o ∈ orbs, o.transparency ≤ 1) (h : shadow ≤ 1) :
    (shadowLoop sqrt orbs i org dir shadow).1 ≤ 1 := by
  unfold shadowLoop
  refine foldl_preserves (fun (st : F × Vec F) => st.1 ≤ 1) _ _ ?_ _ h
  intro st jo hjo hst
  exact shadowStep_fst_le_one sqrt i org dir st jo (ht _ (mem_of_mem_enumFrom orbs 0 jo hjo)) hst

/-- One light step keeps `shadow <= 1`. -/
theorem lightStep_fst_le_one (sqrt : F → F) (orbs : List (orb F)) (sc phit nhit : Vec F)
    (st : F × Vec F) (io : Nat × orb F) (ht : ∀ o ∈ orbs, o.transparency ≤ 1) (h : st.1 ≤ 1) :
    (lightStep sqrt orbs sc phit nhit st io).1 ≤ 1 := by
  unfold lightStep
  split_ifs
  · exact shadowLoop_fst_le_one sqrt orbs _ _ _ _ ht h
  · exact h

/-- Any run of light steps keeps `shadow <= 1`. -/
theorem lightFold_fst_le_one (sqrt : F → F) (orbs : List (orb F)) (sc phit nhit : Vec F)
    (l : List (Nat × orb F)) (st : F × Vec F) (ht : ∀ o ∈ orbs, o.transparency ≤ 1)
    (h : st.1 ≤ 1) :
    (l.foldl (lightStep sqrt orbs sc phit nhit) st).1 ≤ 1 :=
  foldl_preserves (fun (st : F × Vec F) => st.1 ≤ 1) _ l
    (fun st io _ hst => lightStep_fst_le_one sqrt orbs sc phit nhit st io ht hst) st h

/-- Once `transmission` is the zero vector it stays so. -/
theorem shadowStep_snd_zero (sqrt : F → F) (i : Nat) (org dir : Vec F) (st : F × Vec F)
    (jo : Nat × orb F) (h : st.2 = Vec.splat 0) :
    (shadowStep sqrt i org dir st jo).2 = Vec.splat 0 := by
  unfold shadowStep
  split_ifs
  · cases jo.2.intersect sqrt org dir with
    | none => exact h
    | some p =>
      show st.2.scale _ = Vec.splat 0
      rw [h]
      ext <;> simp
  · exact h

/-- An opaque occluder hit by the shadow ray drives `transmission` to the zero
vector, whatever the other occluders. -/
theorem shadowLoop_snd_zero (sqrt : F → F) (orbs : List (orb F)) (i j : Nat) (occ : orb F)
    (org dir : Vec F) (shadow : F) (ht : ∀ o ∈ orbs, o.transparency ≤ 1) (h : shadow ≤ 1)
    (hj : j ≠ i) (hocc : orbs[j]? = some occ) (hsolid : occ.transparency = 0)
    (hhit : (occ.intersect sqrt org dir).isSome = true) :
    (shadowLoop sqrt orbs i org dir shadow).2 = Vec.splat 0 := by
  unfold shadowLoop
  have hmem : (j, occ) ∈ orbs.enum := List.mk_mem_enum_iff_getElem?.mpr hocc
  obtain ⟨l1, l2, hsplit⟩ := List.append_of_mem hmem
  rw [hsplit, List.foldl_append, List.foldl_cons]
  have hl1 : ∀ p ∈ l1, p.2.transparency ≤ 1 := by
    intro p hp
    apply ht
    apply mem_of_mem_enumFrom orbs 0 p
    show p ∈ orbs.enum
    rw [hsplit]
    exact List.mem_append_left _ hp
  have h1 : (l1.foldl (shadowStep sqrt i org dir) (shadow, Vec.splat 1)).1 ≤ 1 :=
    foldl_preserves (fun (st : F × Vec F) => st.1 ≤ 1) _ l1
      (fun st jo hjo hst => shadowStep_fst_le_one sqrt i org dir st jo (hl1 jo hjo) hst) _ h
  refine foldl_preserves (fun (st : F × Vec F) => st.2 = Vec.splat 0) _ l2
    (fun st jo _ hst => shadowStep_snd_zero sqrt i org dir st jo hst) _ ?_
  obtain ⟨p, hp⟩ := Option.isSome_iff_exists.mp hhit
  simp only [shadowStep, ne_eq, hj.symm, not_false_eq_true, if_true, hp, hsolid, sub_zero]
  rw [max_eq_left (by linarith)]
  ext <;> simp

/-- Replacing the emission color anywhere leaves the occluder loop unchanged. -/
theorem shadowLoop_withEmission (sqrt : F → F) (pre post : List (orb F)) (L : orb F)
    (e' : Vec F) (i : Nat) (org dir : Vec F) (shadow : F) :
    shadowLoop sqrt (pre ++ L.withEmission e' :: post) i org dir shadow =
      shadowLoop sqrt (pre ++ L :: post) i org dir shadow := by
  refine (shadowLoop_forall₂ sqrt
    (fun a b => a.center = b.center ∧ a.radius2 = b.radius2 ∧ a.transparency = b.transparency)
    (fun a b hab => hab) _ _ ?_ i org dir shadow).symm
  refine List.rel_append (List.forall₂_same.mpr fun _ _ => ⟨rfl, rfl, rfl⟩)
    (List.Forall₂.cons ⟨rfl, rfl, rfl⟩ (List.forall₂_same.mpr fun _ _ => ⟨rfl, rfl, rfl⟩))

/-- The light step of a fully occluded light leaves the color unchanged. -/
theorem lightStep_occluded (sqrt : F → F) (orbs : List (orb F)) (sc phit nhit : Vec F)
    (st : F × Vec F) (i j : Nat) (L occ : orb F)
    (ht : ∀ o ∈ orbs, o.transparency ≤ 1) (h : st.1 ≤ 1)
    (hL : L.emissionColor.x > 0)
    (hj : j ≠ i) (hocc : orbs[j]? = some occ) (hsolid : occ.transparency = 0)
    (hhit : (occ.intersect sqrt (phit + nhit.scale bias)
      ((L.center - phit).normalize sqrt)).isSome = true) :
    lightStep sqrt orbs sc phit nhit st (i, L) =
      ((shadowLoop sqrt orbs i (phit + nhit.scale bias)
        ((L.center - phit).normalize sqrt) st.1).1, st.2) := by
  have hz := shadowLoop_snd_zero sqrt orbs i j occ _ _ st.1 ht h hj hocc hsolid hhit
  simp only [lightStep, hL, if_true, hz]
  congr 1
  ext <;> simp

/-- Replacing the emission color of a fully occluded light by that of another light
leaves the value of the diffuse branch unchanged. -/
theorem diffuse_full_occlusion_aux (sqrt : F → F) (pre post : List (orb F)) (L occ : orb F)
    (sc phit nhit : Vec F) (j : Nat) (e' : Vec F)
    (htr : ∀ o ∈ pre ++ L :: post, o.transparency ≤ 1)
    (hL : L.emissionColor.x > 0)
    (hj : j ≠ pre.length) (hocc : (pre ++ L :: post)[j]? = some occ)
    (hsolid : occ.transparency = 0)
    (hhit : (occ.intersect sqrt (phit + nhit.scale bias)
      ((L.center - phit).normalize sqrt)).isSome = true)
    (he' : e'.x > 0) :
    diffuse sqrt (pre ++ L.withEmission e' :: post) sc phit nhit =
      diffuse sqrt (pre ++ L :: post) sc phit nhit := by
  have hfun : lightStep sqrt (pre ++ L.withEmission e' :: post) sc phit nhit =
      lightStep sqrt (pre ++ L :: post) sc phit nhit := by
    funext st io
    simp only [lightStep, shadowLoop_withEmission]
  have h1 := lightFold_fst_le_one sqrt (pre ++ L :: post) sc phit nhit pre.enum
    (1, Vec.splat 1) htr (le_refl (1 : F))
  have hstepL := lightStep_occluded sqrt (pre ++ L :: post) sc phit nhit _ pre.length j L occ
    htr h1 hL hj hocc hsolid hhit
  have hstepL' := lightStep_occluded sqrt (pre ++ L :: post) sc phit nhit _ pre.length j
    (L.withEmission e') occ htr h1 he' hj hocc hsolid hhit
  simp only [diffuse, List.enum, List.enumFrom_append, List.enumFrom_cons, List.foldl_append,
    List.foldl_cons, hfun, zero_add]
  rw [show List.enumFrom 0 pre = pre.enum from rfl, hstepL, hstepL']
  rfl

end Occlusion

/-- C9: in the diffuse branch, on a scene `pre ++ L :: post` whose spheres all have
`transparency` in `[0,1]`, for every hit point `phit` with normal `nhit` and
every light `L` (`emissionColor.x > 0`, at index `pre.length`): if a sphere
`occ` at an index `j` other than that of `L`, with `transparency = 0`, is
intersected by the shadow ray from `phit + nhit*bias` toward the center of `L`,
then the term `surfaceColor * transmission * emissionColor` added to the color
for `L` is the zero vector, and the value of the diffuse branch is unchanged
when the emission color of `L` is replaced by any `e'` with `e'.x > 0`. -/
theorem diffuse_full_occlusion {F : Type} [LinearOrderedField F] (sqrt : F → F)
    (pre post : List (orb F)) (L occ : orb F) (sc phit nhit : Vec F) (j : Nat) (e' : Vec F)
    (htr : ∀ o ∈ pre ++ L :: post, 0 ≤ o.transparency ∧ o.transparency ≤ 1)
    (hL : L.emissionColor.x > 0)
    (hj : j ≠ pre.length) (hocc : (pre ++ L :: post)[j]? = some occ)
    (hsolid : occ.transparency = 0)
    (hhit : (occ.intersect sqrt (phit + nhit.scale bias)
      ((L.center - phit).normalize sqrt)).isSome = true)
    (he' : e'.x > 0) :
    sc * (shadowLoop sqrt (pre ++ L :: post) pre.length (phit + nhit.scale bias)
        ((L.center - phit).normalize sqrt)
        (pre.enum.foldl (lightStep sqrt (pre ++ L :: post) sc phit nhit)
          (1, Vec.splat 1)).1).2 * L.emissionColor = Vec.splat 0 ∧
    diffuse sqrt (pre ++ L.withEmission e' :: post) sc phit nhit =
      diffuse sqrt (pre ++ L :: post) sc phit nhit := by
  have htr1 : ∀ o ∈ pre ++ L :: post, o.transparency ≤ 1 := fun o ho => (htr o ho).2
  refine ⟨?_, diffuse_full_occlusion_aux sqrt pre post L occ sc phit nhit j e' htr1 hL hj hocc
    hsolid hhit he'⟩
  have h1 := lightFold_fst_le_one sqrt (pre ++ L :: post) sc phit nhit pre.enum
    (1, Vec.splat 1) htr1 (le_refl (1 : F))
  rw [shadowLoop_snd_zero sqrt (pre ++ L :: post) pre.length j occ _ _ _ htr1 h1 hj hocc
    hsolid hhit]
  ext <;> simp

/-- The shadow ray from `(0,0,0) + (0,0,1)*bias` toward a light centered at
`(0,0,1)` intersects the opaque unit sphere centered at `(0,0,5)`. -/
theorem shadow_ray_hits_occluder (sc ec : Vec ℝ) (refl transp : ℝ) :
    ((orb.new (⟨0, 0, 5⟩ : Vec ℝ) 1 sc refl transp ec).intersect Real.sqrt
      ((⟨0, 0, 0⟩ : Vec ℝ) + (⟨0, 0, 1⟩ : Vec ℝ).scale bias)
      (((⟨0, 0, 1⟩ : Vec ℝ) - ⟨0, 0, 0⟩).normalize Real.sqrt)).isSome = true := by
  have hdir : ((⟨0, 0, 1⟩ : Vec ℝ) - ⟨0, 0, 0⟩).normalize Real.sqrt = ⟨0, 0, 1⟩ := by
    rw [normalize_of_unit _ (by simp [Vec.dot])]
    ext <;> simp
  rw [hdir, intersect_isSome_iff]
  simp only [orb.new, Vec.dot, bias, Vec.sub_x, Vec.sub_y, Vec.sub_z, Vec.add_x, Vec.add_y,
    Vec.add_z, Vec.scale_x, Vec.scale_y, Vec.scale_z]
  constructor <;> norm_num

/-- An instance of C9: a light at `(0,0,1)` and an opaque sphere at `(0,0,5)` on
the shadow ray from the hit point `(0,0,0)`; the color does not change with the
emission color of the light. -/
theorem diffuse_full_occlusion_witness :
    diffuse Real.sqrt
        ([] ++ (orb.new (⟨0, 0, 1⟩ : Vec ℝ) (1 / 2) ⟨1, 1, 1⟩ 0 0 ⟨1, 1, 1⟩).withEmission
            ⟨2, 2, 2⟩ ::
          [orb.new (⟨0, 0, 5⟩ : Vec ℝ) 1 ⟨1, 1, 1⟩ 0 0 ⟨0, 0, 0⟩])
        ⟨1, 1, 1⟩ ⟨0, 0, 0⟩ ⟨0, 0, 1⟩ =
      diffuse Real.sqrt
        ([] ++ orb.new (⟨0, 0, 1⟩ : Vec ℝ) (1 / 2) ⟨1, 1, 1⟩ 0 0 ⟨1, 1, 1⟩ ::
          [orb.new (⟨0, 0, 5⟩ : Vec ℝ) 1 ⟨1, 1, 1⟩ 0 0 ⟨0, 0, 0⟩])
        ⟨1, 1, 1⟩ ⟨0, 0, 0⟩ ⟨0, 0, 1⟩ :=
  (diffuse_full_occlusion Real.sqrt []
    [orb.new (⟨0, 0, 5⟩ : Vec ℝ) 1 ⟨1, 1, 1⟩ 0 0 ⟨0, 0, 0⟩]
    (orb.new (⟨0, 0, 1⟩ : Vec ℝ) (1 / 2) ⟨1, 1, 1⟩ 0 0 ⟨1, 1, 1⟩)
    (orb.new (⟨0, 0, 5⟩ : Vec ℝ) 1 ⟨1, 1, 1⟩ 0 0 ⟨0, 0, 0⟩)
    ⟨1, 1, 1⟩ ⟨0, 0, 0⟩ ⟨0, 0, 1⟩ 1 ⟨2, 2, 2⟩
    (by
      intro o ho
      simp only [List.nil_append, List.mem_cons, List.mem_singleton, List.not_mem_nil,
        or_false] at ho
      rcases ho with rfl | rfl <;> simp [orb.new])
    (by simp [orb.new]) (by simp) rfl rfl (shadow_ray_hits_occluder _ _ _ _)
    (by norm_num)).2

/-! ## C10: the hit sphere in the light loop -/

section HitSphereLight

variable {F : Type} [LinearOrderedField F]

/-- The diffuse branch on a one-sphere scene whose sphere is a light: the sphere
lights itself, with no occluder. -/
theorem diffuse_singleton_light (sqrt : F → F) (s : orb F) (sc phit nhit : Vec F)
    (he : s.emissionColor.x > 0) :
    diffuse sqrt [s] sc phit nhit = Vec.splat 1 + sc * Vec.splat 1 * s.emissionColor := by
  simp [diffuse, List.enum, List.enumFrom, lightStep, he, shadowLoop, shadowStep]

/-- A lone sphere with no reflection and no transparency that is a light, when hit. -/
theorem trace_lone_light_aux (sqrt : F → F) (s : orb F) (rayorig raydir : Vec F)
    (depth : Int) (hr : s.reflection = 0) (ht : s.transparency = 0)
    (he : s.emissionColor.x > 0)
    (hhit : (s.intersect sqrt rayorig raydir).isSome = true) :
    trace sqrt rayorig raydir [s] depth =
      Vec.splat 1 + s.surfaceColor * Vec.splat 1 * s.emissionColor := by
  obtain ⟨⟨t0, t1⟩, h⟩ := Option.isSome_iff_exists.mp hhit
  have hn := nearest_singleton sqrt rayorig raydir s t0 t1 h
  have hc : ¬ ((s.transparency > 0 ∨ s.reflection > 0) ∧ depth < MAX_RAY_DEPTH) := by
    simp [hr, ht]
  rw [trace_of_diffuse sqrt rayorig raydir [s] depth _ s hn hc,
    diffuse_singleton_light sqrt s _ _ _ he]

/-- In the diffuse branch, a hit sphere that is no light can change its emission
color, staying no light, without changing the color. -/
theorem trace_diffuse_unlit_aux (sqrt : F → F) (pre post : List (orb F)) (H : orb F)
    (e' : Vec F) (rayorig raydir : Vec F) (depth : Int) (tnear : F)
    (hnear : nearest sqrt rayorig raydir (pre ++ H :: post) = some (tnear, H))
    (hdiff : ¬ ((H.transparency > 0 ∨ H.reflection > 0) ∧ depth < MAX_RAY_DEPTH))
    (hH : ¬ H.emissionColor.x > 0) (he' : ¬ e'.x > 0) :
    trace sqrt rayorig raydir (pre ++ H.withEmission e' :: post) depth =
      trace sqrt rayorig raydir (pre ++ H :: post) depth := by
  have hrefl : ∀ a : orb F, orb.sameButUnlitEmission a a :=
    fun a => ⟨rfl, rfl, rfl, rfl, rfl, rfl, Or.inl rfl⟩
  have hrel : List.Forall₂ orb.sameButUnlitEmission (pre ++ H :: post)
      (pre ++ H.withEmission e' :: post) :=
    List.rel_append (List.forall₂_same.mpr fun a _ => hrefl a)
      (List.Forall₂.cons ⟨rfl, rfl, rfl, rfl, rfl, rfl, Or.inr ⟨hH, he'⟩⟩
        (List.forall₂_same.mpr fun a _ => hrefl a))
  have hn := nearest_forall₂ sqrt rayorig raydir orb.sameButUnlitEmission
    (fun a b hab => ⟨hab.1, hab.2.2.1⟩) _ _ hrel
  rw [hnear] at hn
  cases h2 : nearest sqrt rayorig raydir (pre ++ H.withEmission e' :: post) with
  | none => rw [h2] at hn; cases hn
  | some q =>
    rw [h2] at hn
    obtain ⟨t', s'⟩ := q
    cases hn with
    | some hpq =>
      obtain ⟨htt, hss⟩ := hpq
      simp only at htt hss
      subst htt
      have hdiff' : ¬ ((s'.transparency > 0 ∨ s'.reflection > 0) ∧ depth < MAX_RAY_DEPTH) := by
        rw [← hss.2.2.2.2.1, ← hss.2.2.2.2.2.1]; exact hdiff
      rw [trace_of_diffuse sqrt rayorig raydir _ depth tnear H hnear hdiff,
        trace_of_diffuse sqrt rayorig raydir _ depth tnear s' h2 hdiff',
        hitNormal_congr sqrt raydir _ H s' hss.1, hss.2.2.2.1]
      exact (diffuse_forall₂ sqrt orb.sameButUnlitEmission
        (fun a b hab => ⟨hab.1, hab.2.2.1, hab.2.2.2.2.1⟩)
        (fun a b hab => hab.2.2.2.2.2.2) _ _ hrel _ _ _).symm

end HitSphereLight

/-- C10, as stated, fails: a lone diffuse sphere that is itself emissive is used as
a light for its own shading, and the color returned by the diffuse branch changes
with its emission color. -/
theorem diffuse_depends_on_hit_emission :
    trace Real.sqrt ⟨0, 0, 0⟩ ⟨0, 0, -1⟩
        [orb.new (⟨0, 0, -5⟩ : Vec ℝ) 1 ⟨1, 1, 1⟩ 0 0 ⟨3, 3, 3⟩] 0 = ⟨4, 4, 4⟩ ∧
    trace Real.sqrt ⟨0, 0, 0⟩ ⟨0, 0, -1⟩
        [orb.new (⟨0, 0, -5⟩ : Vec ℝ) 1 ⟨1, 1, 1⟩ 0 0 ⟨1, 1, 1⟩] 0 = ⟨2, 2, 2⟩ ∧
    trace Real.sqrt ⟨0, 0, 0⟩ ⟨0, 0, -1⟩
        [orb.new (⟨0, 0, -5⟩ : Vec ℝ) 1 ⟨1, 1, 1⟩ 0 0 ⟨3, 3, 3⟩] 0 ≠
      trace Real.sqrt ⟨0, 0, 0⟩ ⟨0, 0, -1⟩
        [orb.new (⟨0, 0, -5⟩ : Vec ℝ) 1 ⟨1, 1, 1⟩ 0 0 ⟨1, 1, 1⟩] 0 := by
  have h3 : trace Real.sqrt ⟨0, 0, 0⟩ ⟨0, 0, -1⟩
      [orb.new (⟨0, 0, -5⟩ : Vec ℝ) 1 ⟨1, 1, 1⟩ 0 0 ⟨3, 3, 3⟩] 0 = ⟨4, 4, 4⟩ := by
    rw [trace_lone_light_aux Real.sqrt _ _ _ 0 rfl rfl (by simp [orb.new])
      (by rw [intersect_unit_sphere_ahead]; rfl)]
    ext <;> simp [orb.new] <;> norm_num
  have h1 : trace Real.sqrt ⟨0, 0, 0⟩ ⟨0, 0, -1⟩
      [orb.new (⟨0, 0, -5⟩ : Vec ℝ) 1 ⟨1, 1, 1⟩ 0 0 ⟨1, 1, 1⟩] 0 = ⟨2, 2, 2⟩ := by
    rw [trace_lone_light_aux Real.sqrt _ _ _ 0 rfl rfl (by simp [orb.new])
      (by rw [intersect_unit_sphere_ahead]; rfl)]
    ext <;> simp [orb.new] <;> norm_num
  refine ⟨h3, h1, ?_⟩
  rw [h3, h1]
  intro h
  have hx := congrArg Vec.x h
  norm_num at hx

/-- C10, amended: the light loop of the diffuse branch ranges over every sphere of
the scene with `emissionColor.x > 0`, the hit sphere included (a lone emissive
sphere `s` gets `1 + surfaceColor * 1 * s.emissionColor`).  When `trace` takes
the diffuse branch on the hit sphere `H` of the scene `pre ++ H :: post`, the
returned color does not depend on the emission color of `H` as long as `H` is no
light before and after the change (`emissionColor.x <= 0`). -/
theorem trace_diffuse_hit_emission {F : Type} [LinearOrderedField F] (sqrt : F → F)
    (pre post : List (orb F)) (H : orb F) (e' : Vec F) (rayorig raydir : Vec F)
    (depth : Int) (tnear : F)
    (hnear : nearest sqrt rayorig raydir (pre ++ H :: post) = some (tnear, H))
    (hdiff : ¬ ((H.transparency > 0 ∨ H.reflection > 0) ∧ depth < MAX_RAY_DEPTH))
    (hH : ¬ H.emissionColor.x > 0) (he' : ¬ e'.x > 0) :
    trace sqrt rayorig raydir (pre ++ H.withEmission e' :: post) depth =
      trace sqrt rayorig raydir (pre ++ H :: post) depth ∧
    ∀ (s : orb F) (sc phit nhit : Vec F), s.emissionColor.x > 0 →
      diffuse sqrt [s] sc phit nhit = Vec.splat 1 + sc * Vec.splat 1 * s.emissionColor :=
  ⟨trace_diffuse_unlit_aux sqrt pre post H e' rayorig raydir depth tnear hnear hdiff hH he',
   fun s sc phit nhit hs => diffuse_singleton_light sqrt s sc phit nhit hs⟩

/-- An instance of C10 amended: a diffuse unit sphere at `(0,0,-5)` that is no
light, with a light behind the viewer; its emission color `(0,0,0)` can become
`(-1,2,3)` without changing the color seen from the origin. -/
theorem trace_diffuse_hit_emission_witness :
    trace Real.sqrt ⟨0, 0, 0⟩ ⟨0, 0, -1⟩
        ([] ++ (orb.new (⟨0, 0, -5⟩ : Vec ℝ) 1 ⟨1, 0, 0⟩ 0 0 ⟨0, 0, 0⟩).withEmission
            ⟨-1, 2, 3⟩ ::
          [orb.new (⟨0, 0, 5⟩ : Vec ℝ) 1 ⟨1, 1, 1⟩ 0 0 ⟨3, 3, 3⟩]) 0 =
      trace Real.sqrt ⟨0, 0, 0⟩ ⟨0, 0, -1⟩
        ([] ++ orb.new (⟨0, 0, -5⟩ : Vec ℝ) 1 ⟨1, 0, 0⟩ 0 0 ⟨0, 0, 0⟩ ::
          [orb.new (⟨0, 0, 5⟩ : Vec ℝ) 1 ⟨1, 1, 1⟩ 0 0 ⟨3, 3, 3⟩]) 0 :=
  (trace_diffuse_hit_emission Real.sqrt []
    [orb.new (⟨0, 0, 5⟩ : Vec ℝ) 1 ⟨1, 1, 1⟩ 0 0 ⟨3, 3, 3⟩]
    (orb.new (⟨0, 0, -5⟩ : Vec ℝ) 1 ⟨1, 0, 0⟩ 0 0 ⟨0, 0, 0⟩) ⟨-1, 2, 3⟩
    ⟨0, 0, 0⟩ ⟨0, 0, -1⟩ 0 4
    (by
      have hb : (orb.new (⟨0, 0, 5⟩ : Vec ℝ) 1 ⟨1, 1, 1⟩ 0 0 ⟨3, 3, 3⟩).intersect Real.sqrt
          ⟨0, 0, 0⟩ ⟨0, 0, -1⟩ = none := by
        simp [orb.intersect, orb.new, Vec.dot]
      simp [nearest, nearestStep, intersect_unit_sphere_ahead, hb])
    (by simp [orb.new]) (by simp [orb.new]) (by norm_num)).1

/-! ## C11 and C12: reflection direction and Fresnel weight -/

section ReflectFresnel

variable {F : Type} [LinearOrderedField F]

/-- The direction `refldir` is the normalized `reflectRaw`. -/
theorem reflectDir_eq_normalize (sqrt : F → F) (d n : Vec F) :
    reflectDir sqrt d n = (reflectRaw d n).normalize sqrt := rfl

/-- The direction `refrdir` is the normalized `refractRaw`. -/
theorem refractDir_eq_normalize (sqrt : F → F) (d n : Vec F) :
    refractDir sqrt d n = (refractRaw sqrt d n).normalize sqrt := rfl

/-- Reflection about a unit normal preserves the squared length. -/
theorem reflectRaw_dot_self (d n : Vec F) (hn : n.dot n = 1) :
    (reflectRaw d n).dot (reflectRaw d n) = d.dot d := by
  simp only [reflectRaw, Vec.dot_sub_left, Vec.dot_sub_right, Vec.dot_scale_left,
    Vec.dot_scale_right, Vec.dot_comm n d, hn]
  ring

/-- Reflection about a unit normal negates the normal component. -/
theorem reflectRaw_dot_normal (d n : Vec F) (hn : n.dot n = 1) :
    (reflectRaw d n).dot n = -(d.dot n) := by
  simp only [reflectRaw, Vec.dot_sub_left, Vec.dot_scale_left, hn]
  ring

/-- Cauchy-Schwarz for unit vectors. -/
theorem dot_sq_le_one (d n : Vec F) (hd : d.dot d = 1) (hn : n.dot n = 1) :
    d.dot n * d.dot n ≤ 1 := by
  have h : d.dot n * d.dot n ≤ d.dot d * n.dot n := by
    simp only [Vec.dot]
    nlinarith [sq_nonneg (d.x * n.y - d.y * n.x), sq_nonneg (d.x * n.z - d.z * n.x),
      sq_nonneg (d.y * n.z - d.z * n.y)]
  rw [hd, hn, mul_one] at h
  exact h

/-- The facing ratio of unit vectors lies in `[0,1]`. -/
theorem facing_mem (d n : Vec F) (hd : d.dot d = 1) (hn : n.dot n = 1) :
    0 ≤ max 0 (-(d.dot n)) ∧ max 0 (-(d.dot n)) ≤ 1 := by
  refine ⟨le_max_left _ _, max_le zero_le_one ?_⟩
  have h := dot_sq_le_one d n hd hn
  nlinarith [sq_nonneg (d.dot n + 1)]

/-- The Fresnel weight as a function of the facing ratio is non-increasing. -/
theorem fresnel_antitone (d n d' n' : Vec F)
    (h : max 0 (-(d.dot n)) ≤ max 0 (-(d'.dot n'))) : fresnel d' n' ≤ fresnel d n := by
  rw [fresnel_eq, fresnel_eq]
  have hmono := (Odd.strictMono_pow (R := F) (by decide : Odd 3)).monotone
  have : (1 - max 0 (-(d'.dot n'))) ^ 3 ≤ (1 - max 0 (-(d.dot n))) ^ 3 :=
    hmono (by linarith)
  linarith

/-- The Fresnel weight of unit vectors lies in `[0.1, 1]`. -/
theorem fresnel_mem (d n : Vec F) (hd : d.dot d = 1) (hn : n.dot n = 1) :
    1 / 10 ≤ fresnel d n ∧ fresnel d n ≤ 1 := by
  obtain ⟨h0, h1⟩ := facing_mem d n hd hn
  rw [fresnel_eq]
  have hc0 : 0 ≤ (1 - max 0 (-(d.dot n))) ^ 3 := pow_nonneg (by linarith) 3
  have hc1 : (1 - max 0 (-(d.dot n))) ^ 3 ≤ 1 := pow_le_one₀ (by linarith) (by linarith)
  constructor <;> linarith

end ReflectFresnel

/-- C11: for every direction `d` and every unit normal `n`, the vector
`refl = d - n*2*dot(d,n)` computed by `trace` has the same Euclidean length as
`d` and satisfies `dot(refl, n) = -dot(d, n)`; so for a unit `d` the subsequent
`normalize` leaves it unchanged. -/
theorem reflect_direction (d n : Vec ℝ) (hn : n.dot n = 1) :
    (reflectRaw d n).length Real.sqrt = d.length Real.sqrt ∧
    (reflectRaw d n).dot n = -(d.dot n) ∧
    (d.dot d = 1 → reflectDir Real.sqrt d n = reflectRaw d n) := by
  have hlen : (reflectRaw d n).dot (reflectRaw d n) = d.dot d := reflectRaw_dot_self d n hn
  refine ⟨?_, reflectRaw_dot_normal d n hn, fun hd => ?_⟩
  · show Real.sqrt ((reflectRaw d n).dot (reflectRaw d n)) = Real.sqrt (d.dot d)
    rw [hlen]
  · rw [reflectDir_eq_normalize]
    exact normalize_of_unit _ (by rw [hlen, hd])

/-- An instance of C11: `d = (0,0,-1)` and `n = (0,0,1)` give `refl = (0,0,1)`,
before and after `normalize`. -/
theorem reflect_direction_witness :
    (⟨0, 0, 1⟩ : Vec ℝ).dot ⟨0, 0, 1⟩ = 1 ∧
    reflectRaw (⟨0, 0, -1⟩ : Vec ℝ) ⟨0, 0, 1⟩ = ⟨0, 0, 1⟩ ∧
    reflectDir Real.sqrt (⟨0, 0, -1⟩ : Vec ℝ) ⟨0, 0, 1⟩ = ⟨0, 0, 1⟩ := by
  have hn : (⟨0, 0, 1⟩ : Vec ℝ).dot ⟨0, 0, 1⟩ = 1 := by simp [Vec.dot]
  have hraw : reflectRaw (⟨0, 0, -1⟩ : Vec ℝ) ⟨0, 0, 1⟩ = ⟨0, 0, 1⟩ := by
    ext <;> norm_num [reflectRaw, Vec.dot]
  refine ⟨hn, hraw, ?_⟩
  rw [(reflect_direction ⟨0, 0, -1⟩ ⟨0, 0, 1⟩ hn).2.2 (by simp [Vec.dot]), hraw]

/-- C12: `mix(a,b,t) = a*(1-t) + b*t`, and for unit vectors `d`, `n` the weight
`fresnel = mix((1 - facing)^3, 1, 0.1)` with `facing = max(0, -dot(d, n))` lies
in `[0.1, 1]`; at normal incidence `d = -n` the facing ratio is `1`, the weight
is `0.1` exactly when the facing ratio is `1`, it is `1` when the facing ratio
is `0`, and it is non-increasing in the facing ratio. -/
theorem fresnel_bounds (d n d' n' : Vec ℝ) (hd : d.dot d = 1) (hn : n.dot n = 1) :
    (∀ a b t : ℝ, mix a b t = a * (1 - t) + b * t) ∧
    fresnel d n = mix ((1 - max 0 (-(d.dot n))) ^ 3) 1 (1 / 10) ∧
    1 / 10 ≤ fresnel d n ∧ fresnel d n ≤ 1 ∧
    (d = -n → max 0 (-(d.dot n)) = 1) ∧
    (fresnel d n = 1 / 10 ↔ max 0 (-(d.dot n)) = 1) ∧
    (max 0 (-(d.dot n)) = 0 → fresnel d n = 1) ∧
    (max 0 (-(d.dot n)) ≤ max 0 (-(d'.dot n')) → fresnel d' n' ≤ fresnel d n) := by
  refine ⟨fun a b t => by simp only [mix]; ring, rfl, (fresnel_mem d n hd hn).1,
    (fresnel_mem d n hd hn).2, ?_, ?_, ?_, fresnel_antitone d n d' n'⟩
  · intro h
    have : d.dot n = -1 := by
      rw [h]
      simp only [Vec.dot, Vec.neg_x, Vec.neg_y, Vec.neg_z] at hn ⊢
      linarith
    rw [this]
    norm_num
  · rw [fresnel_eq]
    constructor
    · intro h
      have h3 : (1 - max 0 (-(d.dot n))) ^ 3 = 0 := by linarith
      have := pow_eq_zero_iff (by norm_num : (3 : ℕ) ≠ 0) |>.mp h3
      linarith
    · intro h
      rw [h]
      norm_num
  · intro h
    rw [fresnel_eq, h]
    norm_num

/-- An instance of C12: head-on incidence has weight `0.1`, grazing incidence has
weight `1`. -/
theorem fresnel_bounds_witness :
    fresnel (⟨0, 0, -1⟩ : Vec ℝ) ⟨0, 0, 1⟩ = 1 / 10 ∧
    fresnel (⟨1, 0, 0⟩ : Vec ℝ) ⟨0, 0, 1⟩ = 1 ∧
    fresnel (⟨0, 0, -1⟩ : Vec ℝ) ⟨0, 0, 1⟩ ≤ fresnel (⟨1, 0, 0⟩ : Vec ℝ) ⟨0, 0, 1⟩ := by
  have hn : (⟨0, 0, 1⟩ : Vec ℝ).dot ⟨0, 0, 1⟩ = 1 := by simp [Vec.dot]
  have h1 := fresnel_bounds ⟨0, 0, -1⟩ ⟨0, 0, 1⟩ ⟨1, 0, 0⟩ ⟨0, 0, 1⟩ (by simp [Vec.dot]) hn
  have h2 := fresnel_bounds ⟨1, 0, 0⟩ ⟨0, 0, 1⟩ ⟨0, 0, -1⟩ ⟨0, 0, 1⟩ (by simp [Vec.dot]) hn
  have hf1 : max 0 (-((⟨0, 0, -1⟩ : Vec ℝ).dot ⟨0, 0, 1⟩)) = 1 := by simp [Vec.dot]
  have hf2 : max 0 (-((⟨1, 0, 0⟩ : Vec ℝ).dot ⟨0, 0, 1⟩)) = 0 := by simp [Vec.dot]
  refine ⟨h1.2.2.2.2.2.1.mpr hf1, h2.2.2.2.2.2.2.1 hf2, h2.2.2.2.2.2.2.2 ?_⟩
  rw [hf1, hf2]
  norm_num

/-! ## C13: `Vec::normalize` -/

/-- The length is the square root of the dot product with itself. -/
theorem length_eq_sqrt_dot (v : Vec ℝ) : v.length Real.sqrt = Real.sqrt (v.dot v) := rfl

/-- A vector with zero dot product with itself is the zero vector. -/
theorem eq_zero_of_dot_self (v : Vec ℝ) (h : v.dot v = 0) : v = ⟨0, 0, 0⟩ := by
  simp only [Vec.dot] at h
  have hx : v.x = 0 := by nlinarith [mul_self_nonneg v.x, mul_self_nonneg v.y, mul_self_nonneg v.z]
  have hy : v.y = 0 := by nlinarith [mul_self_nonneg v.x, mul_self_nonneg v.y, mul_self_nonneg v.z]
  have hz : v.z = 0 := by nlinarith [mul_self_nonneg v.x, mul_self_nonneg v.y, mul_self_nonneg v.z]
  ext <;> assumption

/-- The dot product of a vector with itself is not negative. -/
theorem dot_self_nonneg (v : Vec ℝ) : 0 ≤ v.dot v := by
  simp only [Vec.dot]
  nlinarith [mul_self_nonneg v.x, mul_self_nonneg v.y, mul_self_nonneg v.z]

/-- Normalizing a non-zero vector gives a unit vector. -/
theorem normalize_dot_self (v : Vec ℝ) (hv : v ≠ ⟨0, 0, 0⟩) :
    0 < v.length Real.sqrt ∧
    v.normalize Real.sqrt = v.scale (1 / v.length Real.sqrt) ∧
    (v.normalize Real.sqrt).dot (v.normalize Real.sqrt) = 1 := by
  have hpos : 0 < v.dot v :=
    lt_of_le_of_ne (dot_self_nonneg v) (fun h => hv (eq_zero_of_dot_self v h.symm))
  have hlen : 0 < v.length Real.sqrt := Real.sqrt_pos.mpr hpos
  have hsq : v.dot v = v.length Real.sqrt * v.length Real.sqrt :=
    (Real.mul_self_sqrt hpos.le).symm
  have hnorm := normalize_of_dot_self v _ hlen hsq
  refine ⟨hlen, hnorm, ?_⟩
  rw [hnorm]
  simp only [Vec.dot_scale_left, Vec.dot_scale_right]
  rw [hsq]
  field_simp

/-- C13: `Vec::normalize` over the reals leaves the zero vector unchanged; for a
non-zero `v` the length is positive and the result is `v` scaled by
`1 / length(v)`, of Euclidean length exactly `1`; and `normalize` is idempotent
on every vector. -/
theorem normalize_spec (v : Vec ℝ) :
    (v = ⟨0, 0, 0⟩ → v.normalize Real.sqrt = v) ∧
    (v ≠ ⟨0, 0, 0⟩ →
      0 < v.length Real.sqrt ∧
      v.normalize Real.sqrt = v.scale (1 / v.length Real.sqrt) ∧
      (v.normalize Real.sqrt).length Real.sqrt = 1) ∧
    (v.normalize Real.sqrt).normalize Real.sqrt = v.normalize Real.sqrt := by
  have hzero : v = ⟨0, 0, 0⟩ → v.normalize Real.sqrt = v := by
    intro h
    subst h
    simp [Vec.normalize, Vec.length]
  refine ⟨hzero, fun hv => ?_, ?_⟩
  · obtain ⟨h1, h2, h3⟩ := normalize_dot_self v hv
    refine ⟨h1, h2, ?_⟩
    rw [length_eq_sqrt_dot, h3, Real.sqrt_one]
  · by_cases hv : v = ⟨0, 0, 0⟩
    · rw [hzero hv, hzero hv]
    · exact normalize_of_unit _ (normalize_dot_self v hv).2.2

/-- An instance of C13: `(3,0,4)` has length `5` and is normalized to
`(3,0,4) * (1/5)`, of length `1`. -/
theorem normalize_spec_witness :
    (⟨3, 0, 4⟩ : Vec ℝ).normalize Real.sqrt = (⟨3, 0, 4⟩ : Vec ℝ).scale (1 / 5) ∧
    ((⟨3, 0, 4⟩ : Vec ℝ).normalize Real.sqrt).length Real.sqrt = 1 := by
  have hne : (⟨3, 0, 4⟩ : Vec ℝ) ≠ ⟨0, 0, 0⟩ := by
    intro h
    have := congrArg Vec.x h
    norm_num at this
  have hlen : (⟨3, 0, 4⟩ : Vec ℝ).length Real.sqrt = 5 := by
    rw [length_eq_sqrt_dot]
    have : (⟨3, 0, 4⟩ : Vec ℝ).dot ⟨3, 0, 4⟩ = 5 * 5 := by simp [Vec.dot]; norm_num
    rw [this, Real.sqrt_mul_self (by norm_num)]
  obtain ⟨_, h2, h3⟩ := (normalize_spec ⟨3, 0, 4⟩).2.1 hne
  rw [hlen] at h2
  exact ⟨h2, h3⟩

/-! ## C14: false rejection from inside -/

/-- C14: for a sphere with `radius > 0` (and `radius2 = radius * radius`), an
origin strictly inside it and a unit direction `d` with `dot(c - o, d) < 0`, the
ray meets the surface at some `t > 0`, yet `orb::intersect` reports no
intersection. -/
theorem intersect_rejects_inside (s : orb ℝ) (o d : Vec ℝ)
    (_hr : 0 < s.radius) (hr2 : s.radius2 = s.radius * s.radius)
    (hin : (s.center - o).dot (s.center - o) < s.radius * s.radius)
    (hd : d.dot d = 1) (hneg : (s.center - o).dot d < 0) :
    (∃ t : ℝ, 0 < t ∧ s.onSurface (hitPoint o d t)) ∧
    s.intersect Real.sqrt o d = none := by
  refine ⟨?_, (intersect_eq_none_iff Real.sqrt s o d).mpr (Or.inl hneg)⟩
  set c := (s.center - o).dot d with hc
  set L2 := (s.center - o).dot (s.center - o) with hL2
  have hnn : 0 ≤ s.radius2 - (L2 - c * c) := by rw [hr2]; nlinarith [mul_self_nonneg c]
  have hth : 0 ≤ Real.sqrt (s.radius2 - (L2 - c * c)) := Real.sqrt_nonneg _
  have hsq : Real.sqrt (s.radius2 - (L2 - c * c)) ^ 2 = s.radius2 - (L2 - c * c) :=
    Real.sq_sqrt hnn
  refine ⟨c + Real.sqrt (s.radius2 - (L2 - c * c)), ?_, ?_⟩
  · by_contra hle
    push_neg at hle
    have h1 : 0 ≤ -c - Real.sqrt (s.radius2 - (L2 - c * c)) := by linarith
    have h2 : 0 ≤ -c + Real.sqrt (s.radius2 - (L2 - c * c)) := by linarith
    have h3 := mul_nonneg h1 h2
    rw [hr2] at hsq h3
    nlinarith
  · unfold orb.onSurface
    rw [dist2_hitPoint s o d _ hd, ← hc, ← hL2]
    nlinarith

/-- An instance of C14: from `(0,0,1)` inside the sphere of radius `2` centered at
the origin, along `(0,0,1)`. -/
theorem intersect_rejects_inside_witness :
    (∃ t : ℝ, 0 < t ∧
      (orb.new (⟨0, 0, 0⟩ : Vec ℝ) 2 ⟨1, 0, 0⟩ 0 0 ⟨0, 0, 0⟩).onSurface
        (hitPoint ⟨0, 0, 1⟩ ⟨0, 0, 1⟩ t)) ∧
    (orb.new (⟨0, 0, 0⟩ : Vec ℝ) 2 ⟨1, 0, 0⟩ 0 0 ⟨0, 0, 0⟩).intersect Real.sqrt
      ⟨0, 0, 1⟩ ⟨0, 0, 1⟩ = none :=
  intersect_rejects_inside (orb.new (⟨0, 0, 0⟩ : Vec ℝ) 2 ⟨1, 0, 0⟩ 0 0 ⟨0, 0, 0⟩)
    ⟨0, 0, 1⟩ ⟨0, 0, 1⟩ (by simp [orb.new]) (by simp [orb.new])
    (by simp [orb.new, Vec.dot]; norm_num) (by simp [Vec.dot]) (by simp [orb.new, Vec.dot])

/-! ## C17: the refraction radicand -/

/-- The value `k` is at least `1 - eta^2 = 11/36`, whatever the vectors. -/
theorem refractK_ge {F : Type} [LinearOrderedField F] (d n : Vec F) :
    1 - (1 / (12 / 10 : F)) * (1 / (12 / 10)) ≤ refractK d n ∧
    (0 : F) < 1 - (1 / (12 / 10 : F)) * (1 / (12 / 10)) := by
  constructor
  · simp only [refractK]
    nlinarith [mul_self_nonneg (d.dot n), mul_self_nonneg (1 / (12 / 10 : F)),
      mul_nonneg (mul_self_nonneg (d.dot n)) (mul_self_nonneg (1 / (12 / 10 : F)))]
  · norm_num

/-- The refraction vector of unit vectors before normalization: squared length `1`
and normal component `-sqrt(k)`. -/
theorem refractRaw_unit (d n : Vec ℝ) (hd : d.dot d = 1) (hn : n.dot n = 1) :
    (refractRaw Real.sqrt d n).dot (refractRaw Real.sqrt d n) = 1 ∧
    (refractRaw Real.sqrt d n).dot n = -Real.sqrt (refractK d n) := by
  have hk : 0 ≤ refractK d n := le_trans (refractK_ge d n).2.le (refractK_ge d n).1
  have hsq : Real.sqrt (refractK d n) * Real.sqrt (refractK d n) = refractK d n :=
    Real.mul_self_sqrt hk
  constructor
  · simp only [refractRaw, Vec.dot_sub_left, Vec.dot_sub_right, Vec.dot_scale_left,
      Vec.dot_scale_right, Vec.dot_comm n d, hd, hn]
    have hkdef : refractK d n =
        1 - (1 / (12 / 10 : ℝ)) * (1 / (12 / 10)) * (1 - d.dot n * d.dot n) := rfl
    nlinarith
  · simp only [refractRaw, Vec.dot_sub_left, Vec.dot_scale_left, hn]
    ring

/-- C17: total internal reflection is unreachable.  For unit vectors `raydir` and
`nhit` the radicand `k = 1 - eta^2*(1 - IdotN^2)` with `eta = 1/1.2` satisfies
`k >= 1 - eta^2 > 0`, so the square root in `trace` is never taken of a
negative number; the vector `raydir*eta - nhit*(eta*IdotN + sqrt(k))` already
has length `1` (the subsequent `normalize` leaves it unchanged) and its dot
product with `nhit` is `-sqrt(k) < 0`. -/
theorem refraction_radicand_positive (d n : Vec ℝ) (hd : d.dot d = 1) (hn : n.dot n = 1) :
    refractK d n = 1 - (1 / (12 / 10 : ℝ)) * (1 / (12 / 10)) * (1 - d.dot n * d.dot n) ∧
    1 - (1 / (12 / 10 : ℝ)) * (1 / (12 / 10)) ≤ refractK d n ∧
    (0 : ℝ) < 1 - (1 / (12 / 10 : ℝ)) * (1 / (12 / 10)) ∧
    0 < refractK d n ∧
    (refractRaw Real.sqrt d n).length Real.sqrt = 1 ∧
    (refractRaw Real.sqrt d n).dot n = -Real.sqrt (refractK d n) ∧
    -Real.sqrt (refractK d n) < 0 ∧
    refractDir Real.sqrt d n = refractRaw Real.sqrt d n := by
  obtain ⟨hge, hpos⟩ := refractK_ge d n
  have hk : 0 < refractK d n := lt_of_lt_of_le hpos hge
  obtain ⟨hlen, hdot⟩ := refractRaw_unit d n hd hn
  refine ⟨rfl, hge, hpos, hk, ?_, hdot, neg_lt_zero.mpr (Real.sqrt_pos.mpr hk), ?_⟩
  · rw [length_eq_sqrt_dot, hlen, Real.sqrt_one]
  · rw [refractDir_eq_normalize]
    exact normalize_of_unit _ hlen

/-- An instance of C17: at head-on incidence `k = 1` and the refracted direction is
the incoming direction. -/
theorem refraction_radicand_positive_witness :
    refractK (⟨0, 0, -1⟩ : Vec ℝ) ⟨0, 0, 1⟩ = 1 ∧
    refractDir Real.sqrt (⟨0, 0, -1⟩ : Vec ℝ) ⟨0, 0, 1⟩ = ⟨0, 0, -1⟩ := by
  have h := refraction_radicand_positive ⟨0, 0, -1⟩ ⟨0, 0, 1⟩ (by simp [Vec.dot])
    (by simp [Vec.dot])
  have hk : refractK (⟨0, 0, -1⟩ : Vec ℝ) ⟨0, 0, 1⟩ = 1 := by
    rw [h.1]
    simp [Vec.dot]
  refine ⟨hk, ?_⟩
  rw [h.2.2.2.2.2.2.2]
  ext <;> simp [refractRaw, hk, Vec.dot]

/-! ## The recursive calls of `trace` -/

section Calls

variable {F : Type} [LinearOrderedField F]

/-- The function `trace` is its body applied to itself. -/
theorem trace_eq_traceBody (sqrt : F → F) (o d : Vec F) (orbs : List (orb F)) (depth : Int) :
    trace sqrt o d orbs depth =
      traceBody MAX_RAY_DEPTH sqrt (fun o' d' k => trace sqrt o' d' orbs k) o d orbs depth := by
  rw [trace]
  rfl

/-- The function `traceM` is its body applied to itself. -/
theorem traceM_eq_traceBody (M : Int) (sqrt : F → F) (o d : Vec F) (orbs : List (orb F))
    (depth : Int) :
    traceM M sqrt o d orbs depth =
      traceBody M sqrt (fun o' d' k => traceM M sqrt o' d' orbs k) o d orbs depth := by
  rw [traceM]
  rfl

/-- The body of `trace` consults `self` on the invocations listed by `traceCalls`
only. -/
theorem traceBody_congr (M : Int) (sqrt : F → F) (f g : Vec F → Vec F → Int → Vec F)
    (o d : Vec F) (orbs : List (orb F)) (depth : Int)
    (h : ∀ c ∈ traceCalls M sqrt orbs o d depth, f c.1 c.2.1 c.2.2 = g c.1 c.2.1 c.2.2) :
    traceBody M sqrt f o d orbs depth = traceBody M sqrt g o d orbs depth := by
  unfold traceBody
  unfold traceCalls at h
  cases hn : nearest sqrt o d orbs with
  | none => rfl
  | some p =>
    obtain ⟨t, s⟩ := p
    rw [hn] at h
    simp only at h ⊢
    by_cases hc : (s.transparency > 0 ∨ s.reflection > 0) ∧ depth < M
    · rw [if_pos hc] at h
      simp only [if_pos hc]
      have h1 := h _ (List.mem_cons_self _ _)
      simp only at h1
      rw [h1]
      by_cases ht : s.transparency > 0
      · rw [if_pos ht] at h
        have h2 := h _ (List.mem_cons_of_mem _ (List.mem_singleton.mpr rfl))
        simp only at h2
        simp only [if_pos ht, h2]
      · simp only [if_neg ht]
    · simp only [if_neg hc]

/-- The function `trace` is `traceM` at the depth limit `MAX_RAY_DEPTH`. -/
theorem traceM_max_eq_trace (sqrt : F → F) (o d : Vec F) (orbs : List (orb F)) (depth : Int) :
    traceM MAX_RAY_DEPTH sqrt o d orbs depth = trace sqrt o d orbs depth := by
  generalize hn : (MAX_RAY_DEPTH - depth).toNat = n
  induction n generalizing o d depth with
  | zero =>
    rw [traceM_eq_traceBody, trace_eq_traceBody]
    apply traceBody_congr
    intro c hc
    exfalso
    unfold traceCalls at hc
    cases hnear : nearest sqrt o d orbs with
    | none => rw [hnear] at hc; simp at hc
    | some p =>
      rw [hnear] at hc
      simp only at hc
      have hcond : ¬ ((p.2.transparency > 0 ∨ p.2.reflection > 0) ∧ depth < MAX_RAY_DEPTH) := by
        intro hcnd
        have := hcnd.2
        omega
      rw [if_neg hcond] at hc
      simp at hc
  | succ n ih =>
    rw [traceM_eq_traceBody, trace_eq_traceBody]
    apply traceBody_congr
    intro c hc
    have hdepth : c.2.2 = depth + 1 ∧ depth < MAX_RAY_DEPTH := by
      unfold traceCalls at hc
      cases hnear : nearest sqrt o d orbs with
      | none => rw [hnear] at hc; simp at hc
      | some p =>
        rw [hnear] at hc
        simp only at hc
        by_cases hcond : (p.2.transparency > 0 ∨ p.2.reflection > 0) ∧ depth < MAX_RAY_DEPTH
        · rw [if_pos hcond] at hc
          refine ⟨?_, hcond.2⟩
          rcases List.mem_cons.mp hc with h1 | h2
          · rw [h1]
          · by_cases ht : p.2.transparency > 0
            · rw [if_pos ht, List.mem_singleton] at h2
              rw [h2]
            · rw [if_neg ht] at h2
              simp at h2
        · rw [if_neg hcond] at hc
          simp at hc
    exact ih c.1 c.2.1 c.2.2 (by omega)

end Calls

/-! ## C15 and C18: the invocations reached from a primary ray -/

section Reach

variable {F : Type} [LinearOrderedField F]

/-- What the recursive calls of one invocation are. -/
theorem mem_traceCalls (M : Int) (sqrt : F → F) (orbs : List (orb F)) (o d : Vec F)
    (depth : Int) (c : Vec F × Vec F × Int)
    (hc : c ∈ traceCalls M sqrt orbs o d depth) :
    ∃ t s, nearest sqrt o d orbs = some (t, s) ∧
      ((s.transparency > 0 ∨ s.reflection > 0) ∧ depth < M) ∧
      (c = (hitPoint o d t + (hitNormal sqrt d (hitPoint o d t) s).scale bias,
            reflectDir sqrt d (hitNormal sqrt d (hitPoint o d t) s), depth + 1) ∨
       (s.transparency > 0 ∧
        c = (hitPoint o d t - (hitNormal sqrt d (hitPoint o d t) s).scale bias,
            refractDir sqrt d (hitNormal sqrt d (hitPoint o d t) s), depth + 1))) := by
  unfold traceCalls at hc
  cases hnear : nearest sqrt o d orbs with
  | none => rw [hnear] at hc; simp at hc
  | some p =>
    obtain ⟨t, s⟩ := p
    rw [hnear] at hc
    simp only at hc
    by_cases hcond : (s.transparency > 0 ∨ s.reflection > 0) ∧ depth < M
    · rw [if_pos hcond] at hc
      refine ⟨t, s, rfl, hcond, ?_⟩
      rcases List.mem_cons.mp hc with h1 | h2
      · exact Or.inl h1
      · by_cases ht : s.transparency > 0
        · rw [if_pos ht, List.mem_singleton] at h2
          exact Or.inr ⟨ht, h2⟩
        · rw [if_neg ht] at h2
          simp at h2
    · rw [if_neg hcond] at hc
      simp at hc

/-- The scan returns a sphere of the scene, with its effective distance. -/
theorem nearest_mem (sqrt : F → F) (o d : Vec F) (orbs : List (orb F)) (t : F) (s : orb F)
    (h : nearest sqrt o d orbs = some (t, s)) :
    s ∈ orbs ∧ effDist sqrt o d s = some t := by
  have hinv := nearestInv_nearest sqrt o d orbs
  rw [h] at hinv
  obtain ⟨pre, post, hsplit, hsel, _, _⟩ := hinv
  refine ⟨?_, hsel⟩
  rw [hsplit]
  exact List.mem_append_right _ (List.mem_cons_self _ _)

/-- Negating both arguments leaves the dot product unchanged. -/
theorem Vec.dot_neg_neg (a b : Vec F) : (-a).dot (-b) = a.dot b := by
  simp only [Vec.dot, Vec.neg_x, Vec.neg_y, Vec.neg_z]; ring

/-- When the scan finds no sphere, `traceM` returns the background. -/
theorem traceM_of_nearest_none (M : Int) (sqrt : F → F) (rayorig raydir : Vec F)
    (orbs : List (orb F)) (depth : Int) (h : nearest sqrt rayorig raydir orbs = none) :
    traceM M sqrt rayorig raydir orbs depth = ⟨1, 1, 1⟩ := by
  rw [traceM, h]

/-- When the guard of the specular branch fails, `traceM` returns the value of the
diffuse branch. -/
theorem traceM_of_diffuse (M : Int) (sqrt : F → F) (rayorig raydir : Vec F)
    (orbs : List (orb F)) (depth : Int) (tnear : F) (o : orb F)
    (h : nearest sqrt rayorig raydir orbs = some (tnear, o))
    (hc : ¬ ((o.transparency > 0 ∨ o.reflection > 0) ∧ depth < M)) :
    traceM M sqrt rayorig raydir orbs depth =
      diffuse sqrt orbs o.surfaceColor (hitPoint rayorig raydir tnear)
        (hitNormal sqrt raydir (hitPoint rayorig raydir tnear) o) := by
  rw [traceM, h]
  simp only [if_neg hc]

/-- When the guard of the specular branch holds, `traceM` returns the specular
color of its two recursive calls. -/
theorem traceM_of_specular (M : Int) (sqrt : F → F) (rayorig raydir : Vec F)
    (orbs : List (orb F)) (depth : Int) (tnear : F) (o : orb F)
    (h : nearest sqrt rayorig raydir orbs = some (tnear, o))
    (hc : (o.transparency > 0 ∨ o.reflection > 0) ∧ depth < M) :
    traceM M sqrt rayorig raydir orbs depth =
      specularColor o
        (fresnel raydir (hitNormal sqrt raydir (hitPoint rayorig raydir tnear) o))
        (traceM M sqrt
          ((hitPoint rayorig raydir tnear) +
            (hitNormal sqrt raydir (hitPoint rayorig raydir tnear) o).scale bias)
          (reflectDir sqrt raydir (hitNormal sqrt raydir (hitPoint rayorig raydir tnear) o))
          orbs (depth + 1))
        (if o.transparency > 0 then
          traceM M sqrt
            ((hitPoint rayorig raydir tnear) -
              (hitNormal sqrt raydir (hitPoint rayorig raydir tnear) o).scale bias)
            (refractDir sqrt raydir (hitNormal sqrt raydir (hitPoint rayorig raydir tnear) o))
            orbs (depth + 1)
        else Vec.splat 0) := by
  rw [traceM, h]
  simp only [if_pos hc]

/-- The reflection call is among the recursive calls of a specular hit. -/
theorem reflect_call_mem (M : Int) (sqrt : F → F) (orbs : List (orb F)) (o d : Vec F)
    (depth : Int) (t : F) (s : orb F) (h : nearest sqrt o d orbs = some (t, s))
    (hc : (s.transparency > 0 ∨ s.reflection > 0) ∧ depth < M) :
    (hitPoint o d t + (hitNormal sqrt d (hitPoint o d t) s).scale bias,
      reflectDir sqrt d (hitNormal sqrt d (hitPoint o d t) s), depth + 1) ∈
      traceCalls M sqrt orbs o d depth := by
  unfold traceCalls
  rw [h]
  simp only [if_pos hc]
  exact List.mem_cons_self _ _

/-- The refraction call is among the recursive calls of a hit on a transparent
sphere. -/
theorem refract_call_mem (M : Int) (sqrt : F → F) (orbs : List (orb F)) (o d : Vec F)
    (depth : Int) (t : F) (s : orb F) (h : nearest sqrt o d orbs = some (t, s))
    (hc : (s.transparency > 0 ∨ s.reflection > 0) ∧ depth < M) (ht : s.transparency > 0) :
    (hitPoint o d t - (hitNormal sqrt d (hitPoint o d t) s).scale bias,
      refractDir sqrt d (hitNormal sqrt d (hitPoint o d t) s), depth + 1) ∈
      traceCalls M sqrt orbs o d depth := by
  unfold traceCalls
  rw [h]
  simp only [if_pos hc, if_pos ht]
  exact List.mem_cons_of_mem _ (List.mem_singleton.mpr rfl)

/-- Raising the depth limit does not change the color of an invocation from which
no invocation at the limit hits a specular sphere. -/
theorem traceM_stable_aux (sqrt : F → F) (orbs : List (orb F)) (M M' : Int) (hMM : M ≤ M')
    (n : Nat) : ∀ (o d : Vec F) (k : Int), (M - k).toNat = n → k ≤ M →
      (∀ c, TraceReach M sqrt orbs (o, d, k) c → c.2.2 = M →
        ∀ t s, nearest sqrt c.1 c.2.1 orbs = some (t, s) →
          ¬ (s.transparency > 0 ∨ s.reflection > 0)) →
      traceM M' sqrt o d orbs k = traceM M sqrt o d orbs k := by
  induction n with
  | zero =>
    intro o d k hn hk hfree
    have hkM : k = M := by omega
    cases hnear : nearest sqrt o d orbs with
    | none =>
      rw [traceM_of_nearest_none M' sqrt o d orbs k hnear,
        traceM_of_nearest_none M sqrt o d orbs k hnear]
    | some p =>
      obtain ⟨t, s⟩ := p
      have hmat := hfree (o, d, k) Relation.ReflTransGen.refl hkM t s hnear
      rw [traceM_of_diffuse M' sqrt o d orbs k t s hnear (fun h => hmat h.1),
        traceM_of_diffuse M sqrt o d orbs k t s hnear (fun h => hmat h.1)]
  | succ n ih =>
    intro o d k hn hk hfree
    have hkM : k < M := by omega
    cases hnear : nearest sqrt o d orbs with
    | none =>
      rw [traceM_of_nearest_none M' sqrt o d orbs k hnear,
        traceM_of_nearest_none M sqrt o d orbs k hnear]
    | some p =>
      obtain ⟨t, s⟩ := p
      by_cases hmat : s.transparency > 0 ∨ s.reflection > 0
      · have hc : (s.transparency > 0 ∨ s.reflection > 0) ∧ k < M := ⟨hmat, hkM⟩
        have hc' : (s.transparency > 0 ∨ s.reflection > 0) ∧ k < M' :=
          ⟨hmat, lt_of_lt_of_le hkM hMM⟩
        have hchild : ∀ c' ∈ traceCalls M sqrt orbs o d k,
            traceM M' sqrt c'.1 c'.2.1 orbs (k + 1) = traceM M sqrt c'.1 c'.2.1 orbs (k + 1) := by
          intro c' hc'mem
          have hd' := (mem_traceCalls M sqrt orbs o d k c' hc'mem)
          have hdepth : c'.2.2 = k + 1 := by
            obtain ⟨_, _, _, _, h | ⟨_, h⟩⟩ := hd' <;> rw [h]
          apply ih c'.1 c'.2.1 (k + 1) (by omega) (by omega)
          intro c hreach
          apply hfree c
          have hc'eq : c' = (c'.1, c'.2.1, k + 1) := by rw [← hdepth]
          have hreach' : TraceReach M sqrt orbs c' c := by rw [hc'eq]; exact hreach
          exact Relation.ReflTransGen.head hc'mem hreach'
        rw [traceM_of_specular M' sqrt o d orbs k t s hnear hc',
          traceM_of_specular M sqrt o d orbs k t s hnear hc]
        have h1 := hchild _ (reflect_call_mem M sqrt orbs o d k t s hnear hc)
        simp only at h1
        rw [h1]
        by_cases ht : s.transparency > 0
        · have h2 := hchild _ (refract_call_mem M sqrt orbs o d k t s hnear hc ht)
          simp only at h2
          simp only [if_pos ht, h2]
        · simp only [if_neg ht]
      · rw [traceM_of_diffuse M' sqrt o d orbs k t s hnear (fun h => hmat h.1),
          traceM_of_diffuse M sqrt o d orbs k t s hnear (fun h => hmat h.1)]

end Reach

/-- The point at an effective distance along a unit ray is on the surface. -/
theorem onSurface_of_effDist (s : orb ℝ) (o d : Vec ℝ) (t : ℝ) (hd : d.dot d = 1)
    (h : effDist Real.sqrt o d s = some t) : s.onSurface (hitPoint o d t) := by
  cases hs : s.intersect Real.sqrt o d with
  | none => simp [effDist, hs] at h
  | some p =>
    obtain ⟨t0, t1⟩ := p
    have hsound := intersect_sound_aux s o d t0 t1 hd hs
    simp only [effDist, hs, Option.map_some', Option.some.injEq] at h
    by_cases h0 : 0 ≤ t0
    · rw [if_pos h0] at h; rw [← h]; exact hsound.2.1
    · rw [if_neg h0] at h; rw [← h]; exact hsound.2.2.1

/-- On a scene of spheres with positive radius, the normal at the hit point of a
unit ray is a unit vector. -/
theorem hitNormal_unit (orbs : List (orb ℝ)) (o d : Vec ℝ) (t : ℝ) (s : orb ℝ)
    (hscene : ∀ s ∈ orbs, 0 < s.radius ∧ s.radius2 = s.radius * s.radius)
    (hd : d.dot d = 1) (h : nearest Real.sqrt o d orbs = some (t, s)) :
    (hitNormal Real.sqrt d (hitPoint o d t) s).dot
      (hitNormal Real.sqrt d (hitPoint o d t) s) = 1 := by
  obtain ⟨hmem, heff⟩ := nearest_mem Real.sqrt o d orbs t s h
  obtain ⟨hr, hr2⟩ := hscene s hmem
  have hp := onSurface_of_effDist s o d t hd heff
  unfold orb.onSurface at hp
  rw [hr2] at hp
  have hnorm := normalize_of_dot_self _ s.radius hr hp
  have hunit : ((hitPoint o d t - s.center).normalize Real.sqrt).dot
      ((hitPoint o d t - s.center).normalize Real.sqrt) = 1 := by
    rw [hnorm]
    simp only [Vec.dot_scale_left, Vec.dot_scale_right, hp]
    field_simp
  unfold hitNormal
  simp only
  split_ifs
  · rw [Vec.dot_neg_neg]; exact hunit
  · exact hunit

/-- The reflected direction of a unit direction about a unit normal is unit. -/
theorem reflectDir_unit (d n : Vec ℝ) (hd : d.dot d = 1) (hn : n.dot n = 1) :
    (reflectDir Real.sqrt d n).dot (reflectDir Real.sqrt d n) = 1 := by
  rw [reflectDir_eq_normalize,
    normalize_of_unit _ (by rw [reflectRaw_dot_self d n hn, hd]),
    reflectRaw_dot_self d n hn, hd]

/-- The refracted direction of a unit direction through a unit normal is unit. -/
theorem refractDir_unit (d n : Vec ℝ) (hd : d.dot d = 1) (hn : n.dot n = 1) :
    (refractDir Real.sqrt d n).dot (refractDir Real.sqrt d n) = 1 := by
  have h := (refractRaw_unit d n hd hn).1
  rw [refractDir_eq_normalize, normalize_of_unit _ h, h]

/-- Every recursive call of an invocation with a unit direction has a unit
direction, and is made below the depth limit with `depth + 1`. -/
theorem traceCalls_unit (M : Int) (orbs : List (orb ℝ)) (o d : Vec ℝ) (depth : Int)
    (hscene : ∀ s ∈ orbs, 0 < s.radius ∧ s.radius2 = s.radius * s.radius)
    (hd : d.dot d = 1) (c : Vec ℝ × Vec ℝ × Int)
    (hc : c ∈ traceCalls M Real.sqrt orbs o d depth) :
    c.2.1.dot c.2.1 = 1 ∧ c.2.2 = depth + 1 ∧ depth < M := by
  obtain ⟨t, s, hnear, hcond, hcall⟩ := mem_traceCalls M Real.sqrt orbs o d depth c hc
  have hn := hitNormal_unit orbs o d t s hscene hd hnear
  rcases hcall with h | h
  · rw [h]; exact ⟨reflectDir_unit d _ hd hn, rfl, hcond.2⟩
  · rw [h.2]; exact ⟨refractDir_unit d _ hd hn, rfl, hcond.2⟩

/-- Every invocation reached from one with a unit direction has a unit direction. -/
theorem traceReach_unit (M : Int) (orbs : List (orb ℝ)) (a c : Vec ℝ × Vec ℝ × Int)
    (hscene : ∀ s ∈ orbs, 0 < s.radius ∧ s.radius2 = s.radius * s.radius)
    (ha : a.2.1.dot a.2.1 = 1) (h : TraceReach M Real.sqrt orbs a c) :
    c.2.1.dot c.2.1 = 1 := by
  induction h with
  | refl => exact ha
  | tail _ hstep ih => exact (traceCalls_unit M orbs _ _ _ hscene ih _ hstep).1

/-- An invocation whose ray hits nothing makes no recursive call. -/
theorem traceCalls_of_nearest_none {F : Type} [LinearOrderedField F] (M : Int) (sqrt : F → F)
    (orbs : List (orb F)) (o d : Vec F) (depth : Int) (h : nearest sqrt o d orbs = none) :
    traceCalls M sqrt orbs o d depth = [] := by
  unfold traceCalls
  rw [h]

/-- Nothing but itself is reached from an invocation that makes no recursive call. -/
theorem traceReach_of_no_calls {F : Type} [LinearOrderedField F] (M : Int) (sqrt : F → F)
    (orbs : List (orb F)) (b c : Vec F × Vec F × Int)
    (h : traceCalls M sqrt orbs b.1 b.2.1 b.2.2 = []) (hreach : TraceReach M sqrt orbs b c) :
    c = b := by
  rcases Relation.ReflTransGen.cases_head hreach with heq | ⟨b', hb', _⟩
  · exact heq.symm
  · rw [h] at hb'
    simp at hb'

/-- C15: stabilization in the depth limit.  With `traceM maxDepth` the function
`trace` in which `MAX_RAY_DEPTH` is replaced by `maxDepth` (so `trace` is
`traceM MAX_RAY_DEPTH`): for every scene, ray and `M >= 0`, if no invocation
reached from the primary invocation (depth `0`) under the limit `M` is at depth
`M` and hits a sphere with `reflection > 0` or `transparency > 0`, then
`traceM M'` returns the same color as `traceM M` for every `M' >= M`. -/
theorem trace_depth_limit_stable {F : Type} [LinearOrderedField F] (sqrt : F → F)
    (orbs : List (orb F)) (o d : Vec F) (M M' : Int) (hM : 0 ≤ M) (hMM : M ≤ M')
    (hfree : ∀ c, TraceReach M sqrt orbs (o, d, 0) c → c.2.2 = M →
      ∀ t s, nearest sqrt c.1 c.2.1 orbs = some (t, s) →
        ¬ (s.transparency > 0 ∨ s.reflection > 0)) :
    traceM M' sqrt o d orbs 0 = traceM M sqrt o d orbs 0 ∧
    traceM MAX_RAY_DEPTH sqrt o d orbs 0 = trace sqrt o d orbs 0 :=
  ⟨traceM_stable_aux sqrt orbs M M' hMM (M - 0).toNat o d 0 rfl hM hfree,
   traceM_max_eq_trace sqrt o d orbs 0⟩

/-- An instance of C15: a lone mirror sphere seen head-on needs one bounce; the
limits `1` and `5` give the same color. -/
theorem trace_depth_limit_stable_witness :
    (0 : Int) ≤ 1 ∧ (1 : Int) ≤ 5 ∧
    traceM 5 Real.sqrt ⟨0, 0, 0⟩ ⟨0, 0, -1⟩
        [orb.new (⟨0, 0, -5⟩ : Vec ℝ) 1 ⟨1, 0, 0⟩ 1 0 ⟨0, 0, 0⟩] 0 =
      traceM 1 Real.sqrt ⟨0, 0, 0⟩ ⟨0, 0, -1⟩
        [orb.new (⟨0, 0, -5⟩ : Vec ℝ) 1 ⟨1, 0, 0⟩ 1 0 ⟨0, 0, 0⟩] 0 := by
  refine ⟨by decide, by decide, ?_⟩
  refine (trace_depth_limit_stable Real.sqrt _ _ _ 1 5 (by decide) (by decide) ?_).1
  intro c hreach hdepth t s hnear
  obtain ⟨hroot, _, hnhit, _, _, hmiss, _⟩ :=
    trace_lone_mirror_aux (orb.new (⟨0, 0, -5⟩ : Vec ℝ) 1 ⟨1, 0, 0⟩ 1 0 ⟨0, 0, 0⟩)
      ⟨0, 0, 0⟩ ⟨0, 0, -1⟩ 0 4 6 (by simp [orb.new]) (by simp [orb.new]) (by simp [orb.new])
      (by simp [orb.new]) (by simp [orb.new, Vec.dot]; norm_num) (by simp [Vec.dot])
      (intersect_unit_sphere_ahead _ _ _ _) (by decide)
  rcases Relation.ReflTransGen.cases_head hreach with heq | ⟨b, hb, hbc⟩
  · rw [← heq] at hdepth
    simp at hdepth
  · obtain ⟨t', s', hn', _, hcall⟩ := mem_traceCalls 1 Real.sqrt _ _ _ _ b hb
    simp only at hn'
    rw [hroot] at hn'
    obtain ⟨rfl, rfl⟩ := Prod.mk.inj (Option.some.inj hn')
    rcases hcall with hrefl | ⟨htr, _⟩
    · have hbnone : nearest Real.sqrt b.1 b.2.1
          [orb.new (⟨0, 0, -5⟩ : Vec ℝ) 1 ⟨1, 0, 0⟩ 1 0 ⟨0, 0, 0⟩] = none := by
        rw [hrefl]
        simp only [hnhit]
        apply foldl_nearestStep_of_miss
        intro x hx
        rw [List.mem_singleton] at hx
        rw [hx]
        exact hmiss
      have hcb := traceReach_of_no_calls 1 Real.sqrt _ b c
        (traceCalls_of_nearest_none 1 Real.sqrt _ _ _ _ hbnone) hbc
      rw [hcb, hbnone] at hnear
      cases hnear
    · simp [orb.new] at htr

/-- C18: on a scene whose spheres all have `radius > 0` and
`radius2 = radius * radius`, for every invocation of `trace` with a unit
direction: the directions `refldir` and `refrdir` computed at a hit are unit
vectors, so every recursive call that `trace` makes is passed a unit direction,
and every invocation reached from this one through recursive calls has a unit
direction. -/
theorem trace_calls_unit_direction (orbs : List (orb ℝ)) (o d : Vec ℝ) (depth : Int)
    (hscene : ∀ s ∈ orbs, 0 < s.radius ∧ s.radius2 = s.radius * s.radius)
    (hd : d.dot d = 1) :
    (∀ t s, nearest Real.sqrt o d orbs = some (t, s) →
      (reflectDir Real.sqrt d (hitNormal Real.sqrt d (hitPoint o d t) s)).dot
        (reflectDir Real.sqrt d (hitNormal Real.sqrt d (hitPoint o d t) s)) = 1 ∧
      (refractDir Real.sqrt d (hitNormal Real.sqrt d (hitPoint o d t) s)).dot
        (refractDir Real.sqrt d (hitNormal Real.sqrt d (hitPoint o d t) s)) = 1) ∧
    (∀ c ∈ traceCalls MAX_RAY_DEPTH Real.sqrt orbs o d depth, c.2.1.dot c.2.1 = 1) ∧
    (∀ c, TraceReach MAX_RAY_DEPTH Real.sqrt orbs (o, d, depth) c → c.2.1.dot c.2.1 = 1) := by
  refine ⟨fun t s hnear => ?_, fun c hc =>
    (traceCalls_unit MAX_RAY_DEPTH orbs o d depth hscene hd c hc).1,
    fun c hreach => traceReach_unit MAX_RAY_DEPTH orbs (o, d, depth) c hscene hd hreach⟩
  have hn := hitNormal_unit orbs o d t s hscene hd hnear
  exact ⟨reflectDir_unit d _ hd hn, refractDir_unit d _ hd hn⟩

/-- An instance of C18: every invocation reached from the primary ray toward a
glass sphere has a unit direction. -/
theorem trace_calls_unit_direction_witness :
    (⟨0, 0, -1⟩ : Vec ℝ).dot ⟨0, 0, -1⟩ = 1 ∧
    ∀ c, TraceReach MAX_RAY_DEPTH Real.sqrt
        [orb.new (⟨0, 0, -5⟩ : Vec ℝ) 1 ⟨1, 0, 0⟩ 1 (1 / 2) ⟨0, 0, 0⟩]
        (⟨0, 0, 0⟩, ⟨0, 0, -1⟩, 0) c → c.2.1.dot c.2.1 = 1 :=
  have hd : (⟨0, 0, -1⟩ : Vec ℝ).dot ⟨0, 0, -1⟩ = 1 := by simp [Vec.dot]
  ⟨hd, (trace_calls_unit_direction
    [orb.new (⟨0, 0, -5⟩ : Vec ℝ) 1 ⟨1, 0, 0⟩ 1 (1 / 2) ⟨0, 0, 0⟩] ⟨0, 0, 0⟩ ⟨0, 0, -1⟩ 0
    (by
      intro s hs
      rw [List.mem_singleton] at hs
      subst hs
      simp [orb.new])
    hd).2.2⟩

/-! ## C20: non-negative colors -/

section NonNeg

variable {F : Type} [LinearOrderedField F]

/-- The sum of non-negative vectors is non-negative. -/
theorem Vec.nonneg_add (a b : Vec F) (ha : a.nonneg) (hb : b.nonneg) : (a + b).nonneg :=
  ⟨add_nonneg ha.1 hb.1, add_nonneg ha.2.1 hb.2.1, add_nonneg ha.2.2 hb.2.2⟩

/-- The componentwise product of non-negative vectors is non-negative. -/
theorem Vec.nonneg_mul (a b : Vec F) (ha : a.nonneg) (hb : b.nonneg) : (a * b).nonneg :=
  ⟨mul_nonneg ha.1 hb.1, mul_nonneg ha.2.1 hb.2.1, mul_nonneg ha.2.2 hb.2.2⟩

/-- A non-negative vector scaled by a non-negative number is non-negative. -/
theorem Vec.nonneg_scale (a : Vec F) (k : F) (ha : a.nonneg) (hk : 0 ≤ k) :
    (a.scale k).nonneg :=
  ⟨mul_nonneg ha.1 hk, mul_nonneg ha.2.1 hk, mul_nonneg ha.2.2 hk⟩

/-- A constant vector with a non-negative component is non-negative. -/
theorem Vec.nonneg_splat (k : F) (hk : 0 ≤ k) : (Vec.splat k).nonneg := ⟨hk, hk, hk⟩

/-- The occluder loop leaves `transmission` non-negative. -/
theorem shadowLoop_snd_nonneg (sqrt : F → F) (orbs : List (orb F)) (i : Nat) (org dir : Vec F)
    (shadow : F) : (shadowLoop sqrt orbs i org dir shadow).2.nonneg := by
  unfold shadowLoop
  refine foldl_preserves (fun (st : F × Vec F) => st.2.nonneg) _ _ ?_ _
    (Vec.nonneg_splat 1 zero_le_one)
  intro st jo _ hst
  unfold shadowStep
  split_ifs
  · cases jo.2.intersect sqrt org dir with
    | none => exact hst
    | some p => exact Vec.nonneg_scale _ _ hst (le_max_left _ _)
  · exact hst

/-- The diffuse branch returns a non-negative color when the surface color and
all emission colors are non-negative. -/
theorem diffuse_nonneg (sqrt : F → F) (orbs : List (orb F)) (sc phit nhit : Vec F)
    (hsc : sc.nonneg) (hem : ∀ s ∈ orbs, s.emissionColor.nonneg) :
    (diffuse sqrt orbs sc phit nhit).nonneg := by
  unfold diffuse
  refine foldl_preserves (fun (st : F × Vec F) => st.2.nonneg) _ _ ?_ _
    (Vec.nonneg_splat 1 zero_le_one)
  intro st io hio hst
  unfold lightStep
  split_ifs
  · exact Vec.nonneg_add _ _ hst
      (Vec.nonneg_mul _ _ (Vec.nonneg_mul _ _ hsc (shadowLoop_snd_nonneg sqrt orbs _ _ _ _))
        (hem _ (mem_of_mem_enumFrom orbs 0 io hio)))
  · exact hst

/-- The specular color is non-negative when its ingredients are and the Fresnel
weight lies in `[0,1]`. -/
theorem specularColor_nonneg (s : orb F) (f : F) (reflection refraction : Vec F)
    (hf0 : 0 ≤ f) (hf1 : f ≤ 1) (ht : 0 ≤ s.transparency) (hsc : s.surfaceColor.nonneg)
    (hrefl : reflection.nonneg) (hrefr : refraction.nonneg) :
    (specularColor s f reflection refraction).nonneg := by
  unfold specularColor
  exact Vec.nonneg_mul _ _
    (Vec.nonneg_add _ _ (Vec.nonneg_scale _ _ hrefl hf0)
      (Vec.nonneg_scale _ _ (Vec.nonneg_scale _ _ hrefr (by linarith)) ht)) hsc

end NonNeg

/-- The color of every invocation with a unit direction is non-negative. -/
theorem trace_nonneg_aux (orbs : List (orb ℝ))
    (hscene : ∀ s ∈ orbs, 0 < s.radius ∧ s.radius2 = s.radius * s.radius ∧
      0 ≤ s.transparency ∧ s.surfaceColor.nonneg ∧ s.emissionColor.nonneg)
    (n : Nat) : ∀ (o d : Vec ℝ) (depth : Int), (MAX_RAY_DEPTH - depth).toNat = n →
      d.dot d = 1 → (trace Real.sqrt o d orbs depth).nonneg := by
  have hgeom : ∀ s ∈ orbs, 0 < s.radius ∧ s.radius2 = s.radius * s.radius :=
    fun s hs => ⟨(hscene s hs).1, (hscene s hs).2.1⟩
  have hem : ∀ s ∈ orbs, s.emissionColor.nonneg := fun s hs => (hscene s hs).2.2.2.2
  have hbase : ∀ (o d : Vec ℝ) (depth : Int) (t : ℝ) (s : orb ℝ),
      nearest Real.sqrt o d orbs = some (t, s) →
      ¬ ((s.transparency > 0 ∨ s.reflection > 0) ∧ depth < MAX_RAY_DEPTH) →
      (trace Real.sqrt o d orbs depth).nonneg := by
    intro o d depth t s hnear hc
    rw [trace_of_diffuse Real.sqrt o d orbs depth t s hnear hc]
    exact diffuse_nonneg Real.sqrt orbs _ _ _
      (hscene s (nearest_mem Real.sqrt o d orbs t s hnear).1).2.2.2.1 hem
  have hbg : (⟨1, 1, 1⟩ : Vec ℝ).nonneg := ⟨zero_le_one, zero_le_one, zero_le_one⟩
  induction n with
  | zero =>
    intro o d depth hn _
    cases hnear : nearest Real.sqrt o d orbs with
    | none => rw [trace_of_nearest_none Real.sqrt o d orbs depth hnear]; exact hbg
    | some p =>
      obtain ⟨t, s⟩ := p
      refine hbase o d depth t s hnear (fun hc => ?_)
      have := hc.2
      simp only [MAX_RAY_DEPTH] at this hn
      omega
  | succ n ih =>
    intro o d depth hn hd
    cases hnear : nearest Real.sqrt o d orbs with
    | none => rw [trace_of_nearest_none Real.sqrt o d orbs depth hnear]; exact hbg
    | some p =>
      obtain ⟨t, s⟩ := p
      by_cases hc : (s.transparency > 0 ∨ s.reflection > 0) ∧ depth < MAX_RAY_DEPTH
      · have hs := hscene s (nearest_mem Real.sqrt o d orbs t s hnear).1
        have hnu := hitNormal_unit orbs o d t s hgeom hd hnear
        have hmeas : (MAX_RAY_DEPTH - (depth + 1)).toNat = n := by
          simp only [MAX_RAY_DEPTH] at hn ⊢
          omega
        obtain ⟨hf0, hf1⟩ := fresnel_mem d _ hd hnu
        rw [trace_of_specular Real.sqrt o d orbs depth t s hnear hc]
        refine specularColor_nonneg s _ _ _ (by linarith) hf1 hs.2.2.1 hs.2.2.2.1
          (ih _ _ _ hmeas (reflectDir_unit d _ hd hnu)) ?_
        split_ifs
        · exact ih _ _ _ hmeas (refractDir_unit d _ hd hnu)
        · exact Vec.nonneg_splat 0 (le_refl 0)
      · exact hbase o d depth t s hnear hc

/-- C20: on a scene in which every sphere has `radius > 0` (and
`radius2 = radius * radius`), `transparency >= 0` and `surfaceColor` and
`emissionColor` with all components `>= 0`, for every unit ray direction and
every depth, all three components of the color returned by `trace` are `>= 0`. -/
theorem trace_nonneg (orbs : List (orb ℝ)) (o d : Vec ℝ) (depth : Int)
    (hscene : ∀ s ∈ orbs, 0 < s.radius ∧ s.radius2 = s.radius * s.radius ∧
      0 ≤ s.transparency ∧ s.surfaceColor.nonneg ∧ s.emissionColor.nonneg)
    (hd : d.dot d = 1) :
    0 ≤ (trace Real.sqrt o d orbs depth).x ∧ 0 ≤ (trace Real.sqrt o d orbs depth).y ∧
      0 ≤ (trace Real.sqrt o d orbs depth).z :=
  trace_nonneg_aux orbs hscene (MAX_RAY_DEPTH - depth).toNat o d depth rfl hd

/-- An instance of C20: a glass sphere in front of the viewer and a light behind. -/
theorem trace_nonneg_witness :
    0 ≤ (trace Real.sqrt ⟨0, 0, 0⟩ ⟨0, 0, -1⟩
      [orb.new (⟨0, 0, -5⟩ : Vec ℝ) 1 ⟨1, 0, 0⟩ 1 (1 / 2) ⟨0, 0, 0⟩,
       orb.new (⟨0, 0, 5⟩ : Vec ℝ) 1 ⟨1, 1, 1⟩ 0 0 ⟨3, 3, 3⟩] 0).x ∧
    0 ≤ (trace Real.sqrt ⟨0, 0, 0⟩ ⟨0, 0, -1⟩
      [orb.new (⟨0, 0, -5⟩ : Vec ℝ) 1 ⟨1, 0, 0⟩ 1 (1 / 2) ⟨0, 0, 0⟩,
       orb.new (⟨0, 0, 5⟩ : Vec ℝ) 1 ⟨1, 1, 1⟩ 0 0 ⟨3, 3, 3⟩] 0).y ∧
    0 ≤ (trace Real.sqrt ⟨0, 0, 0⟩ ⟨0, 0, -1⟩
      [orb.new (⟨0, 0, -5⟩ : Vec ℝ) 1 ⟨1, 0, 0⟩ 1 (1 / 2) ⟨0, 0, 0⟩,
       orb.new (⟨0, 0, 5⟩ : Vec ℝ) 1 ⟨1, 1, 1⟩ 0 0 ⟨3, 3, 3⟩] 0).z :=
  trace_nonneg _ ⟨0, 0, 0⟩ ⟨0, 0, -1⟩ 0
    (by
      intro s hs
      simp only [List.mem_cons, List.mem_singleton, List.not_mem_nil, or_false] at hs
      rcases hs with rfl | rfl <;> simp [orb.new, Vec.nonneg])
    (by simp [Vec.dot])

/-! ## C16 and C19: the running shadow -/

section ShadowEval

variable {F : Type} [LinearOrderedField F]

/-- An occluder step on a sphere the shadow ray intersects. -/
theorem shadowStep_of_hit (sqrt : F → F) (i j : Nat) (org dir : Vec F) (st : F × Vec F)
    (o : orb F) (hij : i ≠ j) (h : (o.intersect sqrt org dir).isSome = true) :
    shadowStep sqrt i org dir st (j, o) =
      (max 0 (st.1 - (1 - o.transparency)),
        st.2.scale (max 0 (st.1 - (1 - o.transparency)))) := by
  obtain ⟨p, hp⟩ := Option.isSome_iff_exists.mp h
  simp only [shadowStep, ne_eq, hij, not_false_eq_true, if_true, hp]

/-- An occluder step on a sphere the shadow ray misses. -/
theorem shadowStep_of_miss (sqrt : F → F) (i j : Nat) (org dir : Vec F) (st : F × Vec F)
    (o : orb F) (h : o.intersect sqrt org dir = none) :
    shadowStep sqrt i org dir st (j, o) = st := by
  simp only [shadowStep, h]
  split_ifs <;> rfl

/-- The occluder step on the light itself. -/
theorem shadowStep_self (sqrt : F → F) (i : Nat) (org dir : Vec F) (st : F × Vec F)
    (o : orb F) : shadowStep sqrt i org dir st (i, o) = st := by
  simp only [shadowStep, ne_eq, not_true_eq_false, if_false]

/-- The diffuse branch on a scene `[H, X, Y]` where `H` is no light and is missed
by the shadow rays, and `X`, `Y` are lights in the same direction `dir` from the
hit point, each intersected by the shadow ray toward the other. -/
theorem diffuse_two_lights (sqrt : F → F) (H X Y : orb F) (sc phit nhit dir : Vec F)
    (hH : ¬ H.emissionColor.x > 0) (hX : X.emissionColor.x > 0) (hY : Y.emissionColor.x > 0)
    (hdX : (X.center - phit).normalize sqrt = dir)
    (hdY : (Y.center - phit).normalize sqrt = dir)
    (hHm : H.intersect sqrt (phit + nhit.scale bias) dir = none)
    (hXh : (X.intersect sqrt (phit + nhit.scale bias) dir).isSome = true)
    (hYh : (Y.intersect sqrt (phit + nhit.scale bias) dir).isSome = true) :
    diffuse sqrt [H, X, Y] sc phit nhit =
      Vec.splat 1 +
        sc * (Vec.splat 1).scale (max 0 (1 - (1 - Y.transparency))) * X.emissionColor +
        sc * (Vec.splat 1).scale
          (max 0 (max 0 (1 - (1 - Y.transparency)) - (1 - X.transparency))) *
          Y.emissionColor := by
  simp only [diffuse, List.enum, List.enumFrom, List.foldl, lightStep, shadowLoop, hH, hX, hY,
    hdX, hdY, if_true, if_false, zero_add, Nat.reduceAdd]
  rw [shadowStep_of_miss sqrt 1 0 _ _ _ H hHm, shadowStep_self,
    shadowStep_of_hit sqrt 1 2 _ _ _ Y (by decide) hYh]
  simp only
  rw [shadowStep_of_miss sqrt 2 0 _ _ _ H hHm,
    shadowStep_of_hit sqrt 2 1 _ _ _ X (by decide) hXh, shadowStep_self]

/-- The diffuse branch on a scene `[H, L, O]` where `H` and `O` are no lights, `H`
is missed by the shadow ray toward the light `L` and `O` is intersected by it. -/
theorem diffuse_light_occluder (sqrt : F → F) (H L O : orb F) (sc phit nhit : Vec F)
    (hH : ¬ H.emissionColor.x > 0) (hL : L.emissionColor.x > 0) (hO : ¬ O.emissionColor.x > 0)
    (hHm : H.intersect sqrt (phit + nhit.scale bias) ((L.center - phit).normalize sqrt) = none)
    (hOh : (O.intersect sqrt (phit + nhit.scale bias)
      ((L.center - phit).normalize sqrt)).isSome = true) :
    diffuse sqrt [H, L, O] sc phit nhit =
      Vec.splat 1 +
        sc * (Vec.splat 1).scale (max 0 (1 - (1 - O.transparency))) * L.emissionColor := by
  simp only [diffuse, List.enum, List.enumFrom, List.foldl, lightStep, shadowLoop, hH, hL, hO,
    if_true, if_false, zero_add, Nat.reduceAdd]
  rw [shadowStep_of_miss sqrt 1 0 _ _ _ H hHm, shadowStep_self,
    shadowStep_of_hit sqrt 1 2 _ _ _ O (by decide) hOh]

/-- The diffuse branch on a scene `[H, L]` where `H` is no light and is missed by
the shadow ray toward the light `L`. -/
theorem diffuse_light_alone (sqrt : F → F) (H L : orb F) (sc phit nhit : Vec F)
    (hH : ¬ H.emissionColor.x > 0) (hL : L.emissionColor.x > 0)
    (hHm : H.intersect sqrt (phit + nhit.scale bias) ((L.center - phit).normalize sqrt) = none) :
    diffuse sqrt [H, L] sc phit nhit = Vec.splat 1 + sc * Vec.splat 1 * L.emissionColor := by
  simp only [diffuse, List.enum, List.enumFrom, List.foldl, lightStep, shadowLoop, hH, hL,
    if_true, if_false, zero_add, Nat.reduceAdd]
  rw [shadowStep_of_miss sqrt 1 0 _ _ _ H hHm, shadowStep_self]

/-- The scan keeps a first sphere hit at a non-negative distance when the ray misses
all the others. -/
theorem nearest_head (sqrt : F → F) (o d : Vec F) (H : orb F) (rest : List (orb F))
    (t0 t1 : F) (hH : H.intersect sqrt o d = some (t0, t1)) (ht0 : 0 ≤ t0)
    (hrest : ∀ s ∈ rest, s.intersect sqrt o d = none) :
    nearest sqrt o d (H :: rest) = some (t0, H) := by
  simp only [nearest, List.foldl_cons, nearestStep, hH, if_neg (not_lt.mpr ht0)]
  exact foldl_nearestStep_of_miss sqrt o d rest _ hrest

end ShadowEval

/-- The ray from the origin along `(0,0,-1)` misses every sphere centered on the
positive `z` axis. -/
theorem axis_primary_miss (s : orb ℝ) (cz : ℝ) (hc : s.center = ⟨0, 0, cz⟩) (h : 0 < cz) :
    s.intersect Real.sqrt ⟨0, 0, 0⟩ ⟨0, 0, -1⟩ = none := by
  rw [intersect_eq_none_iff]
  left
  simp only [hc, Vec.dot, Vec.sub_x, Vec.sub_y, Vec.sub_z]
  linarith

/-- The ray from the origin along `(0,0,-1)` hits a sphere centered at `(0,0,-5)`
with `radius2 = 1` at distances `4` and `6`. -/
theorem axis_primary_hit (s : orb ℝ) (hc : s.center = ⟨0, 0, -5⟩) (hr : s.radius2 = 1) :
    s.intersect Real.sqrt ⟨0, 0, 0⟩ ⟨0, 0, -1⟩ = some (4, 6) := by
  simp only [orb.intersect, hc, hr, Vec.dot, Vec.sub_x, Vec.sub_y, Vec.sub_z]
  norm_num

/-- The hit point of that ray. -/
theorem axis_hitPoint : hitPoint (⟨0, 0, 0⟩ : Vec ℝ) ⟨0, 0, -1⟩ 4 = ⟨0, 0, -4⟩ := by
  ext <;> simp [hitPoint]

/-- The normal at that hit point. -/
theorem axis_hitNormal (s : orb ℝ) (hc : s.center = ⟨0, 0, -5⟩) :
    hitNormal Real.sqrt ⟨0, 0, -1⟩ ⟨0, 0, -4⟩ s = ⟨0, 0, 1⟩ := by
  have hv : (⟨0, 0, -4⟩ : Vec ℝ) - s.center = ⟨0, 0, 1⟩ := by
    rw [hc]; ext <;> norm_num
  have hn : ((⟨0, 0, -4⟩ : Vec ℝ) - s.center).normalize Real.sqrt = ⟨0, 0, 1⟩ := by
    rw [hv]
    exact normalize_of_unit _ (by simp [Vec.dot])
  simp only [hitNormal, hn]
  rw [if_neg]
  simp [Vec.dot]

/-- The origin of the shadow rays at that hit point. -/
theorem axis_shadow_origin :
    (⟨0, 0, -4⟩ : Vec ℝ) + (⟨0, 0, 1⟩ : Vec ℝ).scale bias = ⟨0, 0, -4 + bias⟩ := by
  ext <;> simp

/-- Seen from `(0,0,-4)`, every center higher on the `z` axis is in the direction
`(0,0,1)`. -/
theorem axis_light_dir (s : orb ℝ) (cz : ℝ) (hc : s.center = ⟨0, 0, cz⟩) (h : -4 < cz) :
    (s.center - ⟨0, 0, -4⟩).normalize Real.sqrt = ⟨0, 0, 1⟩ := by
  have hpos : 0 < cz + 4 := by linarith
  rw [normalize_of_dot_self _ (cz + 4) hpos (by rw [hc]; simp [Vec.dot])]
  rw [hc]
  ext
  · simp
  · simp
  · simp only [Vec.scale_z, Vec.sub_z]
    field_simp

/-- The ray from `(0,0,oz)` along `(0,0,1)` and a sphere centered at `(0,0,cz)` with
`radius2 = 1`. -/
theorem axis_up_intersect (s : orb ℝ) (cz oz : ℝ) (hc : s.center = ⟨0, 0, cz⟩)
    (hr : s.radius2 = 1) :
    (oz ≤ cz → s.intersect Real.sqrt ⟨0, 0, oz⟩ ⟨0, 0, 1⟩ = some (cz - oz - 1, cz - oz + 1)) ∧
    (cz < oz → s.intersect Real.sqrt ⟨0, 0, oz⟩ ⟨0, 0, 1⟩ = none) := by
  constructor
  · intro h
    rw [intersect_eq_some_iff]
    simp only [hc, hr, Vec.dot, Vec.sub_x, Vec.sub_y, Vec.sub_z]
    have hz : (1 : ℝ) - ((0 - 0) * (0 - 0) + (0 - 0) * (0 - 0) + (cz - oz) * (cz - oz) -
        ((0 - 0) * 0 + (0 - 0) * 0 + (cz - oz) * 1) *
          ((0 - 0) * 0 + (0 - 0) * 0 + (cz - oz) * 1)) = 1 := by ring
    rw [hz, Real.sqrt_one]
    refine ⟨by linarith, by nlinarith, by ring, by ring⟩
  · intro h
    rw [intersect_eq_none_iff]
    left
    simp only [hc, Vec.dot, Vec.sub_x, Vec.sub_y, Vec.sub_z]
    linarith

/-- The primary ray along `(0,0,-1)` on a scene whose first sphere is diffuse,
centered at `(0,0,-5)` with `radius2 = 1`, and whose other spheres are centered on
the positive `z` axis: the first sphere is shaded by the diffuse branch at
`(0,0,-4)` with normal `(0,0,1)`. -/
theorem trace_axis_scene (H : orb ℝ) (rest : List (orb ℝ)) (depth : Int)
    (hc : H.center = ⟨0, 0, -5⟩) (hr : H.radius2 = 1)
    (ht : H.transparency = 0) (hf : H.reflection = 0)
    (hrest : ∀ s ∈ rest, ∃ cz : ℝ, 0 < cz ∧ s.center = ⟨0, 0, cz⟩) :
    nearest Real.sqrt ⟨0, 0, 0⟩ ⟨0, 0, -1⟩ (H :: rest) = some (4, H) ∧
    trace Real.sqrt ⟨0, 0, 0⟩ ⟨0, 0, -1⟩ (H :: rest) depth =
      diffuse Real.sqrt (H :: rest) H.surfaceColor ⟨0, 0, -4⟩ ⟨0, 0, 1⟩ := by
  have hnear : nearest Real.sqrt ⟨0, 0, 0⟩ ⟨0, 0, -1⟩ (H :: rest) = some (4, H) := by
    refine nearest_head Real.sqrt _ _ H rest 4 6 (axis_primary_hit H hc hr) (by norm_num) ?_
    intro s hs
    obtain ⟨cz, hcz, hsc⟩ := hrest s hs
    exact axis_primary_miss s cz hsc hcz
  refine ⟨hnear, ?_⟩
  have hcond : ¬ ((H.transparency > 0 ∨ H.reflection > 0) ∧ depth < MAX_RAY_DEPTH) := by
    simp [ht, hf]
  rw [trace_of_diffuse Real.sqrt _ _ _ depth 4 H hnear hcond, axis_hitPoint,
    axis_hitNormal H hc]

/-- The value `bias` lies strictly between `0` and `1`. -/
theorem bias_pos_lt_one : (0 : ℝ) < bias ∧ (bias : ℝ) < 1 := by
  unfold bias
  constructor <;> norm_num

/-- The shadow ray at `(0,0,-4)` toward a light on the positive `z` axis misses the
hit sphere centered at `(0,0,-5)`. -/
theorem axis_shadow_miss_hit_sphere (H : orb ℝ) (hc : H.center = ⟨0, 0, -5⟩)
    (hr : H.radius2 = 1) :
    H.intersect Real.sqrt ((⟨0, 0, -4⟩ : Vec ℝ) + (⟨0, 0, 1⟩ : Vec ℝ).scale bias) ⟨0, 0, 1⟩ =
      none := by
  rw [axis_shadow_origin]
  exact (axis_up_intersect H (-5) (-4 + bias) hc hr).2 (by linarith [bias_pos_lt_one.1])

/-- The shadow ray at `(0,0,-4)` along `(0,0,1)` and a sphere centered on the
positive `z` axis with `radius2 = 1`. -/
theorem axis_shadow_hit (s : orb ℝ) (cz : ℝ) (hc : s.center = ⟨0, 0, cz⟩) (hcz : 0 < cz)
    (hr : s.radius2 = 1) :
    s.intersect Real.sqrt ((⟨0, 0, -4⟩ : Vec ℝ) + (⟨0, 0, 1⟩ : Vec ℝ).scale bias) ⟨0, 0, 1⟩ =
      some (cz - (-4 + bias) - 1, cz - (-4 + bias) + 1) := by
  rw [axis_shadow_origin]
  exact (axis_up_intersect s cz (-4 + bias) hc hr).1 (by linarith [bias_pos_lt_one.2])

/-- The primary ray on a scene `[H, X, Y]` with `H` diffuse at `(0,0,-5)` and two
lights `X`, `Y` on the positive `z` axis. -/
theorem trace_axis_two_lights (H X Y : orb ℝ) (cx cy : ℝ) (depth : Int)
    (hc : H.center = ⟨0, 0, -5⟩) (hr : H.radius2 = 1)
    (ht : H.transparency = 0) (hf : H.reflection = 0) (he : ¬ H.emissionColor.x > 0)
    (hX : X.center = ⟨0, 0, cx⟩) (hcx : 0 < cx) (hXr : X.radius2 = 1)
    (hXe : X.emissionColor.x > 0)
    (hY : Y.center = ⟨0, 0, cy⟩) (hcy : 0 < cy) (hYr : Y.radius2 = 1)
    (hYe : Y.emissionColor.x > 0) :
    trace Real.sqrt ⟨0, 0, 0⟩ ⟨0, 0, -1⟩ [H, X, Y] depth =
      Vec.splat 1 +
        H.surfaceColor * (Vec.splat 1).scale (max 0 (1 - (1 - Y.transparency))) *
          X.emissionColor +
        H.surfaceColor * (Vec.splat 1).scale
          (max 0 (max 0 (1 - (1 - Y.transparency)) - (1 - X.transparency))) *
          Y.emissionColor := by
  have hrest : ∀ s ∈ [X, Y], ∃ cz : ℝ, 0 < cz ∧ s.center = ⟨0, 0, cz⟩ := by
    intro s hs
    simp only [List.mem_cons, List.mem_singleton, List.not_mem_nil, or_false] at hs
    rcases hs with rfl | rfl
    · exact ⟨cx, hcx, hX⟩
    · exact ⟨cy, hcy, hY⟩
  rw [(trace_axis_scene H [X, Y] depth hc hr ht hf hrest).2]
  refine diffuse_two_lights Real.sqrt H X Y _ _ _ ⟨0, 0, 1⟩ he hXe hYe
    (axis_light_dir X cx hX (by linarith)) (axis_light_dir Y cy hY (by linarith))
    (axis_shadow_miss_hit_sphere H hc hr) ?_ ?_
  · rw [axis_shadow_hit X cx hX hcx hXr]; rfl
  · rw [axis_shadow_hit Y cy hY hcy hYr]; rfl

/-- The colors of the two orders of the example scene. -/
theorem trace_two_orders :
    trace Real.sqrt ⟨0, 0, 0⟩ ⟨0, 0, -1⟩
        [orb.new (⟨0, 0, -5⟩ : Vec ℝ) 1 ⟨1, 1, 1⟩ 0 0 ⟨0, 0, 0⟩,
         orb.new (⟨0, 0, 5⟩ : Vec ℝ) 1 ⟨1, 1, 1⟩ 0 (1 / 2) ⟨1, 1, 1⟩,
         orb.new (⟨0, 0, 10⟩ : Vec ℝ) 1 ⟨1, 1, 1⟩ 0 (1 / 2) ⟨2, 2, 2⟩] 0 =
      ⟨3 / 2, 3 / 2, 3 / 2⟩ ∧
    trace Real.sqrt ⟨0, 0, 0⟩ ⟨0, 0, -1⟩
        [orb.new (⟨0, 0, -5⟩ : Vec ℝ) 1 ⟨1, 1, 1⟩ 0 0 ⟨0, 0, 0⟩,
         orb.new (⟨0, 0, 10⟩ : Vec ℝ) 1 ⟨1, 1, 1⟩ 0 (1 / 2) ⟨2, 2, 2⟩,
         orb.new (⟨0, 0, 5⟩ : Vec ℝ) 1 ⟨1, 1, 1⟩ 0 (1 / 2) ⟨1, 1, 1⟩] 0 =
      ⟨2, 2, 2⟩ := by
  have hhalf : max (0 : ℝ) (1 - (1 - 1 / 2)) = 1 / 2 := by norm_num
  have hzero : max (0 : ℝ) (1 / 2 - (1 - 1 / 2)) = 0 := by norm_num
  constructor
  · rw [trace_axis_two_lights _ _ _ 5 10 0 rfl (by simp [orb.new]) rfl rfl (by simp [orb.new])
      rfl (by norm_num) (by simp [orb.new]) (by simp [orb.new])
      rfl (by norm_num) (by simp [orb.new]) (by simp [orb.new])]
    simp only [orb.new, hhalf, hzero]
    ext <;> norm_num
  · rw [trace_axis_two_lights _ _ _ 10 5 0 rfl (by simp [orb.new]) rfl rfl (by simp [orb.new])
      rfl (by norm_num) (by simp [orb.new]) (by simp [orb.new])
      rfl (by norm_num) (by simp [orb.new]) (by simp [orb.new])]
    simp only [orb.new, hhalf, hzero]
    ext <;> norm_num

/-- C16: the running `shadow` of the diffuse branch is not reset between lights: the
occluder loop of each light starts from the `shadow` left by the previous
lights (and from `1` for the first, see `diffuse`) and hands its own on.  So the
attenuation of a light depends on the lights before it: there are a scene and a
ray for which exchanging two light spheres in the scene order changes the color
returned by `trace`, from `(1.5,1.5,1.5)` to `(2,2,2)`. -/
theorem light_order_changes_color :
    (∀ (orbs : List (orb ℝ)) (sc phit nhit : Vec ℝ) (st : ℝ × Vec ℝ) (io : Nat × orb ℝ),
      io.2.emissionColor.x > 0 →
        (lightStep Real.sqrt orbs sc phit nhit st io).1 =
          (shadowLoop Real.sqrt orbs io.1 (phit + nhit.scale bias)
            ((io.2.center - phit).normalize Real.sqrt) st.1).1) ∧
    ∃ (H A B : orb ℝ) (o d : Vec ℝ),
      d.dot d = 1 ∧ A.emissionColor.x > 0 ∧ B.emissionColor.x > 0 ∧
      trace Real.sqrt o d [H, A, B] 0 = ⟨3 / 2, 3 / 2, 3 / 2⟩ ∧
      trace Real.sqrt o d [H, B, A] 0 = ⟨2, 2, 2⟩ ∧
      trace Real.sqrt o d [H, A, B] 0 ≠ trace Real.sqrt o d [H, B, A] 0 := by
  constructor
  · intro orbs sc phit nhit st io hio
    simp only [lightStep, hio, if_true]
  · refine ⟨orb.new ⟨0, 0, -5⟩ 1 ⟨1, 1, 1⟩ 0 0 ⟨0, 0, 0⟩,
      orb.new ⟨0, 0, 5⟩ 1 ⟨1, 1, 1⟩ 0 (1 / 2) ⟨1, 1, 1⟩,
      orb.new ⟨0, 0, 10⟩ 1 ⟨1, 1, 1⟩ 0 (1 / 2) ⟨2, 2, 2⟩, ⟨0, 0, 0⟩, ⟨0, 0, -1⟩,
      by simp [Vec.dot], by simp [orb.new], by simp [orb.new],
      trace_two_orders.1, trace_two_orders.2, ?_⟩
    rw [trace_two_orders.1, trace_two_orders.2]
    intro h
    have hx := congrArg Vec.x h
    norm_num at hx

/-- The primary ray on a scene `[H, L, O]` with `H` diffuse at `(0,0,-5)`, a light
`L` and a sphere `O` that is no light, both on the positive `z` axis. -/
theorem trace_axis_light_occluder (H L O : orb ℝ) (cl co : ℝ) (depth : Int)
    (hc : H.center = ⟨0, 0, -5⟩) (hr : H.radius2 = 1)
    (ht : H.transparency = 0) (hf : H.reflection = 0) (he : ¬ H.emissionColor.x > 0)
    (hL : L.center = ⟨0, 0, cl⟩) (hcl : 0 < cl) (hLe : L.emissionColor.x > 0)
    (hO : O.center = ⟨0, 0, co⟩) (hco : 0 < co) (hOr : O.radius2 = 1)
    (hOe : ¬ O.emissionColor.x > 0) :
    trace Real.sqrt ⟨0, 0, 0⟩ ⟨0, 0, -1⟩ [H, L, O] depth =
      Vec.splat 1 +
        H.surfaceColor * (Vec.splat 1).scale (max 0 (1 - (1 - O.transparency))) *
          L.emissionColor := by
  have hrest : ∀ s ∈ [L, O], ∃ cz : ℝ, 0 < cz ∧ s.center = ⟨0, 0, cz⟩ := by
    intro s hs
    simp only [List.mem_cons, List.mem_singleton, List.not_mem_nil, or_false] at hs
    rcases hs with rfl | rfl
    · exact ⟨cl, hcl, hL⟩
    · exact ⟨co, hco, hO⟩
  rw [(trace_axis_scene H [L, O] depth hc hr ht hf hrest).2]
  refine diffuse_light_occluder Real.sqrt H L O _ _ _ he hLe hOe ?_ ?_
  · rw [axis_light_dir L cl hL (by linarith)]
    exact axis_shadow_miss_hit_sphere H hc hr
  · rw [axis_light_dir L cl hL (by linarith), axis_shadow_hit O co hO hco hOr]
    rfl

/-- The primary ray on a scene `[H, L]` with `H` diffuse at `(0,0,-5)` and a light
`L` on the positive `z` axis. -/
theorem trace_axis_light_alone (H L : orb ℝ) (cl : ℝ) (depth : Int)
    (hc : H.center = ⟨0, 0, -5⟩) (hr : H.radius2 = 1)
    (ht : H.transparency = 0) (hf : H.reflection = 0) (he : ¬ H.emissionColor.x > 0)
    (hL : L.center = ⟨0, 0, cl⟩) (hcl : 0 < cl) (hLe : L.emissionColor.x > 0) :
    trace Real.sqrt ⟨0, 0, 0⟩ ⟨0, 0, -1⟩ [H, L] depth =
      Vec.splat 1 + H.surfaceColor * Vec.splat 1 * L.emissionColor := by
  have hrest : ∀ s ∈ [L], ∃ cz : ℝ, 0 < cz ∧ s.center = ⟨0, 0, cz⟩ := by
    intro s hs
    rw [List.mem_singleton] at hs
    exact ⟨cl, hcl, by rw [hs]; exact hL⟩
  rw [(trace_axis_scene H [L] depth hc hr ht hf hrest).2]
  refine diffuse_light_alone Real.sqrt H L _ _ _ he hLe ?_
  rw [axis_light_dir L cl hL (by linarith)]
  exact axis_shadow_miss_hit_sphere H hc hr

/-- C19: the shadow test ignores the distance to the light.  Every sphere other
than the light that `orb::intersect` reports as hit by the shadow ray lowers
`shadow` and scales `transmission`, wherever it lies.  There are a scene, a unit
ray hitting a diffuse sphere `H`, a light `L` and a sphere `O` with
`transparency = 0` that the shadow ray meets only beyond `L` (the exit distance
of `L` is below the entry distance of `O`), such that with `O` the light adds
the zero vector to the color, and without `O` it adds
`surfaceColor * 1 * emissionColor`, which is not zero. -/
theorem shadow_ignores_light_distance :
    (∀ (i j : Nat) (org dir : Vec ℝ) (st : ℝ × Vec ℝ) (occ : orb ℝ), i ≠ j →
      (occ.intersect Real.sqrt org dir).isSome = true →
        shadowStep Real.sqrt i org dir st (j, occ) =
          (max 0 (st.1 - (1 - occ.transparency)),
            st.2.scale (max 0 (st.1 - (1 - occ.transparency))))) ∧
    ∃ (H L O : orb ℝ) (o d : Vec ℝ) (t : ℝ),
      d.dot d = 1 ∧ nearest Real.sqrt o d [H, L, O] = some (t, H) ∧
      H.transparency = 0 ∧ H.reflection = 0 ∧
      L.emissionColor.x > 0 ∧ O.transparency = 0 ∧
      (∃ a b a' b' : ℝ,
        L.intersect Real.sqrt
            (hitPoint o d t + (hitNormal Real.sqrt d (hitPoint o d t) H).scale bias)
            ((L.center - hitPoint o d t).normalize Real.sqrt) = some (a, b) ∧
        O.intersect Real.sqrt
            (hitPoint o d t + (hitNormal Real.sqrt d (hitPoint o d t) H).scale bias)
            ((L.center - hitPoint o d t).normalize Real.sqrt) = some (a', b') ∧
        0 < a ∧ b < a') ∧
      trace Real.sqrt o d [H, L, O] 0 = Vec.splat 1 + Vec.splat 0 ∧
      trace Real.sqrt o d [H, L] 0 = Vec.splat 1 + H.surfaceColor * Vec.splat 1 * L.emissionColor ∧
      H.surfaceColor * Vec.splat 1 * L.emissionColor ≠ Vec.splat 0 := by
  refine ⟨fun i j org dir st occ hij h => shadowStep_of_hit Real.sqrt i j org dir st occ hij h,
    orb.new ⟨0, 0, -5⟩ 1 ⟨1, 1, 1⟩ 0 0 ⟨0, 0, 0⟩,
    orb.new ⟨0, 0, 5⟩ 1 ⟨1, 1, 1⟩ 0 0 ⟨1, 1, 1⟩,
    orb.new ⟨0, 0, 10⟩ 1 ⟨1, 1, 1⟩ 0 0 ⟨0, 0, 0⟩, ⟨0, 0, 0⟩, ⟨0, 0, -1⟩, 4,
    by simp [Vec.dot], ?_, rfl, rfl, by simp [orb.new], rfl, ?_, ?_, ?_, ?_⟩
  · refine (trace_axis_scene _ _ 0 rfl (by simp [orb.new]) rfl rfl ?_).1
    intro s hs
    simp only [List.mem_cons, List.mem_singleton, List.not_mem_nil, or_false] at hs
    rcases hs with rfl | rfl
    · exact ⟨5, by norm_num, rfl⟩
    · exact ⟨10, by norm_num, rfl⟩
  · rw [axis_hitPoint, axis_hitNormal _ rfl,
      axis_light_dir (orb.new ⟨0, 0, 5⟩ 1 ⟨1, 1, 1⟩ 0 0 ⟨1, 1, 1⟩) 5 rfl (by norm_num)]
    refine ⟨_, _, _, _, axis_shadow_hit _ 5 rfl (by norm_num) (by simp [orb.new]),
      axis_shadow_hit _ 10 rfl (by norm_num) (by simp [orb.new]), ?_, ?_⟩
    · linarith [bias_pos_lt_one.2]
    · linarith
  · rw [trace_axis_light_occluder _ _ _ 5 10 0 rfl (by simp [orb.new]) rfl rfl
      (by simp [orb.new]) rfl (by norm_num) (by simp [orb.new]) rfl (by norm_num)
      (by simp [orb.new]) (by simp [orb.new])]
    ext <;> simp [orb.new]
  · exact trace_axis_light_alone _ _ 5 0 rfl (by simp [orb.new]) rfl rfl (by simp [orb.new])
      rfl (by norm_num) (by simp [orb.new])
  · intro h
    have hx := congrArg Vec.x h
    simp [orb.new] at hx

/-! ## C8 in the arithmetic of the program: the bias is absorbed

`trace_lone_mirror` is a statement about exact arithmetic.  The program computes
in binary32, where `bias = 1e-4` is below half a unit in the last place of every
number from `2^11` on.  When a coordinate of `center - rayorig` is that large, the
offset `nhit * bias` of the reflected ray is lost in the first subtraction of
`orb::intersect`: the reflected ray is seen as starting on the sphere, it is
reported to hit at distance `0`, and `trace` reflects it again.  Every bounce adds
`bias` to the origin, and the bounces go on until the sum is no longer absorbed
or the depth limit is reached. -/

/-- What `ulpExp` returns is the least exponent `q ≥ qmin` with
`num / den < 2 ^ (q + prec)`, and it is at most `qmax`. -/
theorem ulpExp_spec (prec qmin qmax num den q : Nat)
    (h : ulpExp prec qmin qmax num den = some q) :
    qmin ≤ q ∧ q ≤ qmax ∧ num < den * 2 ^ (q + prec) ∧
      (q = qmin ∨ den * 2 ^ (q + prec - 1) ≤ num) := by
  unfold ulpExp at h
  dsimp only at h
  split_ifs at h with h1 h2 h3
  · injection h with h
    subst h
    exact ⟨le_max_left _ _, h2.1, h2.2.1, h2.2.2⟩
  · injection h with h
    subst h
    exact ⟨le_trans (le_max_left _ _) (Nat.le_succ _), h3.1, h3.2.1, h3.2.2⟩

/-- Among the multiples of `d`, the one chosen by the rule of `roundNat` is
nearest to `d * f + r`, and at a tie it is the even one. -/
theorem nearest_multiple (d f r : Int) (hd : 0 < d) (hr0 : 0 ≤ r) (hr : r < d) (n : Int)
    (hn : n = if 2 * r < d then f else if d < 2 * r then f + 1
      else if f % 2 = 0 then f else f + 1) (k : Int) :
    |d * f + r - n * d| ≤ |d * f + r - k * d| ∧
      (k ≠ n → |d * f + r - k * d| = |d * f + r - n * d| → n % 2 = 0) := by
  have hk : k ≤ f ∨ f + 1 ≤ k := by omega
  have hkabs : (k ≤ f → |d * f + r - k * d| = d * (f - k) + r) ∧
      (f + 1 ≤ k → |d * f + r - k * d| = d * (k - f) - r) := by
    constructor
    · intro h
      have : 0 ≤ d * (f - k) := mul_nonneg hd.le (by omega)
      rw [abs_of_nonneg (by nlinarith)]; ring
    · intro h
      have : 0 ≤ d * (k - f - 1) := mul_nonneg hd.le (by omega)
      rw [abs_of_nonpos (by nlinarith)]; ring
  have hf : |d * f + r - f * d| = r := by
    rw [show d * f + r - f * d = r by ring, abs_of_nonneg hr0]
  have hf1 : |d * f + r - (f + 1) * d| = d - r := by
    rw [show d * f + r - (f + 1) * d = -(d - r) by ring, abs_neg, abs_of_nonneg (by omega)]
  have hlow : k ≤ f → d * (f - k) + r ≥ r ∧ (k ≠ f → d * (f - k) + r ≥ d + r) := by
    intro h
    constructor
    · have : 0 ≤ d * (f - k) := mul_nonneg hd.le (by omega)
      omega
    · intro hne
      have : 0 ≤ d * (f - k - 1) := mul_nonneg hd.le (by omega)
      nlinarith
  have hhigh : f + 1 ≤ k → d * (k - f) - r ≥ d - r ∧ (k ≠ f + 1 → d * (k - f) - r ≥ 2 * d - r) := by
    intro h
    constructor
    · have : 0 ≤ d * (k - f - 1) := mul_nonneg hd.le (by omega)
      nlinarith
    · intro hne
      have : 0 ≤ d * (k - f - 2) := mul_nonneg hd.le (by omega)
      nlinarith
  split_ifs at hn with h1 h2 h3
  · subst hn
    rw [hf]
    rcases hk with h | h
    · rw [hkabs.1 h]
      refine ⟨(hlow h).1, fun hne heq => ?_⟩
      have := (hlow h).2 hne
      omega
    · rw [hkabs.2 h]
      have := (hhigh h).1
      exact ⟨by omega, fun _ heq => by omega⟩
  · subst hn
    rw [hf1]
    rcases hk with h | h
    · rw [hkabs.1 h]
      have := (hlow h).1
      exact ⟨by omega, fun _ heq => by omega⟩
    · rw [hkabs.2 h]
      refine ⟨(hhigh h).1, fun hne heq => ?_⟩
      have := (hhigh h).2 hne
      omega
  · subst hn
    rw [hf]
    rcases hk with h | h
    · rw [hkabs.1 h]
      exact ⟨(hlow h).1, fun _ _ => h3⟩
    · rw [hkabs.2 h]
      have := (hhigh h).1
      exact ⟨by omega, fun _ _ => h3⟩
  · subst hn
    rw [hf1]
    rcases hk with h | h
    · rw [hkabs.1 h]
      have := (hlow h).1
      exact ⟨by omega, fun _ _ => by omega⟩
    · rw [hkabs.2 h]
      exact ⟨(hhigh h).1, fun _ _ => by omega⟩

/-- What `roundNat` returns is a multiple `n * 2 ^ q` of the unit in the last
place `2 ^ q` of `num / den`, with `n ≤ 2 ^ prec`, below the overflow threshold,
nearest to `num / den` among the multiples of `2 ^ q`, and with `n` even when
another multiple is as near. -/
theorem roundNat_spec (prec qmin qmax num den m : Nat)
    (h : roundNat prec qmin qmax num den = some m) :
    ∃ q n : Nat, ulpExp prec qmin qmax num den = some q ∧ m = n * 2 ^ q ∧ n ≤ 2 ^ prec ∧
      m < 2 ^ (qmax + prec) ∧
      ∀ k : Nat,
        |(num : Int) - n * (den * 2 ^ q)| ≤ |(num : Int) - k * (den * 2 ^ q)| ∧
        (k ≠ n → |(num : Int) - k * (den * 2 ^ q)| = |(num : Int) - n * (den * 2 ^ q)| →
          n % 2 = 0) := by
  unfold roundNat at h
  by_cases hden : den = 0
  · rw [if_pos hden] at h
    exact absurd h (by simp)
  rw [if_neg hden] at h
  cases hq : ulpExp prec qmin qmax num den with
  | none => rw [hq] at h; simp at h
  | some q =>
    rw [hq] at h
    dsimp only at h
    obtain ⟨n, hn, h⟩ : ∃ n, n = (if 2 * (num % (den * 2 ^ q)) < den * 2 ^ q then
          num / (den * 2 ^ q)
        else if den * 2 ^ q < 2 * (num % (den * 2 ^ q)) then num / (den * 2 ^ q) + 1
        else if num / (den * 2 ^ q) % 2 = 0 then num / (den * 2 ^ q)
        else num / (den * 2 ^ q) + 1) ∧
        (if n * 2 ^ q < 2 ^ (qmax + prec) then some (n * 2 ^ q) else none) = some m :=
      ⟨_, rfl, h⟩
    by_cases hov : n * 2 ^ q < 2 ^ (qmax + prec)
    · rw [if_pos hov] at h
      injection h with h
      have hspec := ulpExp_spec prec qmin qmax num den q hq
      have hdpos : 0 < den * 2 ^ q := Nat.mul_pos (Nat.pos_of_ne_zero hden) (by positivity)
      have hrlt : num % (den * 2 ^ q) < den * 2 ^ q := Nat.mod_lt _ hdpos
      have hdm : den * 2 ^ q * (num / (den * 2 ^ q)) + num % (den * 2 ^ q) = num :=
        Nat.div_add_mod num (den * 2 ^ q)
      have hflt : num / (den * 2 ^ q) < 2 ^ prec := by
        rw [Nat.div_lt_iff_lt_mul hdpos]
        calc num < den * 2 ^ (q + prec) := hspec.2.2.1
          _ = 2 ^ prec * (den * 2 ^ q) := by rw [pow_add]; ring
      refine ⟨q, n, rfl, h.symm, ?_, h ▸ hov, fun k => ?_⟩
      · rw [hn]; split_ifs <;> omega
      · have key := nearest_multiple ((den * 2 ^ q : Nat) : Int)
          ((num / (den * 2 ^ q) : Nat) : Int) ((num % (den * 2 ^ q) : Nat) : Int)
          (by exact_mod_cast hdpos) (by positivity) (by exact_mod_cast hrlt) (n : Int)
          (by
            rw [hn]
            split_ifs <;> first | rfl | omega)
          (k : Int)
        have hN : ((den * 2 ^ q : Nat) : Int) * ((num / (den * 2 ^ q) : Nat) : Int) +
            ((num % (den * 2 ^ q) : Nat) : Int) = (num : Int) := by exact_mod_cast hdm
        rw [hN] at key
        push_cast at key ⊢
        refine ⟨key.1, fun hne heq => ?_⟩
        have := key.2 (by exact_mod_cast hne) heq
        exact_mod_cast this
    · rw [if_neg hov] at h
      simp at h

/-- Constants of the source and a square root, as binary32 numbers:
`1e-4f = 13743895 * 2^-37`, `0.1f = 13421773 * 2^-27`, `1.2f = 10066330 * 2^-23`,
`sqrt(2.0f) = 11863283 * 2^-23`, and `10001.0f * 10001.0f = 100020000`. -/
theorem binary32_known_values :
    literal32 1 10000 = some (dyadic 13743895 37) ∧
    literal32 1 10 = some (dyadic 13421773 27) ∧
    literal32 12 10 = some (dyadic 10066330 23) ∧
    fsqrt (2 * one32) = some (dyadic 11863283 23) ∧
    fmul (10001 * one32) (10001 * one32) = some (100020000 * one32) := by
  decide!

/-- In exact arithmetic the same sphere and ray follow the claim: `orb::intersect`
reports the hit `t0 = t1 = 20`, the reflected ray, from `(0, bias, -20)` along
`(0, 0, -1)`, misses the sphere, and `trace` returns `fresnel * c = (1/2, 1/4, 1)`. -/
theorem trace_lone_mirror_exact_8192 :
    (orb.new (⟨0, -8192, -20⟩ : Vec ℝ) 8192 ⟨1 / 2, 1 / 4, 1⟩ 1 0 ⟨0, 0, 0⟩).intersect Real.sqrt
        ⟨0, 0, 0⟩ ⟨0, 0, -1⟩ = some (20, 20) ∧
    (orb.new (⟨0, -8192, -20⟩ : Vec ℝ) 8192 ⟨1 / 2, 1 / 4, 1⟩ 1 0 ⟨0, 0, 0⟩).intersect Real.sqrt
        (⟨0, 0, -20⟩ + (⟨0, 1, 0⟩ : Vec ℝ).scale bias) ⟨0, 0, -1⟩ = none ∧
    trace Real.sqrt ⟨0, 0, 0⟩ ⟨0, 0, -1⟩
        [orb.new (⟨0, -8192, -20⟩ : Vec ℝ) 8192 ⟨1 / 2, 1 / 4, 1⟩ 1 0 ⟨0, 0, 0⟩] 0 =
      ⟨1 / 2, 1 / 4, 1⟩ := by
  have hhit : (orb.new (⟨0, -8192, -20⟩ : Vec ℝ) 8192 ⟨1 / 2, 1 / 4, 1⟩ 1 0 ⟨0, 0, 0⟩).intersect
      Real.sqrt ⟨0, 0, 0⟩ ⟨0, 0, -1⟩ = some (20, 20) := by
    simp only [orb.intersect, orb.new, Vec.dot, Vec.sub_x, Vec.sub_y, Vec.sub_z]
    norm_num
  have h := trace_lone_mirror (orb.new (⟨0, -8192, -20⟩ : Vec ℝ) 8192 ⟨1 / 2, 1 / 4, 1⟩ 1 0 ⟨0, 0, 0⟩)
    ⟨0, 0, 0⟩ ⟨0, 0, -1⟩ 0 20 20 (by simp [orb.new]) (by simp [orb.new]) (by simp [orb.new])
    (by simp [orb.new]) (by simp [orb.new, Vec.dot]) (by simp [Vec.dot]) hhit
    (by decide)
  have hn : (orb.new (⟨0, -8192, -20⟩ : Vec ℝ) 8192 ⟨1 / 2, 1 / 4, 1⟩ 1 0 ⟨0, 0, 0⟩).outwardNormal
      (hitPoint ⟨0, 0, 0⟩ ⟨0, 0, -1⟩ 20) = ⟨0, 1, 0⟩ := by
    ext <;> norm_num [orb.outwardNormal, orb.new, hitPoint, Vec.scale]
  have hp : hitPoint (⟨0, 0, 0⟩ : Vec ℝ) ⟨0, 0, -1⟩ 20 = ⟨0, 0, -20⟩ := by
    ext <;> norm_num [hitPoint, Vec.scale]
  have hr : reflectDir Real.sqrt (⟨0, 0, -1⟩ : Vec ℝ) ⟨0, 1, 0⟩ = ⟨0, 0, -1⟩ := by
    rw [reflectDir_of_unit _ _ (by simp [Vec.dot]) (by simp [Vec.dot])]
    ext <;> norm_num [Vec.scale, Vec.dot]
  refine ⟨hhit, ?_, ?_⟩
  · have := h.2.2.2.1
    rw [hn, hp, hr] at this
    exact this
  · rw [h.2.2.2.2.2.1, hn]
    ext <;> norm_num [orb.new, Vec.scale, Vec.dot]

/-- C8, at a lone mirror sphere on which the binary32 program leaves the claim:
the sphere `orb((0, -8192, -20), 8192, (1/2, 1/4, 1), 1, 0)` has `radius > 0`,
`reflection > 0` and `transparency = 0`; the origin `(0, 0, 0)` is strictly
outside it, the direction `(0, 0, -1)` is a unit vector, and `orb::intersect`
reports a hit, with `t0 = t1 = 20`.  The hit point is `(0, 0, -20)`, the normal
`(0, 1, 0)`, `fresneleffect` is `1`, and the reflected ray runs from
`(0, bias, -20)` along `(0, 0, -1)`.  In `orb::intersect` the difference
`center - rayorig` of that ray is `(0, -8192, 0)`, the bias is absorbed; the
reflected ray is reported to hit the sphere, at `t0 = t1 = 0`.  The call
`trace(rayorig, raydir, scene, 0)` returns `(1/32, 1/1024, 1)`, the fifth power
of the surface color (the calls at depth 1 to 4 hit the sphere again), and not
`fresnel * c = (1/2, 1/4, 1)`. -/
theorem trace32_lone_mirror_rehit :
    orb.new32 ⟨0, -8192 * one32, -20 * one32⟩ (8192 * one32) ⟨dyadic 1 1, dyadic 1 2, one32⟩
        one32 0 (Vec.splat 0) = some mirror8192 ∧
    mirror8192.center.dot32 mirror8192.center = some (67109264 * one32) ∧
    67109264 * one32 > mirror8192.radius2 ∧
    Vec.dot32 ⟨0, 0, -one32⟩ ⟨0, 0, -one32⟩ = some one32 ∧
    mirror8192.intersect32 ⟨0, 0, 0⟩ ⟨0, 0, -one32⟩ = some (some (20 * one32, 20 * one32)) ∧
    hitPoint32 ⟨0, 0, 0⟩ ⟨0, 0, -one32⟩ (20 * one32) = some ⟨0, 0, -20 * one32⟩ ∧
    hitNormal32 ⟨0, 0, -one32⟩ ⟨0, 0, -20 * one32⟩ mirror8192 = some ⟨0, one32, 0⟩ ∧
    fresnel32 ⟨0, 0, -one32⟩ ⟨0, one32, 0⟩ = some one32 ∧
    reflectDir32 ⟨0, 0, -one32⟩ ⟨0, one32, 0⟩ = some ⟨0, 0, -one32⟩ ∧
    biasedOrigin32 ⟨0, 0, -20 * one32⟩ ⟨0, one32, 0⟩ =
      some ⟨0, dyadic 13743895 37, -20 * one32⟩ ∧
    mirror8192.center.sub32 ⟨0, dyadic 13743895 37, -20 * one32⟩ =
      some ⟨0, -8192 * one32, 0⟩ ∧
    mirror8192.intersect32 ⟨0, dyadic 13743895 37, -20 * one32⟩ ⟨0, 0, -one32⟩ =
      some (some (0, 0)) ∧
    trace32 ⟨0, 0, 0⟩ ⟨0, 0, -one32⟩ [mirror8192] 0 =
      some ⟨dyadic 1 5, dyadic 1 10, one32⟩ ∧
    mirror8192.surfaceColor.scale32 one32 = some ⟨dyadic 1 1, dyadic 1 2, one32⟩ ∧
    trace32 ⟨0, 0, 0⟩ ⟨0, 0, -one32⟩ [mirror8192] 0 ≠ mirror8192.surfaceColor.scale32 one32 := by
  decide!

/-- The same at the scale of the floor sphere of the scene built in `show_balls`: for the
sphere `orb((0, -10004, -20), 10001, (1/2, 1/4, 1), 1, 0)` and the ray from
`(0, -3, 0)`, which is outside, along `(0, 0, -1)`, `orb::intersect` reports a
hit with `t0 = t1 = 20`, the reflected ray starts at `(0, -3 + bias, -20)`
rounded, the difference `center - rayorig` of that ray is `(0, -10001, 0)`, the
reflected ray is reported to hit at `t0 = t1 = 0`, and `trace` returns
`(1/32, 1/1024, 1)`. -/
theorem trace32_floor_mirror_rehit :
    orb.new32 ⟨0, -10004 * one32, -20 * one32⟩ (10001 * one32) ⟨dyadic 1 1, dyadic 1 2, one32⟩
        one32 0 (Vec.splat 0) = some mirror10001 ∧
    mirror10001.intersect32 ⟨0, -3 * one32, 0⟩ ⟨0, 0, -one32⟩ =
      some (some (20 * one32, 20 * one32)) ∧
    hitNormal32 ⟨0, 0, -one32⟩ ⟨0, -3 * one32, -20 * one32⟩ mirror10001 = some ⟨0, one32, 0⟩ ∧
    fresnel32 ⟨0, 0, -one32⟩ ⟨0, one32, 0⟩ = some one32 ∧
    biasedOrigin32 ⟨0, -3 * one32, -20 * one32⟩ ⟨0, one32, 0⟩ =
      some ⟨0, dyadic (-12582493) 22, -20 * one32⟩ ∧
    mirror10001.center.sub32 ⟨0, dyadic (-12582493) 22, -20 * one32⟩ =
      some ⟨0, -10001 * one32, 0⟩ ∧
    mirror10001.intersect32 ⟨0, dyadic (-12582493) 22, -20 * one32⟩ ⟨0, 0, -one32⟩ =
      some (some (0, 0)) ∧
    trace32 ⟨0, -3 * one32, 0⟩ ⟨0, 0, -one32⟩ [mirror10001] 0 =
      some ⟨dyadic 1 5, dyadic 1 10, one32⟩ := by
  decide!

/-- At the scale of a unit sphere the binary32 program does what the claim says:
for the sphere `orb((0, -1, -20), 1, (1/2, 1/4, 1), 1, 0)` and the ray from
`(0, 0, 0)` along `(0, 0, -1)`, `orb::intersect` reports a hit with
`t0 = t1 = 20`, the reflected ray, from `(0, bias, -20)` along `(0, 0, -1)`,
misses the sphere, and `trace` returns `fresnel * c = (1/2, 1/4, 1)`. -/
theorem trace32_unit_mirror_misses :
    orb.new32 ⟨0, -one32, -20 * one32⟩ one32 ⟨dyadic 1 1, dyadic 1 2, one32⟩
        one32 0 (Vec.splat 0) = some mirror1 ∧
    mirror1.intersect32 ⟨0, 0, 0⟩ ⟨0, 0, -one32⟩ = some (some (20 * one32, 20 * one32)) ∧
    hitNormal32 ⟨0, 0, -one32⟩ ⟨0, 0, -20 * one32⟩ mirror1 = some ⟨0, one32, 0⟩ ∧
    biasedOrigin32 ⟨0, 0, -20 * one32⟩ ⟨0, one32, 0⟩ =
      some ⟨0, dyadic 13743895 37, -20 * one32⟩ ∧
    mirror1.intersect32 ⟨0, dyadic 13743895 37, -20 * one32⟩ ⟨0, 0, -one32⟩ = some none ∧
    trace32 ⟨0, 0, 0⟩ ⟨0, 0, -one32⟩ [mirror1] 0 = some ⟨dyadic 1 1, dyadic 1 2, one32⟩ := by
  decide!

end RayTracing
